import Mathlib

/-! The job dispatch pool of `src/job_system.hpp`, the Hilbert curve of
`src/hilbert.hpp` and the fixed-width integer of `src/integer.hpp`.

## The job dispatch pool

A shallow embedding of class `job_system`.  The three data members the code
reads and writes (`enabled`, `workers`, `jobs`) form the record `job_system`;
the mutex `utx` is modelled by making every critical section one atomic
transition.  The member functions that consist of one critical section
(`dispatch`, `cancel`) are functions on that record; the ones that block on
other threads (`join`, `reset`, the worker loop) are split at their blocking
points into the events of a step function on `World`, which adds to the record
the position of the thread that runs `join`/`reset`, the jobs that callers are
running in the synchronous fallback, and ghost logs used to state the claims.

The move constructor is the pair of functions `move_take` and `move_finish`,
between which the source pool runs a whole `join()` in its own `World`.

Condition variables are over-approximated: a waiting thread may be scheduled
at any time (the C++ standard allows spurious wake-ups), and it re-tests its
condition under the lock exactly as the code does.

## The Hilbert curve

An object of type `hilbert_curve<ORDER, ROOT>` is the list of its `8^ORDER`
vectors in the order of its nested arrays, which is how `operator []`, `begin`
and `end` read it.  The bit-fields of `uvec3<N>` are natural numbers, reduced
modulo `2^N` where the code stores into them.

## The integer

An object of type `integer<Bits, IntType>` is the list of its words, least
significant first; a `uint` is a natural number below `2^32` and a `ulong` one
below `2^64`, with the reductions written where the code truncates.  The loops
are the functions `forUp` and `forDown` applied to the loop bodies.  A
`std::string` is the list of the values of its characters.
-/

namespace JobSystem

/-- A non-empty `std::function<void()>`.  `id` is a ghost label; `cancels` tells
whether the closure calls `cancel()` on its own pool once before it returns, as
the third job of `test_job` does.  Calls of `dispatch` and `cancel` from other
code are the events `dispatch` and `cancel`, which any thread may take. -/
structure Job where
  id : Nat
  cancels : Bool
deriving DecidableEq, Repr

/-- The type `job_t`: a `std::function<void()>`, `none` being the empty function (`== nullptr`). -/
abbrev job_t := Option Job

/-- State of one `std::thread` of the vector `workers`. -/
inductive Thread where
  /-- in the loop of `add_worker` and not holding the lock: starting, waiting on
  `worker_thread`, or about to relock after a job -/
  | idle
  /-- running `job()` outside the lock (line 38); `called` records that the body
  has made its `cancel()` call -/
  | busy (job : Job) (called : Bool)
  /-- left the loop because `enabled` was false; still joinable -/
  | exited
  /-- the call `join()` has returned for this handle: no longer joinable -/
  | joined
deriving DecidableEq, Repr

/-- The data members of class `job_system` (lines 16-20) without the
synchronisation objects.  `dispatch` never pushes an empty function, so the
deque holds non-empty jobs. -/
structure job_system where
  enabled : Bool
  workers : List Thread
  jobs : List Job
deriving DecidableEq, Repr

namespace job_system

/-- Lines 23-42, the `emplace_back`: a new thread that starts in the loop. -/
def add_worker (s : job_system) : job_system :=
  { s with workers := s.workers ++ [Thread.idle] }

/-- Lines 44-49. -/
def allocate_and_launch_threads : Nat → job_system → job_system
  | 0, s => s
  | n + 1, s => allocate_and_launch_threads n (add_worker s)

/-- Line 65, the default constructor with the member initialisers. -/
def default : job_system :=
  { enabled := true, workers := [], jobs := [] }

/-- Lines 68-72, `job_system( size_t num_threads )`. -/
def create (num_threads : Nat) : job_system :=
  allocate_and_launch_threads num_threads default

/-- Lines 78-89.  Returns the new state and the jobs `dispatch` invoked on the
calling thread (line 84).  What the invoked job's own body does to the pool is
not part of `dispatch`: it is the event `syncCancel` of the step function. -/
def dispatch (s : job_system) (job : job_t) : job_system × List Job :=
  match job with
  | none => (s, [])
  | some j =>
    if !s.enabled || s.workers.isEmpty then (s, [j])
    else ({ s with jobs := s.jobs ++ [j] }, [])

/-- Lines 101-105, the loop that moves the queue into `remaining`: returns the
final `(jobs, remaining)`. -/
def cancel_loop : List Job → List Job → List Job × List Job
  | [], remaining => ([], remaining)
  | j :: jobs, remaining => cancel_loop jobs (remaining ++ [j])

/-- Lines 93-110.  Returns the new state and the vector `remaining`. -/
def cancel (s : job_system) : job_system × List Job :=
  let r := cancel_loop s.jobs []
  ({ s with enabled := false, jobs := r.1 }, r.2)

/-- Lines 54-56, the part of `disable_and_stop_all_threads` before the joins;
each join of line 58 is one event `joinThread` of the step function. -/
def disable_and_stop_all_threads (s : job_system) : job_system :=
  { s with enabled := false }

/-- What one pass of the worker loop does under the lock. -/
inductive LoopResult where
  /-- line 30: the queue is empty, the thread waits -/
  | waits
  /-- lines 32-37: the front job was taken -/
  | claims (s : job_system) (job : Job)
  /-- the loop condition `enabled` is false: the thread function returns -/
  | exits (s : job_system)
deriving DecidableEq, Repr

/-- Lines 27-37 for the thread at index `i`, which is in its loop. -/
def worker_loop (s : job_system) (i : Nat) : LoopResult :=
  if s.enabled then
    match s.jobs with
    | [] => LoopResult.waits
    | job :: rest =>
      LoopResult.claims { s with jobs := rest, workers := s.workers.set i (Thread.busy job false) } job
  else LoopResult.exits { s with workers := s.workers.set i Thread.exited }

/-- Outcome of `t.join()` on a `std::thread`. -/
inductive JoinResult where
  /-- the thread is still running: the caller blocks -/
  | blocks
  /-- the thread had finished: the handle is now not joinable -/
  | returns (workers : List Thread)
  /-- the handle is not joinable: `std::system_error` -/
  | throws
deriving DecidableEq, Repr

/-- One iteration of line 58: `workers[k].join()`. -/
def thread_join (workers : List Thread) (k : Nat) : JoinResult :=
  match workers[k]? with
  | some Thread.exited => JoinResult.returns (workers.set k Thread.joined)
  | some Thread.joined => JoinResult.throws
  | _ => JoinResult.blocks

/-- Lines 130-135 of `reset`: the critical section after the joins, up to the
branch on `num_threads`. -/
def relaunch (s : job_system) (num_threads : Nat) : job_system :=
  let s1 := { s with enabled := true, workers := [] }
  if num_threads > 0 then allocate_and_launch_threads num_threads s1 else s1

end job_system

/-- Where the thread that runs `join()` or `reset()` stands.  These two calls
iterate over `workers` without the lock, so the code supports one of them at a
time. -/
inductive Owner where
  | free
  /-- in `join()`, line 58, about to join `workers[k]` -/
  | joining (k : Nat)
  /-- in `reset(n)`, line 58, about to join `workers[k]` -/
  | resetJoining (n k : Nat)
  /-- in `reset(0)`, holding the lock, at the test of the loop of line 136 -/
  | draining
  /-- in `reset(0)`, holding the lock, inside the call `jobs.front()()` of line 138 -/
  | drainRun (job : Job)
deriving DecidableEq, Repr

/-- The pool together with its threads' positions and the ghost logs. -/
structure World where
  pool : job_system
  owner : Owner
  /-- jobs running in the synchronous fallback of `dispatch` on caller threads,
  with the flag of `Thread.busy` -/
  sync : List (Job × Bool)
  /-- ghost: every non-empty job passed to `dispatch`, in call order -/
  dispatched : List Job
  /-- ghost: every job pushed on the queue (line 86), in order -/
  enqueued : List Job
  /-- ghost: every job taken by a worker (lines 32-33) with the worker's index, in order -/
  claimed : List (Nat × Job)
  /-- ghost: every job whose call has returned, in order -/
  finished : List Job
  /-- ghost: the vectors returned by the calls of `cancel()`, in order -/
  returned : List (List Job)
  /-- ghost: a `std::system_error` left `join()` or `reset()` -/
  threw : Bool
deriving DecidableEq, Repr

/-- The atomic transitions. -/
inductive Event where
  /-- a caller runs `dispatch(job)` up to the unlock -/
  | dispatch (job : job_t)
  /-- a caller runs `cancel()` -/
  | cancel
  /-- worker `i` makes one pass of its loop under the lock -/
  | loop (i : Nat)
  /-- the job running on worker `i` calls `cancel()` -/
  | bodyCancel (i : Nat)
  /-- the job running on worker `i` returns -/
  | finish (i : Nat)
  /-- the job `j` running in a synchronous `dispatch` calls `cancel()` -/
  | syncCancel (j : Job)
  /-- the job `j` running in a synchronous `dispatch` returns, and so does `dispatch` -/
  | syncFinish (j : Job)
  /-- in `join()`, lines 116-120 and 54-56: the queue is seen empty and the pool is disabled -/
  | joinBegin
  /-- one iteration of line 58, in `join()` or `reset()` -/
  | joinThread
  /-- the call `join()` returns -/
  | joinEnd
  /-- in `reset(n)`, lines 127-128 and 54-56 -/
  | resetBegin (n : Nat)
  /-- in `reset(n)`, lines 130-135; for `n > 0` also the return -/
  | resetRelaunch
  /-- in `reset(0)`, line 138: the call of the front job starts -/
  | drainInvoke
  /-- in `reset(0)`, lines 138-139: the call returns and the job is popped -/
  | drainFinish
  /-- in `reset(0)`, lines 142-144: the queue is empty, `reset` returns and unlocks -/
  | resetEnd
deriving DecidableEq, Repr

namespace World

/-- The state right after the constructor `job_system(n)`. -/
def create (n : Nat) : World :=
  { pool := job_system.create n, owner := Owner.free, sync := [], dispatched := [],
    enqueued := [], claimed := [], finished := [], returned := [], threw := false }

/-- The mutex is held across events only by `reset(0)` while it drains. -/
def lockHeld (w : World) : Bool :=
  match w.owner with
  | Owner.draining => true
  | Owner.drainRun _ => true
  | _ => false

/-- A call of `cancel()` by any thread, with its result logged. -/
def doCancel (w : World) : World :=
  let r := w.pool.cancel
  { w with pool := r.1, returned := w.returned ++ [r.2] }

/-- A call of `dispatch(some j)` up to its unlock. -/
def doDispatch (w : World) (j : Job) : World :=
  let r := w.pool.dispatch (some j)
  { w with
    pool := r.1
    sync := w.sync ++ r.2.map (fun x => (x, false))
    dispatched := w.dispatched ++ [j]
    enqueued := w.enqueued ++ r.1.jobs.drop w.pool.jobs.length }

/-- One pass of worker `i` through its loop. -/
def doLoop (w : World) (i : Nat) : Option World :=
  match w.pool.workers[i]? with
  | some Thread.idle =>
    match w.pool.worker_loop i with
    | job_system.LoopResult.waits => none
    | job_system.LoopResult.claims s job =>
      some { w with pool := s, claimed := w.claimed ++ [(i, job)] }
    | job_system.LoopResult.exits s => some { w with pool := s }
  | _ => none

/-- One iteration of the loop of line 58; `next k` is the position after a
join that returned. -/
def doJoinThread (w : World) (k : Nat) (next : Nat → Owner) : Option World :=
  if k < w.pool.workers.length then
    match job_system.thread_join w.pool.workers k with
    | job_system.JoinResult.blocks => none
    | job_system.JoinResult.returns ws =>
      some { w with pool := { w.pool with workers := ws }, owner := next (k + 1) }
    | job_system.JoinResult.throws => some { w with owner := Owner.free, threw := true }
  else none

/-- The step function: `none` when the event is not enabled in `w`. -/
def step (w : World) : Event → Option World
  | Event.dispatch none => some w
  | Event.dispatch (some j) => if w.lockHeld then none else some (w.doDispatch j)
  | Event.cancel => if w.lockHeld then none else some w.doCancel
  | Event.loop i => if w.lockHeld then none else w.doLoop i
  | Event.bodyCancel i =>
    match w.pool.workers[i]? with
    | some (Thread.busy j false) =>
      if j.cancels && !w.lockHeld then
        let w1 := w.doCancel
        some { w1 with pool := { w1.pool with workers := w1.pool.workers.set i (Thread.busy j true) } }
      else none
    | _ => none
  | Event.finish i =>
    match w.pool.workers[i]? with
    | some (Thread.busy j c) =>
      -- the body returns once it has made its `cancel()` call, if it makes one
      if c = j.cancels then
        some { w with
          pool := { w.pool with workers := w.pool.workers.set i Thread.idle }
          finished := w.finished ++ [j] }
      else none
    | _ => none
  | Event.syncCancel j =>
    if (j, false) ∈ w.sync ∧ j.cancels = true ∧ w.lockHeld = false then
      let w1 := w.doCancel
      some { w1 with sync := (j, true) :: w.sync.erase (j, false) }
    else none
  | Event.syncFinish j =>
    -- as for `finish`: the flag of a returning job equals `j.cancels`
    if (j, j.cancels) ∈ w.sync then
      some { w with sync := w.sync.erase (j, j.cancels), finished := w.finished ++ [j] }
    else none
  | Event.joinBegin =>
    match w.owner with
    | Owner.free =>
      if w.pool.jobs.isEmpty then some { w with pool := w.pool.disable_and_stop_all_threads, owner := Owner.joining 0 }
      else none
    | _ => none
  | Event.joinThread =>
    match w.owner with
    | Owner.joining k => w.doJoinThread k Owner.joining
    | Owner.resetJoining n k => w.doJoinThread k (Owner.resetJoining n)
    | _ => none
  | Event.joinEnd =>
    match w.owner with
    | Owner.joining k => if k = w.pool.workers.length then some { w with owner := Owner.free } else none
    | _ => none
  | Event.resetBegin n =>
    match w.owner with
    | Owner.free => some { w with pool := w.pool.disable_and_stop_all_threads, owner := Owner.resetJoining n 0 }
    | _ => none
  | Event.resetRelaunch =>
    match w.owner with
    | Owner.resetJoining n k =>
      if k = w.pool.workers.length then
        some { w with
          pool := w.pool.relaunch n
          owner := if n > 0 then Owner.free else Owner.draining }
      else none
    | _ => none
  | Event.drainInvoke =>
    match w.owner, w.pool.jobs with
    | Owner.draining, j :: _ => some { w with owner := Owner.drainRun j }
    | _, _ => none
  | Event.drainFinish =>
    match w.owner with
    | Owner.drainRun j =>
      -- a body that calls `cancel()` here blocks on `utx`, which its own thread
      -- holds since line 130: the call does not return
      if j.cancels then none
      else some { w with
        pool := { w.pool with jobs := w.pool.jobs.tail }
        owner := Owner.draining
        finished := w.finished ++ [j] }
    | _ => none
  | Event.resetEnd =>
    match w.owner with
    | Owner.draining => if w.pool.jobs.isEmpty then some { w with owner := Owner.free } else none
    | _ => none

/-- Run a schedule from `w`; `none` when some event of it is not enabled. -/
def run (w : World) : List Event → Option World
  | [] => some w
  | e :: es => (w.step e).bind (fun w1 => run w1 es)

/-- The states of the runs that start from a constructor call `job_system(n)`. -/
def Reachable (w : World) : Prop :=
  ∃ n es, run (create n) es = some w

end World

/-! ## Definitions used to state the properties -/

/-- The job a worker thread is running, if any. -/
def Thread.running : Thread → Option Job
  | Thread.busy j _ => some j
  | _ => none

/-- The jobs claimed by workers and not yet finished. -/
def busyJobs (workers : List Thread) : List Job :=
  workers.filterMap Thread.running

/-- The first `k` threads of the vector have been joined. -/
def JoinedBelow (workers : List Thread) (k : Nat) : Prop :=
  k ≤ workers.length ∧ ∀ i, i < k → workers[i]? = some Thread.joined

/-- The job `a` occurs before the job `b` in `l`. -/
def Before (l : List Job) (a b : Job) : Prop :=
  [a, b].Sublist l

/-- The events of a run in which jobs are only dispatched and executed by the workers. -/
def Event.isDispatchOrWork : Event → Bool
  | Event.dispatch _ => true
  | Event.loop _ => true
  | Event.finish _ => true
  | _ => false

/-- The events of a run in which the only calls of `cancel()` are made by jobs
running on workers and no `reset` is called: `dispatch` calls, the workers'
steps, the returns of synchronous calls, and `join()`. -/
def Event.inCancelScenario : Event → Bool
  | Event.dispatch _ => true
  | Event.loop _ => true
  | Event.bodyCancel _ => true
  | Event.finish _ => true
  | Event.syncFinish _ => true
  | Event.joinBegin => true
  | Event.joinThread => true
  | Event.joinEnd => true
  | _ => false

/-- The non-empty jobs passed to `dispatch` by the events of a schedule, in order. -/
def dispatchedBy (es : List Event) : List Job :=
  es.filterMap (fun e =>
    match e with
    | Event.dispatch (some j) => some j
    | _ => none)

/-- The schedule that dispatches `js` in order and then lets worker 0 take and
finish the jobs one after the other. -/
def dispatchThenWork (js : List Job) : List Event :=
  js.map (fun j => Event.dispatch (some j)) ++ js.flatMap (fun _ => [Event.loop 0, Event.finish 0])

namespace World

/-- Where a dispatched job can be: pending, claimed by a worker, running in a
caller's synchronous dispatch, finished, or handed back by `cancel()`. -/
def places (w : World) : List Job :=
  w.pool.jobs ++ busyJobs w.pool.workers ++ w.sync.map Prod.fst ++ w.finished ++ w.returned.flatten

/-- What the position of the thread in `join()` or `reset()` tells about the
pool: the threads already joined by line 58, the flag cleared by line 54, the
queue that `join()` saw empty, and the front job that line 138 is running. -/
def JoinInv (w : World) : Prop :=
  match w.owner with
  | Owner.joining k => JoinedBelow w.pool.workers k ∧ w.pool.enabled = false ∧ w.pool.jobs = []
  | Owner.resetJoining _ k => JoinedBelow w.pool.workers k ∧ w.pool.enabled = false
  | Owner.drainRun j => w.pool.jobs.head? = some j
  | _ => True

/-- The jobs being executed on a caller's thread: in the synchronous fallback of
`dispatch`, or in the call of line 138 of `reset(0)`. -/
def callerRunning (w : World) : List Job :=
  w.sync.map Prod.fst ++
    (match w.owner with
     | Owner.drainRun j => [j]
     | _ => [])

/-- The places of a dispatched job as the specification lists them: pending,
claimed by a worker, executed by a caller, finished, or handed back by `cancel()`. -/
def statedPlaces (w : World) : List Job :=
  w.pool.jobs ++ busyJobs w.pool.workers ++ w.callerRunning ++ w.finished ++ w.returned.flatten

/-- The jobs taken by workers, in claim order. -/
def claimedJobs (w : World) : List Job :=
  w.claimed.map Prod.snd

/-- The queue is first-in first-out: what was pushed is what has left the front
so far followed by what is pending, and the claims are among the former, in order. -/
def FifoInv (w : World) : Prop :=
  ∃ removed, w.enqueued = removed ++ w.pool.jobs ∧ w.claimedJobs.Sublist removed

/-- A claimed job is running on a worker or has finished (with multiplicity). -/
def ClaimedInv (w : World) : Prop :=
  ∀ a, w.claimedJobs.count a ≤ (busyJobs w.pool.workers).count a + w.finished.count a

/-- The events of one synchronous call `dispatch(j)` on a caller thread: the
call up to line 84, the `cancel()` made by the body if it makes one, the return. -/
def syncCall (j : Job) : List Event :=
  Event.dispatch (some j) :: (if j.cancels then [Event.syncCancel j] else []) ++ [Event.syncFinish j]

/-- Invariant of the runs of a pool with one worker in which jobs are only
dispatched and executed by the worker. -/
def SoloInv (w : World) : Prop :=
  w.pool.enabled = true ∧ w.dispatched = w.claimedJobs ++ w.pool.jobs
    ∧ ((w.pool.workers = [Thread.idle] ∧ w.claimedJobs = w.finished)
      ∨ (∃ j c, w.pool.workers = [Thread.busy j c] ∧ w.claimedJobs = w.finished ++ [j]))

/-- Invariant of the runs of a pool with one worker in which only jobs running
on the worker call `cancel()` and no `reset` is called. -/
def CancelInv (w : World) : Prop :=
  (∃ t, w.pool.workers = [t]
      ∧ ∀ j c, t = Thread.busy j c →
          w.claimedJobs.getLast? = some j ∧ (c = true ↔ w.returned ≠ []))
    ∧ (∀ x ∈ w.sync, x.2 = false)
    ∧ (∀ j ∈ w.finished, j.cancels = true → w.returned ≠ [])
    ∧ ((w.returned = [] ∧ w.enqueued = w.claimedJobs ++ w.pool.jobs)
      ∨ (∃ r j, w.returned = [r] ∧ w.enqueued = w.claimedJobs ++ r ∧ w.pool.enabled = false
          ∧ w.pool.jobs = [] ∧ w.claimedJobs.getLast? = some j ∧ j.cancels = true))

/-- The transitions of `step`, one constructor for each path through the code. -/
inductive Step : World → Event → World → Prop
  | dispatchNull (w : World) : Step w (Event.dispatch none) w
  | dispatchSync (w : World) (j : Job) (hl : w.lockHeld = false)
      (h : w.pool.enabled = false ∨ w.pool.workers = []) :
      Step w (Event.dispatch (some j))
        { w with sync := w.sync ++ [(j, false)], dispatched := w.dispatched ++ [j] }
  | dispatchQueue (w : World) (j : Job) (hl : w.lockHeld = false)
      (he : w.pool.enabled = true) (hw : w.pool.workers ≠ []) :
      Step w (Event.dispatch (some j))
        { w with
          pool := { w.pool with jobs := w.pool.jobs ++ [j] }
          dispatched := w.dispatched ++ [j]
          enqueued := w.enqueued ++ [j] }
  | cancel (w : World) (hl : w.lockHeld = false) :
      Step w Event.cancel
        { w with
          pool := { w.pool with enabled := false, jobs := [] }
          returned := w.returned ++ [w.pool.jobs] }
  | claim (w : World) (i : Nat) (j : Job) (rest : List Job) (hl : w.lockHeld = false)
      (hi : w.pool.workers[i]? = some Thread.idle) (he : w.pool.enabled = true)
      (hq : w.pool.jobs = j :: rest) :
      Step w (Event.loop i)
        { w with
          pool := { w.pool with jobs := rest, workers := w.pool.workers.set i (Thread.busy j false) }
          claimed := w.claimed ++ [(i, j)] }
  | exit (w : World) (i : Nat) (hl : w.lockHeld = false)
      (hi : w.pool.workers[i]? = some Thread.idle) (he : w.pool.enabled = false) :
      Step w (Event.loop i)
        { w with pool := { w.pool with workers := w.pool.workers.set i Thread.exited } }
  | bodyCancel (w : World) (i : Nat) (j : Job) (hl : w.lockHeld = false)
      (hi : w.pool.workers[i]? = some (Thread.busy j false)) (hc : j.cancels = true) :
      Step w (Event.bodyCancel i)
        { w with
          pool := { enabled := false, jobs := [], workers := w.pool.workers.set i (Thread.busy j true) }
          returned := w.returned ++ [w.pool.jobs] }
  | finish (w : World) (i : Nat) (j : Job)
      (hi : w.pool.workers[i]? = some (Thread.busy j j.cancels)) :
      Step w (Event.finish i)
        { w with
          pool := { w.pool with workers := w.pool.workers.set i Thread.idle }
          finished := w.finished ++ [j] }
  | syncCancel (w : World) (j : Job) (hl : w.lockHeld = false)
      (hm : (j, false) ∈ w.sync) (hc : j.cancels = true) :
      Step w (Event.syncCancel j)
        { w with
          pool := { w.pool with enabled := false, jobs := [] }
          returned := w.returned ++ [w.pool.jobs]
          sync := (j, true) :: w.sync.erase (j, false) }
  | syncFinish (w : World) (j : Job) (hm : (j, j.cancels) ∈ w.sync) :
      Step w (Event.syncFinish j)
        { w with sync := w.sync.erase (j, j.cancels), finished := w.finished ++ [j] }
  | joinBegin (w : World) (ho : w.owner = Owner.free) (hq : w.pool.jobs = []) :
      Step w Event.joinBegin
        { w with pool := { w.pool with enabled := false }, owner := Owner.joining 0 }
  | joinOk (w : World) (k : Nat) (ho : w.owner = Owner.joining k)
      (hk : w.pool.workers[k]? = some Thread.exited) :
      Step w Event.joinThread
        { w with
          pool := { w.pool with workers := w.pool.workers.set k Thread.joined }
          owner := Owner.joining (k + 1) }
  | joinThrow (w : World) (k : Nat) (ho : w.owner = Owner.joining k)
      (hk : w.pool.workers[k]? = some Thread.joined) :
      Step w Event.joinThread { w with owner := Owner.free, threw := true }
  | resetJoinOk (w : World) (n k : Nat) (ho : w.owner = Owner.resetJoining n k)
      (hk : w.pool.workers[k]? = some Thread.exited) :
      Step w Event.joinThread
        { w with
          pool := { w.pool with workers := w.pool.workers.set k Thread.joined }
          owner := Owner.resetJoining n (k + 1) }
  | resetJoinThrow (w : World) (n k : Nat) (ho : w.owner = Owner.resetJoining n k)
      (hk : w.pool.workers[k]? = some Thread.joined) :
      Step w Event.joinThread { w with owner := Owner.free, threw := true }
  | joinEnd (w : World) (ho : w.owner = Owner.joining w.pool.workers.length) :
      Step w Event.joinEnd { w with owner := Owner.free }
  | resetBegin (w : World) (n : Nat) (ho : w.owner = Owner.free) :
      Step w (Event.resetBegin n)
        { w with pool := { w.pool with enabled := false }, owner := Owner.resetJoining n 0 }
  | relaunch (w : World) (n : Nat) (hn : 0 < n)
      (ho : w.owner = Owner.resetJoining n w.pool.workers.length) :
      Step w Event.resetRelaunch
        { w with
          pool := { enabled := true, workers := List.replicate n Thread.idle, jobs := w.pool.jobs }
          owner := Owner.free }
  | relaunchZero (w : World) (ho : w.owner = Owner.resetJoining 0 w.pool.workers.length) :
      Step w Event.resetRelaunch
        { w with
          pool := { enabled := true, workers := [], jobs := w.pool.jobs }
          owner := Owner.draining }
  | drainInvoke (w : World) (j : Job) (rest : List Job) (ho : w.owner = Owner.draining)
      (hq : w.pool.jobs = j :: rest) :
      Step w Event.drainInvoke { w with owner := Owner.drainRun j }
  | drainFinish (w : World) (j : Job) (ho : w.owner = Owner.drainRun j)
      (hc : j.cancels = false) :
      Step w Event.drainFinish
        { w with
          pool := { w.pool with jobs := w.pool.jobs.tail }
          owner := Owner.draining
          finished := w.finished ++ [j] }
  | resetEnd (w : World) (ho : w.owner = Owner.draining) (hq : w.pool.jobs = []) :
      Step w Event.resetEnd { w with owner := Owner.free }

end World

/-- The schedule of a first `join()` on a fresh pool of `n` workers: the pool is
disabled, each worker leaves its loop, each thread is joined, `join()` returns. -/
def joinSchedule (n : Nat) : List Event :=
  Event.joinBegin ::
    ((List.range' 0 n).map Event.loop ++ (List.replicate n Event.joinThread ++ [Event.joinEnd]))

/-- The state `joinSchedule n` ends in. -/
def joinedWorld (n : Nat) : World :=
  { World.create n with
    pool := { enabled := false, workers := List.replicate n Thread.joined, jobs := [] } }

/-- A schedule on a pool of two workers: two jobs are dispatched and each worker takes one. -/
def twoWorkerRun : List Event :=
  [Event.dispatch (some ⟨1, false⟩), Event.dispatch (some ⟨2, false⟩), Event.loop 1, Event.loop 0]

/-- The state `twoWorkerRun` ends in. -/
def twoWorkerWorld : World :=
  { pool := { enabled := true, workers := [Thread.busy ⟨2, false⟩ false, Thread.busy ⟨1, false⟩ false],
              jobs := [] }
    owner := Owner.free, sync := [], dispatched := [⟨1, false⟩, ⟨2, false⟩]
    enqueued := [⟨1, false⟩, ⟨2, false⟩], claimed := [(1, ⟨1, false⟩), (0, ⟨2, false⟩)]
    finished := [], returned := [], threw := false }

/-- The schedule of `test_job` on a pool of one worker with five jobs: all are
dispatched, the worker runs the first three, and the third calls `cancel()`. -/
def cancelRun : List Event :=
  [Event.dispatch (some ⟨1, false⟩), Event.dispatch (some ⟨2, false⟩),
   Event.dispatch (some ⟨3, true⟩), Event.dispatch (some ⟨4, false⟩),
   Event.dispatch (some ⟨5, false⟩), Event.loop 0, Event.finish 0, Event.loop 0,
   Event.finish 0, Event.loop 0, Event.bodyCancel 0, Event.finish 0]

/-- The state `cancelRun` ends in. -/
def cancelWorld : World :=
  { pool := { enabled := false, workers := [Thread.idle], jobs := [] }
    owner := Owner.free, sync := []
    dispatched := [⟨1, false⟩, ⟨2, false⟩, ⟨3, true⟩, ⟨4, false⟩, ⟨5, false⟩]
    enqueued := [⟨1, false⟩, ⟨2, false⟩, ⟨3, true⟩, ⟨4, false⟩, ⟨5, false⟩]
    claimed := [(0, ⟨1, false⟩), (0, ⟨2, false⟩), (0, ⟨3, true⟩)]
    finished := [⟨1, false⟩, ⟨2, false⟩, ⟨3, true⟩]
    returned := [[⟨4, false⟩, ⟨5, false⟩]], threw := false }

/-- A schedule on a pool of one worker: a job is queued, `reset(0)` stops the
worker and enters its serial drain, and the call of the queued job has started. -/
def drainRunEvents : List Event :=
  [Event.dispatch (some ⟨1, false⟩), Event.resetBegin 0, Event.loop 0, Event.joinThread,
   Event.resetRelaunch, Event.drainInvoke]

/-- The state `drainRunEvents` ends in. -/
def drainRunWorld : World :=
  { pool := { enabled := true, workers := [], jobs := [⟨1, false⟩] }
    owner := Owner.drainRun ⟨1, false⟩, sync := [], dispatched := [⟨1, false⟩]
    enqueued := [⟨1, false⟩], claimed := [], finished := [], returned := [], threw := false }

/-- A schedule on a pool of one worker: a first `join()` up to the point where it returns. -/
def firstJoinEvents : List Event :=
  [Event.joinBegin, Event.loop 0, Event.joinThread]

/-- The state `firstJoinEvents` ends in. -/
def firstJoinWorld : World :=
  { pool := { enabled := false, workers := [Thread.joined], jobs := [] }
    owner := Owner.joining 1, sync := [], dispatched := [], enqueued := [], claimed := []
    finished := [], returned := [], threw := false }

/-! ## The move constructor, and further definitions used to state the properties -/

namespace job_system

/-- Lines 149-152 of the move constructor, the part under the lock of `sys`:
returns the new object and `sys`.  The new object starts from the default
constructor; the moved-from deque is empty, as the implementations of the
standard library leave it. -/
def move_take (sys : job_system) : job_system × job_system :=
  ({ default with enabled := sys.enabled, jobs := sys.jobs }, { sys with jobs := [] })

/-- Lines 155-158 of the move constructor, after `sys.join()` has returned:
returns the new object and `sys`, whose moved-from vector is empty. -/
def move_finish (dst sys : job_system) : job_system × job_system :=
  let num_threads := sys.workers.length
  (allocate_and_launch_threads num_threads { dst with workers := [] }, { sys with workers := [] })

end job_system

/-- The events that belong to a call of `reset`. -/
def Event.isReset : Event → Bool
  | Event.resetBegin _ => true
  | Event.resetRelaunch => true
  | Event.drainInvoke => true
  | Event.drainFinish => true
  | Event.resetEnd => true
  | _ => false


namespace World

/-- In a disabled pool the queue is empty except while a `reset` is joining the
old workers, and a thread that is joined outside such a phase belongs to a
disabled pool with an empty queue. -/
def BacklogInv (w : World) : Prop :=
  (w.pool.enabled = false → w.pool.jobs = [] ∨ ∃ n k, w.owner = Owner.resetJoining n k)
    ∧ ∀ i, w.pool.workers[i]? = some Thread.joined →
        (w.pool.jobs = [] ∧ w.pool.enabled = false)
          ∨ ∃ n k, w.owner = Owner.resetJoining n k ∧ i < k

end World


/-- The state of a pool of one worker after a job was queued and `reset(1)` has
disabled the pool: the worker has not yet looked at the queue. -/
def resetPendingWorld : World :=
  { pool := { enabled := false, workers := [Thread.idle], jobs := [⟨1, false⟩] }
    owner := Owner.resetJoining 1 0, sync := [], dispatched := [⟨1, false⟩]
    enqueued := [⟨1, false⟩], claimed := [], finished := [], returned := [], threw := false }


/-- A thread that can still be joined: not yet joined, and if it runs a job, the
flag of the job's `cancel()` call is one a run can produce. -/
def Thread.stoppable : Thread → Bool
  | Thread.joined => false
  | Thread.busy j c => !c || j.cancels
  | _ => true

/-- The events of the worker threads. -/
def Event.isWorker : Event → Bool
  | Event.loop _ => true
  | Event.bodyCancel _ => true
  | Event.finish _ => true
  | _ => false


/-- A source pool for the move constructor: enabled, two threads of which one
waits and one runs a job, and two pending jobs. -/
def moveSourceWorld : World :=
  { pool := { enabled := true, workers := [Thread.idle, Thread.busy ⟨1, false⟩ false],
              jobs := [⟨2, false⟩, ⟨3, true⟩] }
    owner := Owner.free, sync := []
    dispatched := [⟨1, false⟩, ⟨2, false⟩, ⟨3, true⟩]
    enqueued := [⟨1, false⟩, ⟨2, false⟩, ⟨3, true⟩]
    claimed := [(1, ⟨1, false⟩)], finished := [], returned := [], threw := false }


/-- The schedule on a pool of one worker in which a job that calls `cancel()` is
queued, `reset(0)` stops the worker, and the serial drain calls the job. -/
def reentrantDrainEvents : List Event :=
  [Event.dispatch (some ⟨3, true⟩), Event.resetBegin 0, Event.loop 0, Event.joinThread,
   Event.resetRelaunch, Event.drainInvoke]

/-- The state `reentrantDrainEvents` ends in. -/
def reentrantDrainWorld : World :=
  { pool := { enabled := true, workers := [], jobs := [⟨3, true⟩] }
    owner := Owner.drainRun ⟨3, true⟩, sync := [], dispatched := [⟨3, true⟩]
    enqueued := [⟨3, true⟩], claimed := [], finished := [], returned := [], threw := false }

/-- The schedule on a pool of one worker in which two jobs are queued, `reset(0)`
stops the worker, and the serial drain calls the first job. -/
def twoJobDrainEvents : List Event :=
  [Event.dispatch (some ⟨1, false⟩), Event.dispatch (some ⟨2, false⟩), Event.resetBegin 0,
   Event.loop 0, Event.joinThread, Event.resetRelaunch, Event.drainInvoke]

/-- The state `twoJobDrainEvents` ends in. -/
def twoJobDrainWorld : World :=
  { pool := { enabled := true, workers := [], jobs := [⟨1, false⟩, ⟨2, false⟩] }
    owner := Owner.drainRun ⟨1, false⟩, sync := []
    dispatched := [⟨1, false⟩, ⟨2, false⟩], enqueued := [⟨1, false⟩, ⟨2, false⟩]
    claimed := [], finished := [], returned := [], threw := false }

namespace World

end World

/-- The events that can happen before the owner calls `join()` or `reset`: calls
of `dispatch` and `cancel()` by any thread, the events of the workers, and the
events of the jobs that run on their dispatcher's thread. -/
def Event.beforeJoin : Event → Bool
  | Event.dispatch _ => true
  | Event.cancel => true
  | Event.loop _ => true
  | Event.bodyCancel _ => true
  | Event.finish _ => true
  | Event.syncCancel _ => true
  | Event.syncFinish _ => true
  | _ => false

/-- The schedule of `test_job`: a pool of two workers, six jobs of which the third
calls `cancel()`; the workers take jobs 1 and 2, worker 0 returns from job 1 and
takes job 3, whose body calls `cancel()`, and worker 1 returns from job 2. -/
def testJobRun : List Event :=
  [Event.dispatch (some ⟨1, false⟩), Event.dispatch (some ⟨2, false⟩),
   Event.dispatch (some ⟨3, true⟩), Event.dispatch (some ⟨4, false⟩),
   Event.dispatch (some ⟨5, false⟩), Event.dispatch (some ⟨6, false⟩),
   Event.loop 0, Event.loop 1, Event.finish 0, Event.loop 0, Event.bodyCancel 0,
   Event.finish 1]

/-- The state `testJobRun` ends in: worker 0 is still inside job 3, after its call
of `cancel()`, and worker 1 is back at the top of its loop. -/
def testJobWorld : World :=
  { pool := { enabled := false, workers := [Thread.busy ⟨3, true⟩ true, Thread.idle], jobs := [] }
    owner := Owner.free, sync := []
    dispatched := [⟨1, false⟩, ⟨2, false⟩, ⟨3, true⟩, ⟨4, false⟩, ⟨5, false⟩, ⟨6, false⟩]
    enqueued := [⟨1, false⟩, ⟨2, false⟩, ⟨3, true⟩, ⟨4, false⟩, ⟨5, false⟩, ⟨6, false⟩]
    claimed := [(0, ⟨1, false⟩), (1, ⟨2, false⟩), (0, ⟨3, true⟩)]
    finished := [⟨1, false⟩, ⟨2, false⟩]
    returned := [[⟨4, false⟩, ⟨5, false⟩, ⟨6, false⟩]], threw := false }

end JobSystem

/-! ## The Hilbert curve of `src/hilbert.hpp` -/

namespace Hilbert

/-- The 3D integer vector `ivec3`; the range of `int` is never left by the
computations below. -/
structure ivec3 where
  x : Int
  y : Int
  z : Int
deriving DecidableEq, Repr

/-- The vector `uvec3<N>`: three bit-fields of `N` bits each; the width is passed
to the operations that store into the fields. -/
structure uvec3 where
  x : Nat
  y : Nat
  z : Nat
deriving DecidableEq, Repr

/-- The 3D boolean vector `bvec3`. -/
structure bvec3 where
  x : Bool
  y : Bool
  z : Bool
deriving DecidableEq, Repr

/-- The conversion `bvec3::operator ivec3`. -/
def bvec3.toIvec3 (b : bvec3) : ivec3 :=
  ⟨b.x.toNat, b.y.toNat, b.z.toNat⟩

/-- The conversion `bvec3::operator uvec3<N>`. -/
def bvec3.toUvec3 (b : bvec3) : uvec3 :=
  ⟨b.x.toNat, b.y.toNat, b.z.toNat⟩

/-- The conversion `bvec3::operator int`. -/
def bvec3.toInt (b : bvec3) : Nat :=
  1 * b.x.toNat + 2 * b.y.toNat + 4 * b.z.toNat

/-- The conversion `uvec3<N>::operator ivec3`. -/
def uvec3.toIvec3 (u : uvec3) : ivec3 :=
  ⟨u.x, u.y, u.z⟩

/-- The assignment `uvec3<N>::operator +=`: each sum is stored into a bit-field of
`N` bits, that is, reduced modulo `2^N`. -/
def uvec3.add (N : Nat) (u : uvec3) (v : ivec3) : uvec3 :=
  ⟨((u.x + v.x) % 2 ^ N).toNat, ((u.y + v.y) % 2 ^ N).toNat, ((u.z + v.z) % 2 ^ N).toNat⟩

/-- The loop of `encode<N>` with `count` iterations left, at the index `i`; `out`
is a `size_t` of 64 bits. -/
def encode_loop (v : uvec3) : Nat → Nat → Nat → Nat
  | 0, _, out => out
  | count + 1, i, out =>
    let out := ((out ||| ((v.x >>> i) &&& 1)) <<< 1) % 2 ^ 64
    let out := ((out ||| ((v.y >>> i) &&& 1)) <<< 1) % 2 ^ 64
    let out := ((out ||| ((v.z >>> i) &&& 1)) <<< 1) % 2 ^ 64
    encode_loop v count (i + 1) out

/-- The function `encode<N>`. -/
def encode (N : Nat) (v : uvec3) : Nat :=
  encode_loop v N 0 0 >>> 1

/-- The loop of `decode<N>` with `count` iterations left, at the index `i`; each
assignment stores into a bit-field of `N` bits. -/
def decode_loop (N s : Nat) : Nat → Nat → uvec3 → uvec3
  | 0, _, out => out
  | count + 1, i, out =>
    let out : uvec3 :=
      ⟨out.x, out.y, (out.z ||| ((((s >>> (i * 3 + 0)) &&& 1) <<< i) % 2 ^ 64)) % 2 ^ N⟩
    let out : uvec3 :=
      ⟨out.x, (out.y ||| ((((s >>> (i * 3 + 1)) &&& 1) <<< i) % 2 ^ 64)) % 2 ^ N, out.z⟩
    let out : uvec3 :=
      ⟨(out.x ||| ((((s >>> (i * 3 + 2)) &&& 1) <<< i) % 2 ^ 64)) % 2 ^ N, out.y, out.z⟩
    decode_loop N s count (i + 1) out

/-- The function `decode<N>`. -/
def decode (N s : Nat) : uvec3 :=
  decode_loop N s N 0 ⟨0, 0, 0⟩

/-- The difference `operator -` of two `ivec3`. -/
def ivec3.sub (a b : ivec3) : ivec3 :=
  ⟨a.x - b.x, a.y - b.y, a.z - b.z⟩

/-- The product `operator *` of an `ivec3` and an `int`. -/
def ivec3.mul (a : ivec3) (b : Int) : ivec3 :=
  ⟨a.x * b, a.y * b, a.z * b⟩

/-- The array `proto_curve`, the smallest Hilbert curve. -/
def proto_curve : List bvec3 :=
  [⟨false, false, false⟩, ⟨false, true, false⟩, ⟨true, true, false⟩, ⟨true, false, false⟩,
   ⟨true, false, true⟩, ⟨true, true, true⟩, ⟨false, true, true⟩, ⟨false, false, true⟩]

/-- The type `rot_mapping`, an array of eight indices. -/
abbrev rot_mapping := List Nat

def v000 : rot_mapping := [0, 7, 4, 3, 2, 5, 6, 1]
def v010 : rot_mapping := [0, 1, 6, 7, 4, 5, 2, 3]
def v110 : rot_mapping := [0, 1, 2, 3, 4, 5, 6, 7]
def v100 : rot_mapping := [6, 1, 0, 7, 4, 3, 2, 5]
def v101 : rot_mapping := [2, 5, 4, 3, 0, 7, 6, 1]
def v111 : rot_mapping := [0, 1, 2, 3, 4, 5, 6, 7]
def v011 : rot_mapping := [4, 5, 2, 3, 0, 1, 6, 7]
def v001 : rot_mapping := [6, 1, 2, 5, 4, 3, 0, 7]

/-- The function `mapping_for`: the table indexed by `int(coord)`. -/
def mapping_for (coord : bvec3) : rot_mapping :=
  [v000, v100, v010, v110, v001, v101, v011, v111].getD coord.toInt []

/-- The function `POW`: `n` multiplications by `b`. -/
def POW (b : Int) : Nat → Int
  | 0 => 1
  | n + 1 => POW b n * b

/-- The constant `hilbert_curve<ORDER, ROOT>::SIZE`. -/
def SIZE (ORDER : Nat) : Int :=
  POW 2 ORDER

/-- An object of type `hilbert_curve<ORDER, ROOT>`, as it lies in memory and as
`operator []`, `begin` and `end` read it: the `8^ORDER` vectors of its nested
arrays, one after the other.  A `vec_t` is the list of one vector. -/
abbrev curve := List uvec3

/-- The number of `vec_t` in a `child_t` of `hilbert_curve<ORDER, ROOT>`. -/
def childLength (ORDER : Nat) : Nat :=
  8 ^ (ORDER - 1)

/-- The member `arr[i]` of a `hilbert_curve<ORDER, ROOT>`. -/
def arr (ORDER : Nat) (c : curve) (i : Nat) : curve :=
  (c.drop (i * childLength ORDER)).take (childLength ORDER)

/-- The member function `translate`, also `operator +=`: `v` is added to every
vector of the curve, in fields of `ROOT` bits. -/
def translate (ROOT : Nat) (c : curve) (v : ivec3) : curve :=
  c.map (fun w => w.add ROOT v)

/-- The member function `rotate_child` of `hilbert_curve<ORDER, ROOT>`;
`childRotate` is the member function `rotate` of `child_t`, used when
`ORDER != 1`. -/
def rotate_child (ROOT ORDER : Nat) (childRotate : curve → rot_mapping → curve)
    (c : curve) (i : Nat) (map : rot_mapping) : curve :=
  let child := arr ORDER c (map.getD i 0)
  let diff := ((proto_curve.getD i ⟨false, false, false⟩).toIvec3).sub
    ((proto_curve.getD (map.getD i 0) ⟨false, false, false⟩).toIvec3)
  if ORDER ≠ 1 then
    let child := childRotate child map
    let diff := diff.mul (SIZE (ORDER - 1))
    translate ROOT child diff
  else child

/-- The member function `rotate` of `hilbert_curve<ORDER, ROOT>`, by recursion on
`ORDER`. -/
def rotate (ROOT : Nat) : Nat → curve → rot_mapping → curve
  | 0, c, _ => c
  | k + 1, c, map =>
    (List.range 8).flatMap (fun i => rotate_child ROOT (k + 1) (rotate ROOT k) c i map)

/-- The constructor `hilbert_curve(bvec3 coord)` of `hilbert_curve<ORDER, ROOT>`;
`c` is the object as the delegated default constructor has left it. -/
def of_coord (ROOT ORDER : Nat) (c : curve) (coord : bvec3) : curve :=
  translate ROOT (rotate ROOT ORDER c (mapping_for coord)) (coord.toIvec3.mul (SIZE ORDER))

/-- The default constructor of `hilbert_curve<ORDER, ROOT>`: `arr[i]` is
`child_t(proto_curve[i])`, a `vec_t` when `ORDER` is 1 and a curve of order
`ORDER - 1` otherwise. -/
def hilbert_curve (ROOT : Nat) : Nat → curve
  | 0 => []
  | 1 => proto_curve.map bvec3.toUvec3
  | k + 2 => proto_curve.flatMap (fun coord => of_coord ROOT (k + 1) (hilbert_curve ROOT (k + 1)) coord)

/-- The member function `size`. -/
def size (ORDER : Nat) : Int :=
  POW (SIZE ORDER) 3

/-- The member function `operator []`. -/
def index (c : curve) (i : Nat) : uvec3 :=
  c.getD i ⟨0, 0, 0⟩

/-- The function `magnitude`. -/
def magnitude (v : ivec3) : Int :=
  |v.x| + |v.y| + |v.z|

/-- The indices at which the loop of `test_hilbert` prints `ERROR`, for a curve of
the given order. -/
def test_hilbert (ORDER : Nat) : List Nat :=
  let hc := hilbert_curve ORDER ORDER
  (List.range (min (size ORDER) (2 ^ 7)).toNat).filter (fun i =>
    decide (1 ≤ i) && decide (magnitude ((index hc i).toIvec3.sub (index hc (i - 1)).toIvec3) ≠ 1))

end Hilbert

/-! ## The integer of `src/integer.hpp` -/

namespace Integer

/-- A `for` loop whose index goes up: `count` iterations, the first at index `i`. -/
def forUp {σ : Type} (body : Nat → σ → σ) : Nat → Nat → σ → σ
  | 0, _, s => s
  | k + 1, i, s => forUp body k (i + 1) (body i s)

/-- A `for` loop whose index goes down: `count` iterations, the last at index `lo`. -/
def forDown {σ : Type} (body : Nat → σ → σ) : Nat → Nat → σ → σ
  | 0, _, s => s
  | k + 1, lo, s => forDown body k lo (body (lo + k) s)

/-- The complement `~x` of a `uint`. -/
def not32 (x : Nat) : Nat :=
  2 ^ 32 - 1 - x

/-- The shift `x << k` of a `uint`, `k < 32`. -/
def shl32 (x k : Nat) : Nat :=
  (x <<< k) % 2 ^ 32

/-- A `std::string`, as the list of the values of its characters: `48` is `'0'`,
`45` is `'-'` and `43` is `'+'`.  The differences `c - '0'` of the source are
taken on digits, where they are not negative. -/
abbrev string := List Nat

/-- The characters of a string literal. -/
def str (s : String) : string :=
  s.toList.map Char.toNat

/-- The member function `find_first_not_of(c)`; `none` is `npos`. -/
def find_first_not_of (c : Nat) : string → Option Nat
  | [] => none
  | a :: s => if a ≠ c then some 0 else (find_first_not_of c s).map (fun p => p + 1)

/-- The function `ltrim`.  (On the empty string the source calls `substr` with a
position past the end, which throws; the strings it is called on here are not
empty.) -/
def ltrim (s : string) (c : Nat) : string :=
  match find_first_not_of c s with
  | some lpos => s.drop lpos
  | none => s.drop (s.length - 1)

/-- The loop `while (c > 9) { c -= 10; sum[k]++; }` of `lex_add`; it runs at most
`fuel` times, and `c` times are enough. -/
def lex_add_carry (k : Nat) : Nat → Nat → string → Nat × string
  | 0, c, sum => (c, sum)
  | fuel + 1, c, sum =>
    if c > 9 then lex_add_carry k fuel (c - 10) (sum.set k (sum.getD k 0 + 1)) else (c, sum)

/-- The function `lex_add` on strings of decimal digits.  (In the last pass of
the loop, `i = len`, the index `len - i - 1` of the carry lies before the
string; on strings of digits that pass produces no carry, so the index is not
used.) -/
def lex_add (a b : string) : string :=
  let alen := a.length
  let blen := b.length
  let alen2 := match find_first_not_of 48 a with
    | some a0 => alen - a0
    | none => alen
  let blen2 := match find_first_not_of 48 b with
    | some b0 => blen - b0
    | none => blen
  let len := max alen2 blen2
  forUp (fun i sum =>
      let x := if i < alen then a.getD (alen - i - 1) 0 - 48 else 0
      let y := if i < blen then b.getD (blen - i - 1) 0 - 48 else 0
      let c := sum.getD (len - i) 0 - 48 + x + y
      let r := lex_add_carry (len - i - 1) c c sum
      r.2.set (len - i) (r.1 + 48))
    (len + 1) 0 (List.replicate (len + 1) 48)

/-- The loop `while (x > 9) { x -= 10; ++carry; }` of `lex_mul2`. -/
def lex_mul2_carry : Nat → Nat → Nat → Nat × Nat
  | 0, x, carry => (x, carry)
  | fuel + 1, x, carry => if x > 9 then lex_mul2_carry fuel (x - 10) (carry + 1) else (x, carry)

/-- The function `lex_mul2` on strings of decimal digits. -/
def lex_mul2 (s : string) : string :=
  let slen := s.length
  let r := forDown (fun i (st : string × Nat) =>
      let x := 2 * (s.getD i 0 - 48) + st.2
      let r := lex_mul2_carry x x 0
      (st.1.set (i + 1) (r.1 + 48), r.2))
    slen 0 (List.replicate (slen + 1) 48, 0)
  ltrim (r.1.set 0 (r.2 + 48)) 48

/-- The function `lex_div2` on strings of decimal digits: the result and the
value it stores in `rem`. -/
def lex_div2 (s : string) : string × Bool :=
  let s := match find_first_not_of 48 s with
    | some start => s.drop start
    | none => s
  let slen := s.length
  let will_shrink := !s.isEmpty && s.getD 0 0 == 49
  let r := forUp (fun i (st : string × Nat) =>
      let x := s.getD i 0 - 48 + st.2 * 10
      let carry := x &&& 1
      let x := x / 2
      (if 0 < i || !will_shrink then st.1.set (i - will_shrink.toNat) (x + 48) else st.1, carry))
    slen 0 (List.replicate (slen - will_shrink.toNat) 0, 0)
  (r.1, r.2 != 0)

/-- The table `INTEGER_POWERS` as `init_powers` fills it; the entry `n` exists
when `n` is less than the argument of `INIT_INTEGER_POWERS`. -/
def INTEGER_POWERS : Nat → string
  | 0 => str "1"
  | n + 1 => lex_mul2 (INTEGER_POWERS n)

/-- An object of the class `integer<Bits, IntType>`: its member `ints`, the words
from the least significant to the most significant one, each a `uint`.
`IS_SIGNED` tells whether `IntType` is `signed`. -/
structure integer (Bits : Nat) (IS_SIGNED : Bool) where
  ints : List Nat
deriving DecidableEq, Repr

/-- The constant `NUM_INTS`. -/
def NUM_INTS (Bits : Nat) : Nat :=
  (Bits + 31) / 32

/-- The constant `INT_MASK`. -/
def INT_MASK (Bits : Nat) : Nat :=
  not32 (if Bits % 32 ≠ 0 then shl32 (not32 0) (Bits % 32) else 0)

namespace integer

variable {Bits : Nat} {IS_SIGNED : Bool}

/-- The default constructor. -/
def zero : integer Bits IS_SIGNED :=
  ⟨List.replicate (NUM_INTS Bits) 0⟩

/-- The word `ints.back()`. -/
def back (x : integer Bits IS_SIGNED) : Nat :=
  x.ints.getD (NUM_INTS Bits - 1) 0

/-- The member function `is_negative`. -/
def is_negative (x : integer Bits IS_SIGNED) : Bool :=
  IS_SIGNED && decide ((x.back >>> ((Bits - 1) % 32)) &&& 1 ≠ 0)

/-- The member function `extend_sign`. -/
def extend_sign (x : integer Bits IS_SIGNED) : integer Bits IS_SIGNED :=
  if Bits % 32 ≠ 0 then
    if !x.is_negative then ⟨x.ints.set (NUM_INTS Bits - 1) (x.back &&& INT_MASK Bits)⟩
    else ⟨x.ints.set (NUM_INTS Bits - 1) (x.back ||| not32 (INT_MASK Bits))⟩
  else x

/-- The constructor from a `primitive32_t`, given as the number `n` it holds. -/
def ofInt32 (n : Int) : integer Bits IS_SIGNED :=
  let x : integer Bits IS_SIGNED :=
    ⟨(n % 2 ^ 32).toNat :: List.replicate (NUM_INTS Bits - 1) (if n < 0 then not32 0 else 0)⟩
  if Bits < 32 then x.extend_sign else x

/-- The constructor from a `primitive64_t`, for `NUM_INTS > 1`. -/
def ofInt64 (n : Int) : integer Bits IS_SIGNED :=
  let x : integer Bits IS_SIGNED :=
    ⟨(n % 2 ^ 32).toNat :: ((n / 2 ^ 32) % 2 ^ 32).toNat ::
      List.replicate (NUM_INTS Bits - 2) (if n < 0 then not32 0 else 0)⟩
  if Bits < 64 then x.extend_sign else x

/-- The loop of `operator <=>`, at the words below index `i`. -/
def cmp_loop (a b : List Nat) : Nat → Ordering
  | 0 => Ordering.eq
  | i + 1 =>
    if a.getD i 0 > b.getD i 0 then Ordering.gt
    else if a.getD i 0 < b.getD i 0 then Ordering.lt
    else cmp_loop a b i

/-- The comparison `operator <=>`. -/
def cmp (x y : integer Bits IS_SIGNED) : Ordering :=
  cmp_loop x.ints y.ints (NUM_INTS Bits)

/-- The converting constructor of `integer<Bits, IntType>` from an
`integer<Bits0, IntT>` with `Bits0 < Bits`. -/
def widen {Bits0 : Nat} {IntT : Bool} (Bits : Nat) (IS_SIGNED : Bool) (x : integer Bits0 IntT) :
    integer Bits IS_SIGNED :=
  let X_SIZE := NUM_INTS Bits0
  ⟨x.ints ++ List.replicate (NUM_INTS Bits - X_SIZE)
    (if x.cmp (ofInt32 0) = Ordering.lt then not32 0 else 0)⟩

/-- The member function `add`: `x.add(y, n)`. -/
def add (x y : integer Bits IS_SIGNED) (n : Nat) : integer Bits IS_SIGNED :=
  ⟨(forUp (fun i (st : List Nat × Nat) =>
      let a := (st.1.getD i 0 + st.2 + y.ints.getD (i - n) 0) % 2 ^ 64
      (st.1.set i (a % 2 ^ 32), (a >>> 32) % 2 ^ 32))
    (NUM_INTS Bits - n) n (x.ints, 0)).1⟩

/-- The complement `operator ~`. -/
def not (x : integer Bits IS_SIGNED) : integer Bits IS_SIGNED :=
  ⟨forUp (fun i flipped => flipped.set i (not32 (x.ints.getD i 0))) (NUM_INTS Bits) 0
    (zero : integer Bits IS_SIGNED).ints⟩

/-- The sum `operator +`. -/
def plus (x y : integer Bits IS_SIGNED) : integer Bits IS_SIGNED :=
  (x.add y 0).extend_sign

/-- The negation, the unary `operator -`. -/
def neg (x : integer Bits IS_SIGNED) : integer Bits IS_SIGNED :=
  x.not.plus (ofInt32 1)

/-- The difference, the binary `operator -`. -/
def minus (x y : integer Bits IS_SIGNED) : integer Bits IS_SIGNED :=
  x.plus y.neg

/-- The member function `abs`. -/
def abs (x : integer Bits IS_SIGNED) : integer Bits IS_SIGNED :=
  if x.is_negative then x.neg else x

/-- The private constructor from an array of `NUM_INTS + 1` values of type
`ulong`. -/
def ofCarry (carry : List Nat) : integer Bits IS_SIGNED :=
  extend_sign ⟨(forUp (fun i (st : List Nat × List Nat) =>
      (st.1.set i (st.2.getD i 0 % 2 ^ 32),
       st.2.set (i + 1) ((st.2.getD (i + 1) 0 + (st.2.getD i 0 >>> 32) % 2 ^ 32) % 2 ^ 64)))
    (NUM_INTS Bits) 0 ((zero : integer Bits IS_SIGNED).ints, carry)).1⟩

/-- The array `products` of `operator *`, for the operands `x` and `y` after the
calls of `abs`. -/
def products (x y : integer Bits IS_SIGNED) : List (integer Bits IS_SIGNED) :=
  forUp (fun i ps =>
      let a := x.ints.getD i 0
      let carry := forUp (fun j c => c.set j ((a * y.ints.getD j 0) % 2 ^ 64))
        (NUM_INTS Bits) 0 (List.replicate (NUM_INTS Bits + 1) 0)
      ps.set i (ofCarry carry))
    (NUM_INTS Bits) 0 (List.replicate (NUM_INTS Bits) zero)

/-- The product `operator *`. -/
def mul (x y : integer Bits IS_SIGNED) : integer Bits IS_SIGNED :=
  let is_negative := x.is_negative != y.is_negative
  let x := x.abs
  let y := y.abs
  let products := products x y
  let sum := forUp (fun i (sum : integer Bits IS_SIGNED) => sum.add (products.getD i zero) i)
    (NUM_INTS Bits) 0 zero
  let sum := sum.extend_sign
  if is_negative then sum.neg else sum

/-- The loop of `divmod`; `none` when it has not ended after `fuel` tests of its
condition. -/
def divmod_loop (divisor : integer Bits IS_SIGNED) :
    Nat → integer Bits IS_SIGNED → integer Bits IS_SIGNED →
      Option (integer Bits IS_SIGNED × integer Bits IS_SIGNED)
  | 0, _, _ => none
  | fuel + 1, div, mod =>
    if mod.cmp divisor ≠ Ordering.lt then
      divmod_loop divisor fuel (div.plus (ofInt32 1)) (mod.minus divisor)
    else some (div, mod)

/-- The member function `divmod`: `x.divmod(y)`, the quotient and the remainder. -/
def divmod (fuel : Nat) (x y : integer Bits IS_SIGNED) :
    Option (integer Bits IS_SIGNED × integer Bits IS_SIGNED) :=
  match divmod_loop y.abs fuel (ofInt32 0) x.abs with
  | none => none
  | some (div, mod) =>
    if x.is_negative != y.is_negative then some (div.neg, mod) else some (div, mod)

/-- The assignment `operator <<=`. -/
def shl_assign (x : integer Bits IS_SIGNED) (n : Nat) : integer Bits IS_SIGNED :=
  let chunks := n / 32
  let shift := n % 32
  let ints :=
    if chunks > 0 then
      let ints := forDown (fun i (ints : List Nat) => ints.set i (ints.getD (i - chunks) 0))
        (NUM_INTS Bits - chunks) chunks x.ints
      forDown (fun i (ints : List Nat) => ints.set i 0) chunks 0 ints
    else x.ints
  let ints :=
    if shift > 0 then
      (forUp (fun i (st : List Nat × Nat) =>
          let digit := st.1.getD i 0
          (st.1.set i (shl32 digit shift ||| st.2), digit >>> (32 - shift)))
        (NUM_INTS Bits - chunks) chunks (ints, 0)).1
    else ints
  ⟨ints⟩

/-- The assignment `operator >>=`. -/
def shr_assign (x : integer Bits IS_SIGNED) (n : Nat) : integer Bits IS_SIGNED :=
  let chunks := n / 32
  let shift := n % 32
  let neg := x.is_negative
  let ints :=
    if chunks > 0 then
      let ints := forUp (fun i (ints : List Nat) => ints.set i (ints.getD (i + chunks) 0))
        (NUM_INTS Bits - chunks) 0 x.ints
      forUp (fun i (ints : List Nat) => ints.set i (if neg then not32 0 else 0))
        (NUM_INTS Bits - (chunks + 1)) (chunks + 1) ints
    else x.ints
  let ints :=
    if shift > 0 then
      (forDown (fun i (st : List Nat × Nat) =>
          let digit := st.1.getD i 0
          (st.1.set i ((digit >>> shift) ||| st.2), shl32 digit (32 - shift)))
        (NUM_INTS Bits - chunks) 0 (ints, if neg then shl32 (not32 0) (32 - shift) else 0)).1
    else ints
  ⟨ints⟩

/-- The shift `operator <<`. -/
def shl (x : integer Bits IS_SIGNED) (n : Nat) : integer Bits IS_SIGNED :=
  if n ≥ Bits then zero else (x.shl_assign n).extend_sign

/-- The shift `operator >>`. -/
def shr (x : integer Bits IS_SIGNED) (n : Nat) : integer Bits IS_SIGNED :=
  if n ≥ Bits then (if x.is_negative then ofInt32 (-1) else ofInt32 0)
  else (x.shr_assign n).extend_sign

/-- The conversion `operator std::string`. -/
def toStr (x : integer Bits IS_SIGNED) : string :=
  let a := x.abs
  let num := forUp (fun d (num : string) =>
      forUp (fun b (num : string) =>
          if (a.ints.getD d 0 >>> b) &&& 1 ≠ 0 then lex_add num (INTEGER_POWERS (d * 32 + b))
          else num)
        (min 32 (Bits - IS_SIGNED.toNat - d * 32)) 0 num)
    (NUM_INTS Bits) 0 (str "0")
  let num := ltrim num 48
  if x.is_negative then 45 :: num else num

/-- The loop of the constructor from a string, with `count` iterations left. -/
def ofStr_loop : Nat → Nat → string → List Nat → List Nat
  | 0, _, _, ints => ints
  | count + 1, bit, num, ints =>
    if num ≠ str "0" then
      let r := lex_div2 num
      ofStr_loop count (bit + 1) r.1
        (ints.set (bit / 32) (ints.getD (bit / 32) 0 ||| shl32 r.2.toNat (bit % 32)))
    else ints

/-- The constructor from a `std::string_view`. -/
def ofStr (s : string) : integer Bits IS_SIGNED :=
  let negative := s.getD 0 0 == 45
  let num := s.drop (negative || s.getD 0 0 == 43).toNat
  let x : integer Bits IS_SIGNED :=
    ⟨ofStr_loop (Bits - IS_SIGNED.toNat) 0 num (zero : integer Bits IS_SIGNED).ints⟩
  if negative then ⟨x.neg.ints⟩ else x

end integer

end Integer

/-! ## Definitions used to state the properties of the integer -/

namespace Integer

/-- The number whose digits in base `2^32`, least significant first, are the
words of the list. -/
def toNat : List Nat → Nat
  | [] => 0
  | w :: ws => w + 2 ^ 32 * toNat ws

namespace integer

variable {Bits : Nat} {IS_SIGNED : Bool}

/-- The number an object represents: its low `Bits` bits, read in two's
complement for the signed type. -/
def val (x : integer Bits IS_SIGNED) : Int :=
  if IS_SIGNED = true ∧ 2 ^ (Bits - 1) ≤ toNat x.ints % 2 ^ Bits then
    (toNat x.ints % 2 ^ Bits : Nat) - 2 ^ Bits
  else (toNat x.ints % 2 ^ Bits : Nat)

/-- The member `ints` holds `NUM_INTS` words, each a `uint`. -/
def wf (x : integer Bits IS_SIGNED) : Prop :=
  x.ints.length = NUM_INTS Bits ∧ ∀ w ∈ x.ints, w < 2 ^ 32

/-- Canonical form: the words are the representation of `val x` in all the
`32 * NUM_INTS` bits of `ints`, so that the bits of the top word above bit
`Bits - 1` are copies of the sign bit for the signed type, and zero for the
unsigned type. -/
def canonical (x : integer Bits IS_SIGNED) : Prop :=
  x.wf ∧ (toNat x.ints : Int) = x.val % 2 ^ (32 * NUM_INTS Bits)

instance (x : integer Bits IS_SIGNED) : Decidable x.wf := by
  unfold wf
  infer_instance

instance (x : integer Bits IS_SIGNED) : Decidable x.canonical := by
  unfold canonical
  infer_instance

/-- The representation invariant: when `Bits` is not a multiple of 32, every bit
of the top word above bit `(Bits - 1) % 32`, the place of bit `Bits - 1`, is a copy
of that bit for the signed type and is zero for the unsigned type. -/
def rep_invariant (x : integer Bits IS_SIGNED) : Prop :=
  Bits % 32 ≠ 0 → ∀ j : Nat, j < 32 → Bits % 32 ≤ j →
    x.back.testBit j = (IS_SIGNED && x.back.testBit ((Bits - 1) % 32))

instance (x : integer Bits IS_SIGNED) : Decidable x.rep_invariant := by
  unfold rep_invariant
  infer_instance

end integer

/-- The reduction of a number into `[-2^(Bits-1), 2^(Bits-1))` modulo `2^Bits`. -/
def wrap (Bits : Nat) (z : Int) : Int :=
  (z + 2 ^ (Bits - 1)) % 2 ^ Bits - 2 ^ (Bits - 1)

end Integer

namespace Integer

/-- The number a string of decimal digits writes. -/
def decimal (s : string) : Nat :=
  s.foldl (fun acc c => 10 * acc + (c - 48)) 0

/-- Every character of the string is a decimal digit. -/
def isDigits (s : string) : Prop :=
  ∀ c ∈ s, 48 ≤ c ∧ c ≤ 57

/-- A canonical numeral of a natural number: a non-empty string of decimal
digits that does not start with `0`, or the string `0`. -/
def isNumeral (s : string) : Prop :=
  s ≠ [] ∧ isDigits s ∧ (s.head? = some 48 → s = [48])

/-- The digit of weight `10^i` of a string of decimal digits, zero past its
first character. -/
def dig (a : string) (i : Nat) : Nat :=
  if i < a.length then a.getD (a.length - i - 1) 0 - 48 else 0

/-- The number written by the last `i` digits of a string of decimal digits. -/
def lowVal (a : string) : Nat → Nat
  | 0 => 0
  | i + 1 => lowVal a i + dig a i * 10 ^ i

instance (s : string) : Decidable (isDigits s) := by
  unfold isDigits
  infer_instance

instance (s : string) : Decidable (isNumeral s) := by
  unfold isNumeral
  infer_instance

end Integer

/-! ## The job dispatch pool: theorems -/

namespace JobSystem

open World


/-! ## Basic facts about the member functions and the inversion of `step` -/

theorem job_system.allocate_eq (n : Nat) (s : job_system) :
    job_system.allocate_and_launch_threads n s
      = { s with workers := s.workers ++ List.replicate n Thread.idle } := by
  induction n generalizing s with
  | zero => simp [job_system.allocate_and_launch_threads]
  | succ n ih =>
    simp [job_system.allocate_and_launch_threads, ih, job_system.add_worker, List.replicate_succ]

theorem job_system.create_eq (n : Nat) :
    job_system.create n = { enabled := true, workers := List.replicate n Thread.idle, jobs := [] } := by
  simp [job_system.create, job_system.allocate_eq, job_system.default]

theorem job_system.cancel_loop_eq (jobs remaining : List Job) :
    job_system.cancel_loop jobs remaining = ([], remaining ++ jobs) := by
  induction jobs generalizing remaining with
  | nil => simp [job_system.cancel_loop]
  | cons j js ih => simp [job_system.cancel_loop, ih]

theorem job_system.cancel_eq (s : job_system) :
    s.cancel = ({ s with enabled := false, jobs := [] }, s.jobs) := by
  simp [job_system.cancel, job_system.cancel_loop_eq]

theorem JoinedBelow.set_of_ne {ws : List Thread} {k i : Nat} {t u : Thread}
    (h : JoinedBelow ws k) (hi : ws[i]? = some t) (ht : t ≠ Thread.joined) :
    JoinedBelow (ws.set i u) k := by
  refine ⟨by simpa using h.1, fun m hm => ?_⟩
  have hne : i ≠ m := by
    rintro rfl
    rw [h.2 i hm] at hi
    exact ht (Option.some.inj hi).symm
  rw [List.getElem?_set_ne hne]
  exact h.2 m hm

theorem JoinedBelow.step_join {ws : List Thread} {k : Nat}
    (h : JoinedBelow ws k) (hk : k < ws.length) :
    JoinedBelow (ws.set k Thread.joined) (k + 1) := by
  refine ⟨by simpa using hk, fun m hm => ?_⟩
  by_cases hmk : m = k
  · subst hmk
    simp [List.getElem?_set_self, hk]
  · rw [List.getElem?_set_ne (fun h => hmk h.symm)]
    exact h.2 m (by omega)

theorem World.Step.of_step {w w1 : World} {e : Event} (h : w.step e = some w1) :
    World.Step w e w1 := by
  cases e with
  | dispatch job =>
    cases job with
    | none => simp [step] at h; subst h; exact .dispatchNull w
    | some j =>
      simp only [step] at h
      split at h
      · simp at h
      · rename_i hl
        simp at hl
        simp only [Option.some.injEq] at h
        subst h
        by_cases hc : w.pool.enabled = false ∨ w.pool.workers = []
        · have : w.doDispatch j = { w with sync := w.sync ++ [(j, false)], dispatched := w.dispatched ++ [j] } := by
            rcases hc with hc | hc <;> simp [doDispatch, job_system.dispatch, hc]
          rw [this]
          exact .dispatchSync w j hl hc
        · simp at hc
          have : w.doDispatch j = { w with
              pool := { w.pool with jobs := w.pool.jobs ++ [j] }
              dispatched := w.dispatched ++ [j]
              enqueued := w.enqueued ++ [j] } := by
            simp [doDispatch, job_system.dispatch, hc]
          rw [this]
          exact .dispatchQueue w j hl hc.1 hc.2
  | cancel =>
    simp only [step] at h
    split at h
    · simp at h
    · rename_i hl
      simp at hl
      simp only [Option.some.injEq] at h
      subst h
      have : w.doCancel = { w with
          pool := { w.pool with enabled := false, jobs := [] }
          returned := w.returned ++ [w.pool.jobs] } := by
        simp [doCancel, job_system.cancel_eq]
      rw [this]
      exact .cancel w hl
  | loop i =>
    simp only [step] at h
    split at h
    · simp at h
    · rename_i hl
      simp at hl
      simp only [doLoop] at h
      split at h
      · rename_i hi
        by_cases he : w.pool.enabled = true
        · cases hq : w.pool.jobs with
          | nil => simp [job_system.worker_loop, he, hq] at h
          | cons j rest =>
            have hw : w.pool.worker_loop i = job_system.LoopResult.claims
                { w.pool with jobs := rest, workers := w.pool.workers.set i (Thread.busy j false) } j := by
              simp [job_system.worker_loop, he, hq]
            rw [hw] at h
            simp only [Option.some.injEq] at h
            subst h
            exact .claim w i j rest hl hi he hq
        · simp at he
          have hw : w.pool.worker_loop i = job_system.LoopResult.exits
              { w.pool with workers := w.pool.workers.set i Thread.exited } := by
            simp [job_system.worker_loop, he]
          rw [hw] at h
          simp only [Option.some.injEq] at h
          subst h
          exact .exit w i hl hi he
      · simp at h
  | bodyCancel i =>
    simp only [step] at h
    split at h
    · rename_i j hi
      split at h
      · rename_i hc
        simp at hc
        simp only [Option.some.injEq] at h
        subst h
        have : w.doCancel = { w with
            pool := { w.pool with enabled := false, jobs := [] }
            returned := w.returned ++ [w.pool.jobs] } := by
          simp [doCancel, job_system.cancel_eq]
        rw [this]
        exact .bodyCancel w i j hc.2 hi hc.1
      · simp at h
    · simp at h
  | finish i =>
    simp only [step] at h
    split at h
    · rename_i j c hi
      split at h
      · rename_i hc
        subst hc
        simp only [Option.some.injEq] at h
        subst h
        exact .finish w i j hi
      · simp at h
    · simp at h
  | syncCancel j =>
    simp only [step] at h
    split at h
    · rename_i hc
      simp only [Option.some.injEq] at h
      subst h
      have : w.doCancel = { w with
          pool := { w.pool with enabled := false, jobs := [] }
          returned := w.returned ++ [w.pool.jobs] } := by
        simp [doCancel, job_system.cancel_eq]
      rw [this]
      exact .syncCancel w j hc.2.2 hc.1 hc.2.1
    · simp at h
  | syncFinish j =>
    simp only [step] at h
    split at h
    · rename_i hc
      simp only [Option.some.injEq] at h
      subst h
      exact .syncFinish w j hc
    · simp at h
  | joinBegin =>
    simp only [step] at h
    split at h
    · rename_i ho
      split at h
      · rename_i hq
        simp at hq
        simp only [Option.some.injEq] at h
        subst h
        exact .joinBegin w ho hq
      · simp at h
    · simp at h
  | joinThread =>
    simp only [step] at h
    split at h
    · rename_i k ho
      simp only [doJoinThread] at h
      split at h
      · cases hx : w.pool.workers[k]? with
        | none => simp [job_system.thread_join, hx] at h
        | some t =>
          cases t with
          | idle => simp [job_system.thread_join, hx] at h
          | busy j c => simp [job_system.thread_join, hx] at h
          | exited =>
            simp [job_system.thread_join, hx] at h
            subst h
            exact .joinOk w k ho hx
          | joined =>
            simp [job_system.thread_join, hx] at h
            subst h
            exact .joinThrow w k ho hx
      · simp at h
    · rename_i n k ho
      simp only [doJoinThread] at h
      split at h
      · cases hx : w.pool.workers[k]? with
        | none => simp [job_system.thread_join, hx] at h
        | some t =>
          cases t with
          | idle => simp [job_system.thread_join, hx] at h
          | busy j c => simp [job_system.thread_join, hx] at h
          | exited =>
            simp [job_system.thread_join, hx] at h
            subst h
            exact .resetJoinOk w n k ho hx
          | joined =>
            simp [job_system.thread_join, hx] at h
            subst h
            exact .resetJoinThrow w n k ho hx
      · simp at h
    · simp at h
  | joinEnd =>
    simp only [step] at h
    split at h
    · rename_i k ho
      split at h
      · rename_i hk
        subst hk
        simp only [Option.some.injEq] at h
        subst h
        exact .joinEnd w ho
      · simp at h
    · simp at h
  | resetBegin n =>
    simp only [step] at h
    split at h
    · rename_i ho
      simp only [Option.some.injEq] at h
      subst h
      exact .resetBegin w n ho
    · simp at h
  | resetRelaunch =>
    simp only [step] at h
    split at h
    · rename_i n k ho
      split at h
      · rename_i hk
        subst hk
        simp only [Option.some.injEq] at h
        subst h
        by_cases hn : 0 < n
        · have : w.pool.relaunch n
              = { enabled := true, workers := List.replicate n Thread.idle, jobs := w.pool.jobs } := by
            simp [job_system.relaunch, hn, job_system.allocate_eq]
          rw [this]
          simp only [gt_iff_lt, hn, if_true]
          exact .relaunch w n hn ho
        · have hn0 : n = 0 := by omega
          subst hn0
          have : w.pool.relaunch 0
              = { enabled := true, workers := [], jobs := w.pool.jobs } := by
            simp [job_system.relaunch]
          rw [this]
          simp only [gt_iff_lt, lt_self_iff_false, if_false]
          exact .relaunchZero w ho
      · simp at h
    · simp at h
  | drainInvoke =>
    simp only [step] at h
    split at h
    · rename_i j rest ho hq
      simp only [Option.some.injEq] at h
      subst h
      exact .drainInvoke w j rest ho hq
    · simp at h
  | drainFinish =>
    simp only [step] at h
    split at h
    · rename_i j ho
      split at h
      · simp at h
      · rename_i hc
        simp at hc
        simp only [Option.some.injEq] at h
        subst h
        exact .drainFinish w j ho hc
    · simp at h
  | resetEnd =>
    simp only [step] at h
    split at h
    · rename_i ho
      split at h
      · rename_i hq
        simp at hq
        simp only [Option.some.injEq] at h
        subst h
        exact .resetEnd w ho hq
      · simp at h
    · simp at h

/-! ## Runs, and the invariant of the joining phases -/

theorem World.run_inv (P : World → Prop) (A : Event → Prop)
    (hstep : ∀ w e w1, A e → P w → World.Step w e w1 → P w1) :
    ∀ (es : List Event) (w w1 : World), (∀ e ∈ es, A e) → P w → run w es = some w1 → P w1 := by
  intro es
  induction es with
  | nil =>
    intro w w1 _ hP h
    simp [run] at h
    subst h
    exact hP
  | cons e es ih =>
    intro w w1 hA hP h
    simp only [run] at h
    cases hs : w.step e with
    | none => simp [hs] at h
    | some w2 =>
      simp [hs] at h
      exact ih w2 w1 (fun x hx => hA x (List.mem_cons_of_mem _ hx))
        (hstep w e w2 (hA e (List.mem_cons_self _ _)) hP (World.Step.of_step hs)) h

theorem World.run_append (w : World) (es fs : List Event) :
    run w (es ++ fs) = (run w es).bind (fun w1 => run w1 fs) := by
  induction es generalizing w with
  | nil => simp [run]
  | cons e es ih =>
    simp only [List.cons_append, run]
    cases w.step e with
    | none => simp
    | some w2 => simp [ih]

theorem World.joinInv_create (n : Nat) : (create n).JoinInv := by
  simp [create, JoinInv]

theorem World.joinInv_step {w w1 : World} {e : Event} (hI : w.JoinInv)
    (h : World.Step w e w1) : w1.JoinInv := by
  cases h with
  | dispatchNull => exact hI
  | dispatchSync j hl h => simpa [JoinInv] using hI
  | dispatchQueue j hl he hw =>
    simp only [lockHeld] at hl
    revert hI hl
    simp only [JoinInv]
    cases w.owner <;> simp_all
  | cancel hl =>
    simp only [lockHeld] at hl
    revert hI hl
    simp only [JoinInv]
    cases w.owner <;> simp_all
  | claim i j rest hl hi he hq =>
    simp only [lockHeld] at hl
    revert hI hl
    simp only [JoinInv]
    cases w.owner <;> simp_all
  | exit i hl hi he =>
    revert hI
    simp only [JoinInv]
    cases w.owner <;> simp_all
    all_goals (intros; refine JoinedBelow.set_of_ne ?_ hi (by simp); assumption)
  | bodyCancel i j hl hi hc =>
    simp only [lockHeld] at hl
    revert hI hl
    simp only [JoinInv]
    cases w.owner <;> simp_all
    all_goals (intros; refine JoinedBelow.set_of_ne ?_ hi (by simp); assumption)
  | finish i j hi =>
    revert hI
    simp only [JoinInv]
    cases w.owner <;> simp_all
    all_goals (intros; refine JoinedBelow.set_of_ne ?_ hi (by simp); assumption)
  | syncCancel j hl hm hc =>
    simp only [lockHeld] at hl
    revert hI hl
    simp only [JoinInv]
    cases w.owner <;> simp_all
  | syncFinish j hm => simpa [JoinInv] using hI
  | joinBegin ho hq => simp [JoinInv, JoinedBelow, hq]
  | joinOk k ho hk =>
    simp only [JoinInv, ho] at hI ⊢
    have hlt : k < w.pool.workers.length := by
      by_contra hc
      rw [List.getElem?_eq_none (by omega)] at hk
      simp at hk
    exact ⟨hI.1.step_join hlt, hI.2⟩
  | joinThrow k ho hk => simp [JoinInv]
  | resetJoinOk n k ho hk =>
    simp only [JoinInv, ho] at hI ⊢
    have hlt : k < w.pool.workers.length := by
      by_contra hc
      rw [List.getElem?_eq_none (by omega)] at hk
      simp at hk
    exact ⟨hI.1.step_join hlt, hI.2⟩
  | resetJoinThrow n k ho hk => simp [JoinInv]
  | joinEnd ho => simp [JoinInv]
  | resetBegin n ho => simp [JoinInv, JoinedBelow]
  | relaunch n hn ho => simp [JoinInv]
  | relaunchZero ho => simp [JoinInv]
  | drainInvoke j rest ho hq => simp [JoinInv, hq]
  | drainFinish j ho hc => simp [JoinInv]
  | resetEnd ho hq => simp [JoinInv]

/-! ## Accounting of the dispatched jobs -/

theorem busyJobs_count_set (a : Job) (ws : List Thread) (i : Nat) (t u : Thread)
    (hi : ws[i]? = some t) :
    (busyJobs (ws.set i u)).count a + t.running.toList.count a
      = (busyJobs ws).count a + u.running.toList.count a := by
  induction ws generalizing i with
  | nil => simp at hi
  | cons x xs ih =>
    cases i with
    | zero =>
      simp at hi
      subst hi
      simp only [List.set_cons_zero, busyJobs, List.filterMap_cons]
      cases hx : x.running <;> cases hu : u.running <;> simp [List.count_cons]
      all_goals try omega
    | succ i =>
      simp at hi
      have := ih i hi
      simp only [List.set_cons_succ, busyJobs, List.filterMap_cons] at this ⊢
      cases hx : x.running <;> simp [List.count_cons]
      all_goals try omega

theorem busyJobs_of_joined (ws : List Thread) (h : JoinedBelow ws ws.length) : busyJobs ws = [] := by
  simp only [busyJobs, List.filterMap_eq_nil_iff]
  intro t ht
  obtain ⟨i, hi, rfl⟩ := List.getElem_of_mem ht
  have := h.2 i hi
  rw [List.getElem?_eq_getElem hi] at this
  simp at this
  simp [this, Thread.running]

theorem busyJobs_nil : busyJobs [] = [] := rfl

theorem busyJobs_replicate_idle (n : Nat) : busyJobs (List.replicate n Thread.idle) = [] := by
  simp only [busyJobs, List.filterMap_eq_nil_iff]
  intro t ht
  rw [List.eq_of_mem_replicate ht]
  rfl

theorem World.accounted_iff (w : World) :
    w.dispatched.Perm w.places ↔ ∀ a, w.dispatched.count a
      = w.pool.jobs.count a + (busyJobs w.pool.workers).count a + (w.sync.map Prod.fst).count a
        + w.finished.count a + w.returned.flatten.count a := by
  simp only [List.perm_iff_count, places, List.count_append]

theorem sync_count_erase (a : Job) (sync : List (Job × Bool)) (x : Job × Bool) (hx : x ∈ sync) :
    (sync.map Prod.fst).count a
      = ((sync.erase x).map Prod.fst).count a + [x.1].count a := by
  induction sync with
  | nil => simp at hx
  | cons y ys ih =>
    rw [List.erase_cons]
    by_cases hyx : y = x
    · subst hyx
      simp [List.count_cons]
    · have hb : (y == x) = false := by simpa using hyx
      have hx1 : x ∈ ys := by
        rcases List.mem_cons.mp hx with h | h
        · exact absurd h.symm hyx
        · exact h
      have h2 := ih hx1
      simp only [hb, List.map_cons, List.count_cons, List.count_nil] at h2 ⊢
      simp only [Bool.false_eq_true, if_false, List.map_cons, List.count_cons]
      omega

theorem World.accounted_step {w w1 : World} {e : Event} (hJ : w.JoinInv)
    (hI : w.dispatched.Perm w.places) (h : World.Step w e w1) : w1.dispatched.Perm w1.places := by
  rw [World.accounted_iff] at hI ⊢
  intro a
  have hI := hI a
  cases h with
  | dispatchNull => exact hI
  | dispatchSync j hl h => simp [List.count_append] at hI ⊢; omega
  | dispatchQueue j hl he hw => simp [List.count_append] at hI ⊢; omega
  | cancel hl => simp [List.count_append] at hI ⊢; omega
  | claim i j rest hl hi he hq =>
    have hs := busyJobs_count_set a w.pool.workers i _ (Thread.busy j false) hi
    simp [List.count_append, hq, Thread.running, List.count_cons] at hI hs ⊢
    omega
  | exit i hl hi he =>
    have hs := busyJobs_count_set a w.pool.workers i _ Thread.exited hi
    simp [List.count_append, Thread.running] at hI hs ⊢
    omega
  | bodyCancel i j hl hi hc =>
    have hs := busyJobs_count_set a w.pool.workers i _ (Thread.busy j true) hi
    simp [List.count_append, Thread.running] at hI hs ⊢
    omega
  | finish i j hi =>
    have hs := busyJobs_count_set a w.pool.workers i _ Thread.idle hi
    simp [List.count_append, Thread.running, List.count_cons] at hI hs ⊢
    omega
  | syncCancel j hl hm hc =>
    have hs := sync_count_erase a w.sync _ hm
    simp [List.count_append, List.count_cons] at hI hs ⊢
    omega
  | syncFinish j hm =>
    have hs := sync_count_erase a w.sync _ hm
    simp [List.count_append, List.count_cons] at hI hs ⊢
    omega
  | joinBegin ho hq => simpa using hI
  | joinOk k ho hk =>
    have hs := busyJobs_count_set a w.pool.workers k _ Thread.joined hk
    simp [List.count_append, Thread.running] at hI hs ⊢
    omega
  | joinThrow k ho hk => simpa using hI
  | resetJoinOk n k ho hk =>
    have hs := busyJobs_count_set a w.pool.workers k _ Thread.joined hk
    simp [List.count_append, Thread.running] at hI hs ⊢
    omega
  | resetJoinThrow n k ho hk => simpa using hI
  | joinEnd ho => simpa using hI
  | resetBegin n ho => simpa using hI
  | relaunch n hn ho =>
    simp only [JoinInv, ho] at hJ
    simp [busyJobs_replicate_idle, busyJobs_of_joined _ hJ.1] at hI ⊢
    omega
  | relaunchZero ho =>
    simp only [JoinInv, ho] at hJ
    simp [busyJobs_of_joined _ hJ.1, busyJobs_nil] at hI ⊢
    omega
  | drainInvoke j rest ho hq => simpa using hI
  | drainFinish j ho hc =>
    simp only [JoinInv, ho] at hJ
    cases hq : w.pool.jobs with
    | nil => simp [hq] at hJ
    | cons x rest =>
      simp [hq] at hJ
      subst hJ
      simp [List.count_append, List.count_cons, hq] at hI ⊢
      omega
  | resetEnd ho hq => simpa using hI

/-! ## First-in first-out order, and the invariants of every reachable state -/

theorem World.fifo_step {w w1 : World} {e : Event} (hI : w.FifoInv)
    (h : World.Step w e w1) : w1.FifoInv := by
  obtain ⟨r, hr, hs⟩ := hI
  cases h with
  | dispatchNull => exact ⟨r, hr, hs⟩
  | dispatchSync j hl h => exact ⟨r, hr, hs⟩
  | dispatchQueue j hl he hw => exact ⟨r, by simp [hr], hs⟩
  | cancel hl =>
    exact ⟨r ++ w.pool.jobs, by simp [hr], hs.trans (List.sublist_append_left _ _)⟩
  | claim i j rest hl hi he hq =>
    refine ⟨r ++ [j], by simp [hr, hq], ?_⟩
    simp only [claimedJobs, List.map_append, List.map_cons, List.map_nil]
    exact List.Sublist.append hs (List.Sublist.refl _)
  | exit i hl hi he => exact ⟨r, hr, hs⟩
  | bodyCancel i j hl hi hc =>
    exact ⟨r ++ w.pool.jobs, by simp [hr], hs.trans (List.sublist_append_left _ _)⟩
  | finish i j hi => exact ⟨r, hr, hs⟩
  | syncCancel j hl hm hc =>
    exact ⟨r ++ w.pool.jobs, by simp [hr], hs.trans (List.sublist_append_left _ _)⟩
  | syncFinish j hm => exact ⟨r, hr, hs⟩
  | joinBegin ho hq => exact ⟨r, hr, hs⟩
  | joinOk k ho hk => exact ⟨r, hr, hs⟩
  | joinThrow k ho hk => exact ⟨r, hr, hs⟩
  | resetJoinOk n k ho hk => exact ⟨r, hr, hs⟩
  | resetJoinThrow n k ho hk => exact ⟨r, hr, hs⟩
  | joinEnd ho => exact ⟨r, hr, hs⟩
  | resetBegin n ho => exact ⟨r, hr, hs⟩
  | relaunch n hn ho => exact ⟨r, hr, hs⟩
  | relaunchZero ho => exact ⟨r, hr, hs⟩
  | drainInvoke j rest ho hq => exact ⟨r, hr, hs⟩
  | drainFinish j ho hc =>
    cases hq : w.pool.jobs with
    | nil => exact ⟨r, by simp [hr, hq], hs⟩
    | cons x rest =>
      exact ⟨r ++ [x], by simp [hr, hq], hs.trans (List.sublist_append_left _ _)⟩
  | resetEnd ho hq => exact ⟨r, hr, hs⟩

theorem World.claimed_step {w w1 : World} {e : Event} (hJ : w.JoinInv) (hI : w.ClaimedInv)
    (h : World.Step w e w1) : w1.ClaimedInv := by
  intro a
  have hI := hI a
  cases h with
  | dispatchNull => exact hI
  | dispatchSync j hl h => exact hI
  | dispatchQueue j hl he hw => exact hI
  | cancel hl => exact hI
  | claim i j rest hl hi he hq =>
    have hs := busyJobs_count_set a w.pool.workers i _ (Thread.busy j false) hi
    simp [claimedJobs, List.count_append, Thread.running, List.count_cons] at hI hs ⊢
    omega
  | exit i hl hi he =>
    have hs := busyJobs_count_set a w.pool.workers i _ Thread.exited hi
    simp [claimedJobs, Thread.running] at hI hs ⊢
    omega
  | bodyCancel i j hl hi hc =>
    have hs := busyJobs_count_set a w.pool.workers i _ (Thread.busy j true) hi
    simp [claimedJobs, Thread.running] at hI hs ⊢
    omega
  | finish i j hi =>
    have hs := busyJobs_count_set a w.pool.workers i _ Thread.idle hi
    simp [claimedJobs, List.count_append, Thread.running, List.count_cons] at hI hs ⊢
    omega
  | syncCancel j hl hm hc => exact hI
  | syncFinish j hm =>
    simp [claimedJobs, List.count_append] at hI ⊢
    omega
  | joinBegin ho hq => exact hI
  | joinOk k ho hk =>
    have hs := busyJobs_count_set a w.pool.workers k _ Thread.joined hk
    simp [claimedJobs, Thread.running] at hI hs ⊢
    omega
  | joinThrow k ho hk => exact hI
  | resetJoinOk n k ho hk =>
    have hs := busyJobs_count_set a w.pool.workers k _ Thread.joined hk
    simp [claimedJobs, Thread.running] at hI hs ⊢
    omega
  | resetJoinThrow n k ho hk => exact hI
  | joinEnd ho => exact hI
  | resetBegin n ho => exact hI
  | relaunch n hn ho =>
    simp only [JoinInv, ho] at hJ
    simp [claimedJobs, busyJobs_replicate_idle, busyJobs_of_joined _ hJ.1] at hI ⊢
    omega
  | relaunchZero ho =>
    simp only [JoinInv, ho] at hJ
    simp [claimedJobs, busyJobs_of_joined _ hJ.1, busyJobs_nil] at hI ⊢
    omega
  | drainInvoke j rest ho hq => exact hI
  | drainFinish j ho hc =>
    simp [claimedJobs, List.count_append] at hI ⊢
    omega
  | resetEnd ho hq => exact hI

/-- The invariants that hold in every reachable state. -/
theorem World.reachable_inv {w : World} (h : w.Reachable) :
    w.JoinInv ∧ w.dispatched.Perm w.places ∧ w.FifoInv ∧ w.ClaimedInv := by
  obtain ⟨n, es, hrun⟩ := h
  refine World.run_inv (fun w => w.JoinInv ∧ w.dispatched.Perm w.places ∧ w.FifoInv ∧ w.ClaimedInv)
    (fun _ => True) ?_ es (create n) w (fun _ _ => trivial) ?_ hrun
  · intro w e w1 _ hP hs
    exact ⟨World.joinInv_step hP.1 hs, World.accounted_step hP.1 hP.2.1 hs,
      World.fifo_step hP.2.2.1 hs, World.claimed_step hP.1 hP.2.2.2 hs⟩
  · refine ⟨World.joinInv_create n, ?_, ⟨[], ?_, ?_⟩, ?_⟩
    · simp [create, places, job_system.create_eq, busyJobs_replicate_idle]
    · simp [create, job_system.create_eq]
    · simp [create, claimedJobs]
    · intro a
      simp [create, claimedJobs]

/-! ## `dispatch` and `cancel` as functions of the pool state -/

theorem World.syncCall_run (w : World) (j : Job) (hw : w.pool.workers = [])
    (hl : w.lockHeld = false) (hs : w.sync = []) (hq : w.pool.jobs = []) :
    ∃ w1, run w (syncCall j) = some w1 ∧ w1.pool.workers = [] ∧ w1.lockHeld = false
      ∧ w1.sync = [] ∧ w1.pool.jobs = [] ∧ w1.finished = w.finished ++ [j]
      ∧ w1.enqueued = w.enqueued := by
  simp only [lockHeld] at hl
  cases hc : j.cancels with
  | false =>
    simp [syncCall, hc, run, step, hl, doDispatch, job_system.dispatch, hw, hs, hq, lockHeld]
  | true =>
    simp [syncCall, hc, run, step, hl, doDispatch, job_system.dispatch, hw, hs, hq, lockHeld,
      doCancel, job_system.cancel_eq]

theorem World.syncCalls_run (js : List Job) :
    ∀ w : World, w.pool.workers = [] → w.lockHeld = false → w.sync = [] → w.pool.jobs = [] →
      ∃ w1, run w (js.flatMap syncCall) = some w1 ∧ w1.pool.workers = [] ∧ w1.sync = []
        ∧ w1.pool.jobs = [] ∧ w1.finished = w.finished ++ js ∧ w1.enqueued = w.enqueued := by
  induction js with
  | nil =>
    intro w hw _ hs hq
    exact ⟨w, by simp [run], hw, hs, hq, by simp, rfl⟩
  | cons j js ih =>
    intro w hw hl hs hq
    obtain ⟨w1, h1, hw1, hl1, hs1, hq1, hf1, he1⟩ := World.syncCall_run w j hw hl hs hq
    obtain ⟨w2, h2, hw2, hs2, hq2, hf2, he2⟩ := ih w1 hw1 hl1 hs1 hq1
    refine ⟨w2, ?_, hw2, hs2, hq2, ?_, ?_⟩
    · simp [List.flatMap_cons, World.run_append, h1, h2]
    · simp [hf2, hf1]
    · simp [he2, he1]

/-- C1: on a pool that is enabled and has at least one worker, `dispatch(j)` of a
non-empty job pushes `j` at the tail of the queue, invokes nothing on the calling
thread, and leaves the enabled flag and the worker vector as they were. -/
theorem dispatch_enqueues (s : job_system) (j : Job)
    (he : s.enabled = true) (hw : s.workers ≠ []) :
    (s.dispatch (some j)).1.jobs = s.jobs ++ [j]
      ∧ (s.dispatch (some j)).2 = []
      ∧ (s.dispatch (some j)).1.enabled = s.enabled
      ∧ (s.dispatch (some j)).1.workers = s.workers := by
  simp [job_system.dispatch, he, hw]

/-- A concrete instance: a dispatch to a fresh pool of two workers queues the job. -/
theorem dispatch_enqueues_witness :
    ((job_system.create 2).dispatch (some ⟨7, false⟩)).1.jobs = [] ++ [⟨7, false⟩]
      ∧ ((job_system.create 2).dispatch (some ⟨7, false⟩)).2 = []
      ∧ ((job_system.create 2).dispatch (some ⟨7, false⟩)).1.enabled = true
      ∧ ((job_system.create 2).dispatch (some ⟨7, false⟩)).1.workers = [Thread.idle, Thread.idle] :=
  dispatch_enqueues (job_system.create 2) ⟨7, false⟩ (by decide) (by decide)

/-- C2: on a pool that is disabled or has no worker, `dispatch(j)` of a non-empty
job invokes `j` once on the calling thread and itself leaves the queue, the
enabled flag and the worker vector unchanged; on a pool constructed with zero
workers, every job of any sequence of synchronous calls has finished, in order,
when its call returns, and nothing was ever queued. -/
theorem dispatch_runs_synchronously (s : job_system) (j : Job)
    (h : s.enabled = false ∨ s.workers = []) :
    s.dispatch (some j) = (s, [j])
      ∧ ∀ js : List Job, ∃ w, run (World.create 0) (js.flatMap syncCall) = some w
          ∧ w.finished = js ∧ w.pool.jobs = [] ∧ w.sync = [] ∧ w.enqueued = [] := by
  refine ⟨?_, fun js => ?_⟩
  · rcases h with h | h <;> simp [job_system.dispatch, h]
  · obtain ⟨w, h1, _, h3, h4, h5, h6⟩ := World.syncCalls_run js (World.create 0)
      (by simp [World.create, job_system.create_eq]) (by simp [World.create, lockHeld])
      (by simp [World.create]) (by simp [World.create, job_system.create_eq])
    exact ⟨w, h1, by simpa [World.create] using h5, h4, h3, by simpa [World.create] using h6⟩

/-- A concrete instance: a dispatch to a disabled pool runs the job on the caller. -/
theorem dispatch_runs_synchronously_witness :
    (job_system.mk false [Thread.exited] [⟨1, false⟩]).dispatch (some ⟨2, true⟩)
      = (job_system.mk false [Thread.exited] [⟨1, false⟩], [⟨2, true⟩]) :=
  (dispatch_runs_synchronously (job_system.mk false [Thread.exited] [⟨1, false⟩]) ⟨2, true⟩
    (Or.inl rfl)).1

/-- C3: `cancel()` returns the pending queue in its front-to-back order, leaves the
queue empty and the pool disabled, keeps the worker vector, and invokes no job:
the jobs in flight and the log of finished jobs are as before the call. -/
theorem cancel_returns_queue (s : job_system) (w : World) :
    s.cancel = ({ enabled := false, workers := s.workers, jobs := [] }, s.jobs)
      ∧ w.doCancel.returned = w.returned ++ [w.pool.jobs]
      ∧ w.doCancel.finished = w.finished
      ∧ w.doCancel.sync = w.sync
      ∧ busyJobs w.doCancel.pool.workers = busyJobs w.pool.workers := by
  simp [job_system.cancel_eq, doCancel]

/-! ## Order of two jobs in a list -/

theorem Before.of_mem {l : List Job} {a b : Job} (ha : a ∈ l) (hb : b ∈ l) (hab : a ≠ b) :
    Before l a b ∨ Before l b a := by
  induction l with
  | nil => simp at ha
  | cons x xs ih =>
    by_cases hxa : x = a
    · subst hxa
      have hb1 : b ∈ xs := by
        rcases List.mem_cons.mp hb with h | h
        · exact absurd h.symm hab
        · exact h
      exact Or.inl (List.Sublist.cons₂ _ (List.singleton_sublist.mpr hb1))
    · by_cases hxb : x = b
      · subst hxb
        have ha1 : a ∈ xs := by
          rcases List.mem_cons.mp ha with h | h
          · exact absurd h.symm hxa
          · exact h
        exact Or.inr (List.Sublist.cons₂ _ (List.singleton_sublist.mpr ha1))
      · have ha1 : a ∈ xs := by
          rcases List.mem_cons.mp ha with h | h
          · exact absurd h.symm hxa
          · exact h
        have hb1 : b ∈ xs := by
          rcases List.mem_cons.mp hb with h | h
          · exact absurd h.symm hxb
          · exact h
        rcases ih ha1 hb1 with h | h
        · exact Or.inl (List.Sublist.cons _ h)
        · exact Or.inr (List.Sublist.cons _ h)

theorem Before.asymm {l : List Job} {a b : Job} (hl : l.Nodup) (h1 : Before l a b)
    (h2 : Before l b a) : False := by
  induction l with
  | nil => simp [Before] at h1
  | cons x xs ih =>
    have hx : x ∉ xs := (List.nodup_cons.mp hl).1
    have hxs : xs.Nodup := (List.nodup_cons.mp hl).2
    unfold Before at h1 h2 ih
    rcases List.sublist_cons_iff.mp h1 with g1 | ⟨r1, e1, s1⟩
    · rcases List.sublist_cons_iff.mp h2 with g2 | ⟨r2, e2, s2⟩
      · exact ih hxs g1 g2
      · simp at e2
        obtain ⟨rfl, rfl⟩ := e2
        exact hx (g1.subset (List.mem_cons_of_mem _ (List.mem_singleton_self _)))
    · simp at e1
      obtain ⟨rfl, rfl⟩ := e1
      rcases List.sublist_cons_iff.mp h2 with g2 | ⟨r2, e2, s2⟩
      · exact hx (g2.subset (List.mem_cons_of_mem _ (List.mem_singleton_self _)))
      · simp at e2
        obtain ⟨rfl, rfl⟩ := e2
        exact hx (List.singleton_sublist.mp s1)

/-- Order is inherited from a duplicate-free list by its sublists. -/
theorem Before.of_sublist {c l : List Job} {a b : Job} (hs : c.Sublist l) (hl : l.Nodup)
    (hab : Before l a b) (ha : a ∈ c) (hb : b ∈ c) : Before c a b := by
  have hne : a ≠ b := by
    rintro rfl
    have : [a, a].Nodup := hl.sublist hab
    simp at this
  rcases Before.of_mem ha hb hne with h | h
  · exact h
  · exact (Before.asymm hl hab (List.Sublist.trans h hs)).elim

/-! ## Claim order and accounting in every reachable state -/

theorem twoWorkerWorld_reachable : twoWorkerWorld.Reachable :=
  ⟨2, twoWorkerRun, by decide⟩

theorem drainRunWorld_reachable : drainRunWorld.Reachable :=
  ⟨1, drainRunEvents, by decide⟩

theorem firstJoinWorld_reachable : firstJoinWorld.Reachable :=
  ⟨1, firstJoinEvents, by decide⟩

/-- C5: a pass of a worker's loop on an enabled pool removes exactly the front
element of the queue and logs it as claimed; hence in every reachable state the
claimed jobs are, in claim order, a subsequence of the enqueued jobs, and for
distinct jobs: if `a` was enqueued before `b` and both are claimed, `a` was
claimed before `b`, whatever the number of workers. -/
theorem claims_in_fifo_order (w : World) (hr : w.Reachable) :
    (∀ i w1, w.step (Event.loop i) = some w1 → w.pool.enabled = true →
        ∃ j rest, w.pool.jobs = j :: rest ∧ w1.pool.jobs = rest
          ∧ w1.claimed = w.claimed ++ [(i, j)])
      ∧ w.claimedJobs.Sublist w.enqueued
      ∧ (w.enqueued.Nodup → ∀ a b, Before w.enqueued a b → a ∈ w.claimedJobs →
          b ∈ w.claimedJobs → Before w.claimedJobs a b) := by
  obtain ⟨r, hr1, hr2⟩ := (World.reachable_inv hr).2.2.1
  have hsub : w.claimedJobs.Sublist w.enqueued := by
    rw [hr1]
    exact hr2.trans (List.sublist_append_left _ _)
  refine ⟨?_, hsub, fun hnd a b hab ha hb => Before.of_sublist hsub hnd hab ha hb⟩
  intro i w1 hs he
  cases World.Step.of_step hs with
  | claim _ j rest hl hi he1 hq => exact ⟨j, rest, hq, rfl, rfl⟩
  | exit _ hl hi he1 => rw [he] at he1; cases he1

/-- A concrete instance: on two workers, job 1 is claimed before job 2. -/
theorem claims_in_fifo_order_witness :
    Before twoWorkerWorld.claimedJobs ⟨1, false⟩ ⟨2, false⟩ :=
  (claims_in_fifo_order twoWorkerWorld twoWorkerWorld_reachable).2.2 (by decide)
    ⟨1, false⟩ ⟨2, false⟩ (List.Sublist.refl _) (by decide) (by decide)

/-- C7 as stated fails: after `drainRunEvents` the only dispatched job is at the
front of the pending queue and at the same time being executed by the thread
that called `reset(0)`, so it is in two of the listed places. -/
theorem no_dup_no_loss_counterexample :
    run (World.create 1) drainRunEvents = some drainRunWorld
      ∧ drainRunWorld.dispatched = [⟨1, false⟩]
      ∧ drainRunWorld.pool.jobs = [⟨1, false⟩]
      ∧ drainRunWorld.callerRunning = [⟨1, false⟩]
      ∧ drainRunWorld.statedPlaces.count ⟨1, false⟩ = 2 := by
  decide

/-- C7 amended: in every reachable state the dispatched jobs are, with
multiplicity, exactly the jobs pending, claimed by a worker, running in a
caller's synchronous dispatch, finished, or handed back by `cancel()`, so a job
dispatched once is in exactly one of these places, once; the job that the
serial drain of `reset(0)` is executing is the front element of the pending
queue, and outside that call these are the places the specification lists. -/
theorem no_dup_no_loss (w : World) (hr : w.Reachable) :
    w.dispatched.Perm w.places
      ∧ (w.dispatched.Nodup → ∀ j ∈ w.dispatched, w.places.count j = 1)
      ∧ (∀ j, w.owner = Owner.drainRun j → w.pool.jobs.head? = some j)
      ∧ ((∀ j, w.owner ≠ Owner.drainRun j) → w.statedPlaces = w.places) := by
  have hI := World.reachable_inv hr
  refine ⟨hI.2.1, ?_, ?_, ?_⟩
  · intro hnd j hj
    rw [← hI.2.1.count_eq]
    exact List.count_eq_one_of_mem hnd hj
  · intro j hj
    have := hI.1
    simpa [JoinInv, hj] using this
  · intro hno
    simp only [statedPlaces, places, callerRunning]
    cases ho : w.owner with
    | drainRun j => exact absurd ho (hno j)
    | _ => simp

/-- A concrete instance: job 2 of the two-worker run is in exactly one place. -/
theorem no_dup_no_loss_witness :
    twoWorkerWorld.places.count ⟨2, false⟩ = 1 :=
  (no_dup_no_loss twoWorkerWorld twoWorkerWorld_reachable).2.1 (by decide) ⟨2, false⟩ (by decide)

theorem JoinedBelow.all_joined {ws : List Thread} (h : JoinedBelow ws ws.length) :
    ∀ t ∈ ws, t = Thread.joined := by
  intro t ht
  obtain ⟨i, hi, rfl⟩ := List.getElem_of_mem ht
  have := h.2 i hi
  rw [List.getElem?_eq_getElem hi] at this
  exact Option.some.inj this

theorem World.after_join {w w1 : World} (hr : w.Reachable)
    (h : w.step Event.joinEnd = some w1) :
    w1 = { w with owner := Owner.free } ∧ w1.pool.jobs = [] ∧ w1.pool.enabled = false
      ∧ (∀ t ∈ w1.pool.workers, t = Thread.joined) := by
  have hJ := (World.reachable_inv hr).1
  cases World.Step.of_step h with
  | joinEnd ho =>
    simp only [JoinInv, ho] at hJ
    exact ⟨rfl, hJ.2.2, hJ.2.1, hJ.1.all_joined⟩

/-! ## The schedule of a whole `join()` -/

theorem World.joins_run (next : Nat → Owner)
    (hnext : next = Owner.joining ∨ ∃ n, next = Owner.resetJoining n) :
    ∀ (m k : Nat) (w : World), w.owner = next k →
      k + m = w.pool.workers.length →
      (∀ i, k ≤ i → i < w.pool.workers.length → w.pool.workers[i]? = some Thread.exited) →
      ∃ ws : List Thread, ws.length = w.pool.workers.length
        ∧ run w (List.replicate m Event.joinThread)
          = some { w with pool := { w.pool with workers := ws }, owner := next (k + m) } := by
  intro m
  induction m with
  | zero =>
    intro k w ho _ _
    refine ⟨w.pool.workers, rfl, ?_⟩
    simp [run, ← ho]
  | succ m ih =>
    intro k w ho hk hex
    have hkl : k < w.pool.workers.length := by omega
    have hs : w.step Event.joinThread
        = some { w with
            pool := { w.pool with workers := w.pool.workers.set k Thread.joined }
            owner := next (k + 1) } := by
      rcases hnext with rfl | ⟨n, rfl⟩ <;>
        simp [step, ho, doJoinThread, job_system.thread_join, hkl, hex k (Nat.le_refl k) hkl]
    obtain ⟨ws, hlen, hrun⟩ := ih (k + 1)
      { w with
        pool := { w.pool with workers := w.pool.workers.set k Thread.joined }
        owner := next (k + 1) } rfl (by simp; omega)
      (by
        intro i hi hil
        simp only [List.length_set] at hil
        simp only
        rw [List.getElem?_set_ne (by omega)]
        exact hex i (by omega) hil)
    refine ⟨ws, by simpa using hlen, ?_⟩
    simp only [List.replicate_succ, run, hs, Option.some_bind, hrun]
    simp [Nat.add_assoc, Nat.add_comm 1 m]

theorem World.exits_run :
    ∀ (m k : Nat) (w : World), w.pool.enabled = false → w.lockHeld = false →
      k + m = w.pool.workers.length →
      (∀ i, i < k → w.pool.workers[i]? = some Thread.exited) →
      (∀ i, k ≤ i → i < w.pool.workers.length → w.pool.workers[i]? = some Thread.idle) →
      ∃ ws : List Thread, ws.length = w.pool.workers.length
        ∧ (∀ i, i < ws.length → ws[i]? = some Thread.exited)
        ∧ run w ((List.range' k m).map Event.loop)
          = some { w with pool := { w.pool with workers := ws } } := by
  intro m
  induction m with
  | zero =>
    intro k w _ _ hk hlow _
    refine ⟨w.pool.workers, rfl, fun i hi => hlow i (by omega), ?_⟩
    simp [run]
  | succ m ih =>
    intro k w he hl hk hlow hup
    have hkl : k < w.pool.workers.length := by omega
    have hs : w.step (Event.loop k)
        = some { w with pool := { w.pool with workers := w.pool.workers.set k Thread.exited } } := by
      simp [step, hl, doLoop, hup k (Nat.le_refl k) hkl, job_system.worker_loop, he]
    obtain ⟨ws, hlen, hall, hrun⟩ := ih (k + 1)
      { w with pool := { w.pool with workers := w.pool.workers.set k Thread.exited } }
      he hl (by simp; omega)
      (by
        intro i hi
        simp only
        by_cases hik : i = k
        · subst hik
          simp [List.getElem?_set_self, hkl]
        · rw [List.getElem?_set_ne (fun h => hik h.symm)]
          exact hlow i (by omega))
      (by
        intro i hi hil
        simp only [List.length_set] at hil
        simp only
        rw [List.getElem?_set_ne (by omega)]
        exact hup i (by omega) hil)
    refine ⟨ws, by simpa using hlen, hall, ?_⟩
    simp only [List.range'_succ, List.map_cons, run, hs, Option.some_bind, hrun]

/-- A first `join()` on a fresh pool of `n` workers returns, for every `n`. -/
theorem World.first_join_run (n : Nat) :
    run (World.create n) (joinSchedule n) = some (joinedWorld n) := by
  have hb : (World.create n).step Event.joinBegin
      = some { World.create n with
          pool := { enabled := false, workers := List.replicate n Thread.idle, jobs := [] }
          owner := Owner.joining 0 } := by
    simp [step, World.create, job_system.create_eq, job_system.disable_and_stop_all_threads]
  obtain ⟨ws1, hlen1, hall1, hrun1⟩ := World.exits_run n 0
    { World.create n with
      pool := { enabled := false, workers := List.replicate n Thread.idle, jobs := [] }
      owner := Owner.joining 0 } rfl rfl (by simp) (by intro i hi; omega)
    (by
      intro i _ hi
      simp only [List.length_replicate] at hi
      simp [List.getElem?_replicate, hi])
  simp only [List.length_replicate] at hlen1
  obtain ⟨ws2, hlen2, hrun2⟩ := World.joins_run Owner.joining (Or.inl rfl) n 0
    { World.create n with
      pool := { enabled := false, workers := ws1, jobs := [] }
      owner := Owner.joining 0 } rfl (by simp [hlen1])
    (by
      intro i _ hi
      exact hall1 i hi)
  simp only at hlen2
  have hpre : run (World.create n)
      (Event.joinBegin :: ((List.range' 0 n).map Event.loop ++ List.replicate n Event.joinThread))
      = some { World.create n with
          pool := { enabled := false, workers := ws2, jobs := [] }
          owner := Owner.joining n } := by
    simp only [run, hb, Option.some_bind, World.run_append, hrun1, hrun2]
    simp
  have hreach : World.Reachable { World.create n with
      pool := { enabled := false, workers := ws2, jobs := [] }
      owner := Owner.joining n } := ⟨n, _, hpre⟩
  have hJ := (World.reachable_inv hreach).1
  simp only [JoinInv] at hJ
  have hnl : n = ws2.length := by omega
  have hws : ws2 = List.replicate n Thread.joined := by
    rw [List.eq_replicate_iff]
    refine ⟨by omega, ?_⟩
    have hJ1 := hJ.1
    rw [hnl] at hJ1
    exact hJ1.all_joined
  have hfull := World.run_append (World.create n)
    (Event.joinBegin :: ((List.range' 0 n).map Event.loop ++ List.replicate n Event.joinThread))
    [Event.joinEnd]
  rw [hpre, Option.some_bind] at hfull
  have hsched : joinSchedule n
      = (Event.joinBegin :: ((List.range' 0 n).map Event.loop ++ List.replicate n Event.joinThread))
        ++ [Event.joinEnd] := by
    simp [joinSchedule]
  rw [hsched, hfull, hws]
  simp [run, step, joinedWorld]
  rfl

/-! ## The state in which `join()` returns -/

/-- C8: when `join()` returns, the pending queue is empty, the pool is disabled,
every thread of the worker vector has terminated and been joined, so that no
worker holds a job, and a `dispatch` of a non-empty job issued afterwards runs
it synchronously without queueing it; and on a fresh pool of any number of
workers `join()` does return, without an exception. -/
theorem join_returns_stopped (w w1 : World) (hr : w.Reachable)
    (h : w.step Event.joinEnd = some w1) :
    w1.pool.jobs = [] ∧ w1.pool.enabled = false
      ∧ (∀ t ∈ w1.pool.workers, t = Thread.joined)
      ∧ busyJobs w1.pool.workers = []
      ∧ w1.owner = Owner.free
      ∧ w1.threw = w.threw
      ∧ (∀ j, w1.pool.dispatch (some j) = (w1.pool, [j]))
      ∧ ∀ n, run (World.create n) (joinSchedule n) = some (joinedWorld n)
          ∧ (joinedWorld n).threw = false := by
  have hJ := (World.reachable_inv hr).1
  cases World.Step.of_step h with
  | joinEnd ho =>
    simp only [JoinInv, ho] at hJ
    obtain ⟨hb, he, hq⟩ := hJ
    refine ⟨hq, he, hb.all_joined, busyJobs_of_joined _ hb, rfl, rfl, fun j => ?_,
      fun n => ⟨World.first_join_run n, rfl⟩⟩
    simp [job_system.dispatch, he]

/-- A concrete instance: the first `join()` on a pool of one worker returns. -/
theorem join_returns_stopped_witness :
    firstJoinWorld.pool.jobs = [] ∧ firstJoinWorld.pool.enabled = false
      ∧ (∀ t ∈ [Thread.joined], t = Thread.joined) :=
  have h := join_returns_stopped firstJoinWorld { firstJoinWorld with owner := Owner.free }
    firstJoinWorld_reachable (by decide)
  ⟨h.1, h.2.1, h.2.2.1⟩

/-! ## A second `join()`, and `reset(n)` for `n > 0` -/

theorem World.reset_run (n : Nat) (w : World) (hn : 0 < n) (ho : w.owner = Owner.free)
    (hs : ∀ t ∈ w.pool.workers, t = Thread.exited) :
    run w (Event.resetBegin n ::
        (List.replicate w.pool.workers.length Event.joinThread ++ [Event.resetRelaunch]))
      = some { w with
          pool := { enabled := true, workers := List.replicate n Thread.idle, jobs := w.pool.jobs } } := by
  have hb : w.step (Event.resetBegin n)
      = some { w with pool := w.pool.disable_and_stop_all_threads, owner := Owner.resetJoining n 0 } := by
    simp [step, ho]
  obtain ⟨ws, hlen, hrun⟩ := World.joins_run (Owner.resetJoining n) (Or.inr ⟨n, rfl⟩)
    w.pool.workers.length 0
    { w with pool := w.pool.disable_and_stop_all_threads, owner := Owner.resetJoining n 0 } rfl
    (by simp [job_system.disable_and_stop_all_threads])
    (by
      intro i _ hi
      simp only [job_system.disable_and_stop_all_threads] at hi ⊢
      rw [List.getElem?_eq_getElem hi]
      exact congrArg some (hs _ (List.getElem_mem hi)))
  simp only [job_system.disable_and_stop_all_threads] at hrun hlen
  simp only [run, hb, Option.some_bind, World.run_append, job_system.disable_and_stop_all_threads, hrun]
  simp [step, hlen, job_system.relaunch, hn, job_system.allocate_eq, ← ho]

/-- C10: for `n > 0`, on a pool whose worker threads have all terminated,
`reset(n)` (its disable step, one join for each old thread, then the relaunch)
runs to completion and leaves the pool enabled with exactly `n` fresh idle
workers and the pending queue as it was, in the same order; no job is executed
or handed back and nothing else changes.  The relaunch step by itself, taken
once all old threads are joined, replaces the worker vector by `n` fresh
workers, sets the flag and keeps the queue. -/
theorem reset_relaunches (n : Nat) (hn : 0 < n) :
    (∀ w : World, w.owner = Owner.free → (∀ t ∈ w.pool.workers, t = Thread.exited) →
      run w (Event.resetBegin n ::
          (List.replicate w.pool.workers.length Event.joinThread ++ [Event.resetRelaunch]))
        = some { w with
            pool := { enabled := true, workers := List.replicate n Thread.idle,
                      jobs := w.pool.jobs } })
      ∧ (∀ w : World, w.owner = Owner.resetJoining n w.pool.workers.length →
          w.step Event.resetRelaunch
            = some { w with
                pool := { enabled := true, workers := List.replicate n Thread.idle,
                          jobs := w.pool.jobs }
                owner := Owner.free }) := by
  refine ⟨fun w ho hs => World.reset_run n w hn ho hs, fun w ho => ?_⟩
  rw [step.eq_def]
  simp only [ho]
  simp [job_system.relaunch, hn, job_system.allocate_eq]

/-- A concrete instance: `reset(3)` on a disabled pool with two terminated
workers and two queued jobs. -/
theorem reset_relaunches_witness :
    run { firstJoinWorld with
          pool := { enabled := false, workers := [Thread.exited, Thread.exited], jobs := [⟨4, false⟩, ⟨5, true⟩] }
          owner := Owner.free }
        [Event.resetBegin 3, Event.joinThread, Event.joinThread, Event.resetRelaunch]
      = some { firstJoinWorld with
          pool := { enabled := true, workers := [Thread.idle, Thread.idle, Thread.idle],
                    jobs := [⟨4, false⟩, ⟨5, true⟩] }
          owner := Owner.free } :=
  (reset_relaunches 3 (by decide)).1
    { firstJoinWorld with
      pool := { enabled := false, workers := [Thread.exited, Thread.exited], jobs := [⟨4, false⟩, ⟨5, true⟩] }
      owner := Owner.free }
    rfl (by decide)

/-! ## One worker: execution order -/

theorem World.dispatched_step {w w1 : World} {e : Event} (h : World.Step w e w1) :
    w1.dispatched = w.dispatched ++ dispatchedBy [e] := by
  cases h <;> simp [dispatchedBy]

theorem dispatchedBy_cons (e : Event) (es : List Event) :
    dispatchedBy (e :: es) = dispatchedBy [e] ++ dispatchedBy es := by
  cases e with
  | dispatch job => cases job <;> rfl
  | _ => rfl

theorem World.dispatched_run (es : List Event) :
    ∀ w w1 : World, run w es = some w1 → w1.dispatched = w.dispatched ++ dispatchedBy es := by
  induction es with
  | nil =>
    intro w w1 h
    simp [run] at h
    subst h
    simp [dispatchedBy]
  | cons e es ih =>
    intro w w1 h
    simp only [run] at h
    cases hs : w.step e with
    | none => simp [hs] at h
    | some w2 =>
      simp [hs] at h
      rw [ih w2 w1 h, World.dispatched_step (World.Step.of_step hs), dispatchedBy_cons e es,
        List.append_assoc]

theorem World.soloInv_step (w : World) (e : Event) (w1 : World)
    (hA : e.isDispatchOrWork = true) (hI : w.SoloInv) (h : World.Step w e w1) : w1.SoloInv := by
  obtain ⟨he, hd, hw⟩ := hI
  cases h with
  | dispatchNull => exact ⟨he, hd, hw⟩
  | dispatchSync j hl h =>
    rcases h with h | h
    · rw [he] at h; cases h
    · rcases hw with ⟨hw, _⟩ | ⟨j1, c1, hw, _⟩ <;> rw [hw] at h <;> cases h
  | dispatchQueue j hl he1 hw1 => exact ⟨he, by simp [hd, claimedJobs], hw⟩
  | claim i j rest hl hi he1 hq =>
    rcases hw with ⟨hw, hc⟩ | ⟨j1, c1, hw, hc⟩
    · rw [hw] at hi
      rcases i with _ | i
      · refine ⟨he, ?_, Or.inr ⟨j, false, ?_, ?_⟩⟩
        · simp [hd, hq, claimedJobs]
        · simp [hw]
        · simp only [claimedJobs] at hc ⊢
          simp [hc]
      · simp at hi
    · rw [hw] at hi
      rcases i with _ | i <;> simp at hi
  | exit i hl hi he1 => rw [he] at he1; cases he1
  | finish i j hi =>
    rcases hw with ⟨hw, hc⟩ | ⟨j1, c1, hw, hc⟩
    · rw [hw] at hi
      rcases i with _ | i <;> simp at hi
    · rw [hw] at hi
      rcases i with _ | i
      · simp at hi
        obtain ⟨rfl, rfl⟩ := hi
        exact ⟨he, hd, Or.inl ⟨by simp [hw], hc⟩⟩
      · simp at hi
  | _ => simp [Event.isDispatchOrWork] at hA

theorem World.soloInv_create : (World.create 1).SoloInv := by
  refine ⟨rfl, rfl, Or.inl ⟨rfl, rfl⟩⟩

theorem World.dispatch_all_run (js : List Job) :
    ∀ w : World, w.pool.enabled = true → w.pool.workers ≠ [] → w.lockHeld = false →
      run w (js.map (fun j => Event.dispatch (some j)))
        = some { w with
            pool := { w.pool with jobs := w.pool.jobs ++ js }
            dispatched := w.dispatched ++ js
            enqueued := w.enqueued ++ js } := by
  induction js with
  | nil => intro w _ _ _; simp [run]
  | cons j js ih =>
    intro w he hw hl
    have hs : w.step (Event.dispatch (some j)) = some { w with
        pool := { w.pool with jobs := w.pool.jobs ++ [j] }
        dispatched := w.dispatched ++ [j]
        enqueued := w.enqueued ++ [j] } := by
      simp [step, hl, doDispatch, job_system.dispatch, he, hw]
    have h2 := ih { w with
        pool := { w.pool with jobs := w.pool.jobs ++ [j] }
        dispatched := w.dispatched ++ [j]
        enqueued := w.enqueued ++ [j] } he hw hl
    simp only [List.map_cons, run, hs, Option.some_bind, h2]
    simp

theorem World.work_all_run (js : List Job) (hjs : ∀ j ∈ js, j.cancels = false) :
    ∀ w : World, w.pool.enabled = true → w.pool.workers = [Thread.idle] → w.lockHeld = false →
      w.pool.jobs = js →
      run w (js.flatMap (fun _ => [Event.loop 0, Event.finish 0]))
        = some { w with
            pool := { w.pool with jobs := [] }
            claimed := w.claimed ++ js.map (fun j => (0, j))
            finished := w.finished ++ js } := by
  induction js with
  | nil =>
    intro w _ _ _ hq
    obtain ⟨⟨e, ws, q⟩, o, s, d, en, c, f, r, t⟩ := w
    simp only at hq
    subst hq
    simp [run]
  | cons j js ih =>
    intro w he hw hl hq
    have hc : j.cancels = false := hjs j (List.mem_cons_self _ _)
    have hs : run w [Event.loop 0, Event.finish 0] = some { w with
        pool := { w.pool with jobs := js }
        claimed := w.claimed ++ [(0, j)]
        finished := w.finished ++ [j] } := by
      simp [run, step, hl, doLoop, hw, job_system.worker_loop, he, hq, hc]
    have h2 := ih (fun x hx => hjs x (List.mem_cons_of_mem _ hx)) { w with
        pool := { w.pool with jobs := js }
        claimed := w.claimed ++ [(0, j)]
        finished := w.finished ++ [j] } he hw hl rfl
    have := World.run_append w [Event.loop 0, Event.finish 0]
      (js.flatMap (fun _ => [Event.loop 0, Event.finish 0]))
    simp only [List.flatMap_cons]
    rw [this, hs, Option.some_bind, h2]
    simp

/-- C6: on a fresh pool with one worker, in every run in which jobs are only
dispatched and executed by the worker, the jobs dispatched are those of the
schedule in order, the jobs started and the jobs finished by the worker are
initial segments of that sequence, and once the queue is empty and the worker
idle the jobs executed are exactly `J1..JN` in dispatch order; for jobs that do
not call back into the pool the schedule that dispatches all of them and then
lets the worker run does reach that state. -/
theorem single_worker_fifo (es : List Event) (w : World)
    (hes : ∀ e ∈ es, e.isDispatchOrWork = true) (hrun : run (World.create 1) es = some w) :
    w.dispatched = dispatchedBy es
      ∧ (∃ t, dispatchedBy es = w.claimedJobs ++ t)
      ∧ (∃ t, dispatchedBy es = w.finished ++ t)
      ∧ (w.pool.jobs = [] → w.pool.workers = [Thread.idle] → w.finished = dispatchedBy es)
      ∧ ∀ js : List Job, (∀ j ∈ js, j.cancels = false) →
          ∃ v, run (World.create 1) (dispatchThenWork js) = some v ∧ v.finished = js
            ∧ v.pool.jobs = [] ∧ v.pool.workers = [Thread.idle] := by
  have hd : w.dispatched = dispatchedBy es := by
    simpa [World.create] using World.dispatched_run es _ _ hrun
  obtain ⟨_, hq, hw⟩ := World.run_inv World.SoloInv (fun e => e.isDispatchOrWork = true)
    World.soloInv_step es _ _ hes World.soloInv_create hrun
  rw [hd] at hq
  refine ⟨hd, ⟨_, hq⟩, ?_, ?_, ?_⟩
  · rcases hw with ⟨_, hc⟩ | ⟨j, c, _, hc⟩
    · exact ⟨_, hc ▸ hq⟩
    · exact ⟨j :: w.pool.jobs, by rw [hq, hc]; simp⟩
  · intro hj hi
    rcases hw with ⟨_, hc⟩ | ⟨j, c, hw, _⟩
    · rw [hq, hj, hc]; simp
    · rw [hw] at hi; cases hi
  · intro js hjs
    have h1 := World.dispatch_all_run js (World.create 1) rfl (by decide) rfl
    have h2 := World.work_all_run js hjs
      { World.create 1 with
        pool := { (World.create 1).pool with jobs := (World.create 1).pool.jobs ++ js }
        dispatched := (World.create 1).dispatched ++ js
        enqueued := (World.create 1).enqueued ++ js } rfl rfl rfl (by simp [World.create, job_system.create_eq])
    have h3 := World.run_append (World.create 1) (js.map (fun j => Event.dispatch (some j)))
      (js.flatMap (fun _ => [Event.loop 0, Event.finish 0]))
    rw [h1, Option.some_bind, h2] at h3
    exact ⟨_, h3, by simp [World.create], rfl, rfl⟩

/-- A concrete instance: after nine events of the run of five jobs, jobs 1 and 2 have finished. -/
theorem single_worker_fifo_witness :
    ∃ t, dispatchedBy (cancelRun.take 9) = [⟨1, false⟩, ⟨2, false⟩] ++ t :=
  (single_worker_fifo (cancelRun.take 9)
    { cancelWorld with
      pool := { enabled := true, workers := [Thread.idle], jobs := [⟨3, true⟩, ⟨4, false⟩, ⟨5, false⟩] }
      claimed := [(0, ⟨1, false⟩), (0, ⟨2, false⟩)]
      finished := [⟨1, false⟩, ⟨2, false⟩]
      returned := [] }
    (by decide) (by decide)).2.2.1

/-! ## One worker: a job that calls `cancel()` -/

theorem one_thread_index {t u : Thread} {i : Nat} (h : [t][i]? = some u) : i = 0 ∧ t = u := by
  rcases i with _ | i
  · simpa using h
  · simp at h

theorem World.cancelInv_create : (World.create 1).CancelInv := by
  refine ⟨⟨Thread.idle, rfl, ?_⟩, ?_, ?_, Or.inl ⟨rfl, rfl⟩⟩
  · intro j c h; cases h
  · intro x hx; simp [World.create] at hx
  · intro j hj; simp [World.create] at hj

theorem World.cancelInv_step (w : World) (e : Event) (w1 : World)
    (hA : e.inCancelScenario = true) (hI : w.CancelInv) (h : World.Step w e w1) :
    w1.CancelInv := by
  obtain ⟨⟨t, hw, hb⟩, hsy, hfin, hq⟩ := hI
  cases h with
  | dispatchNull => exact ⟨⟨t, hw, hb⟩, hsy, hfin, hq⟩
  | dispatchSync j hl h =>
    refine ⟨⟨t, hw, hb⟩, ?_, hfin, hq⟩
    intro x hx
    rcases List.mem_append.mp hx with hx | hx
    · exact hsy x hx
    · simp at hx; subst hx; rfl
  | dispatchQueue j hl he hws =>
    refine ⟨⟨t, hw, hb⟩, hsy, hfin, ?_⟩
    rcases hq with ⟨hr, hen⟩ | ⟨r, j1, hr, hen, hdis, _⟩
    · exact Or.inl ⟨hr, by simp [hen, claimedJobs]⟩
    · rw [he] at hdis; cases hdis
  | claim i j rest hl hi he hjq =>
    rw [hw] at hi
    obtain ⟨rfl, rfl⟩ := one_thread_index hi
    rcases hq with ⟨hr, hen⟩ | ⟨r, j1, hr, hen, hdis, _⟩
    · refine ⟨⟨Thread.busy j false, by simp [hw], ?_⟩, hsy, hfin, Or.inl ⟨hr, ?_⟩⟩
      · intro j2 c2 h2
        cases h2
        simp [claimedJobs, hr]
      · simp [hen, hjq, claimedJobs]
    · rw [he] at hdis; cases hdis
  | exit i hl hi he =>
    rw [hw] at hi
    obtain ⟨rfl, rfl⟩ := one_thread_index hi
    refine ⟨⟨Thread.exited, by simp [hw], ?_⟩, hsy, hfin, hq⟩
    intro j c h; cases h
  | bodyCancel i j hl hi hc =>
    rw [hw] at hi
    obtain ⟨rfl, rfl⟩ := one_thread_index hi
    obtain ⟨hlast, hiff⟩ := hb j false rfl
    have hr : w.returned = [] := by
      by_contra hne
      have := hiff.mpr hne
      cases this
    rcases hq with ⟨_, hen⟩ | ⟨r, j1, hr1, _⟩
    · refine ⟨⟨Thread.busy j true, by simp [hw], ?_⟩, hsy, ?_, Or.inr ⟨w.pool.jobs, j, ?_, hen, rfl, rfl, hlast, hc⟩⟩
      · intro j2 c2 h2
        cases h2
        exact ⟨hlast, by simp⟩
      · intro j2 _ _
        simp
      · simp [hr]
    · rw [hr] at hr1; cases hr1
  | finish i j hi =>
    rw [hw] at hi
    obtain ⟨rfl, rfl⟩ := one_thread_index hi
    obtain ⟨_, hiff⟩ := hb j j.cancels rfl
    refine ⟨⟨Thread.idle, by simp [hw], ?_⟩, hsy, ?_, hq⟩
    · intro j2 c2 h2; cases h2
    · intro j2 hj2 hc2
      rcases List.mem_append.mp hj2 with h | h
      · exact hfin j2 h hc2
      · simp at h
        subst h
        exact hiff.mp hc2
  | syncFinish j hm =>
    have hc : j.cancels = false := hsy _ hm
    refine ⟨⟨t, hw, hb⟩, ?_, ?_, hq⟩
    · intro x hx
      exact hsy x (List.mem_of_mem_erase hx)
    · intro j2 hj2 hc2
      rcases List.mem_append.mp hj2 with h | h
      · exact hfin j2 h hc2
      · simp at h
        subst h
        rw [hc] at hc2; cases hc2
  | joinBegin ho hjq =>
    refine ⟨⟨t, hw, hb⟩, hsy, hfin, ?_⟩
    rcases hq with ⟨hr, hen⟩ | ⟨r, j1, hr, hen, hdis, hj, hl, hc⟩
    · exact Or.inl ⟨hr, hen⟩
    · exact Or.inr ⟨r, j1, hr, hen, rfl, hj, hl, hc⟩
  | joinOk k ho hk =>
    rw [hw] at hk
    obtain ⟨rfl, rfl⟩ := one_thread_index hk
    refine ⟨⟨Thread.joined, by simp [hw], ?_⟩, hsy, hfin, hq⟩
    intro j c h; cases h
  | joinThrow k ho hk => exact ⟨⟨t, hw, hb⟩, hsy, hfin, hq⟩
  | resetJoinOk n k ho hk =>
    rw [hw] at hk
    obtain ⟨rfl, rfl⟩ := one_thread_index hk
    refine ⟨⟨Thread.joined, by simp [hw], ?_⟩, hsy, hfin, hq⟩
    intro j c h; cases h
  | resetJoinThrow n k ho hk => exact ⟨⟨t, hw, hb⟩, hsy, hfin, hq⟩
  | joinEnd ho => exact ⟨⟨t, hw, hb⟩, hsy, hfin, hq⟩
  | _ => simp [Event.inCancelScenario] at hA

theorem five_jobs_split {J1 J2 J3 J4 J5 j : Job} {c r : List Job}
    (h : [J1, J2, J3, J4, J5] = c ++ r) (hl : c.getLast? = some j) (hj : j.cancels = true)
    (h1 : J1.cancels = false) (h2 : J2.cancels = false)
    (h4 : J4.cancels = false) (h5 : J5.cancels = false) :
    c = [J1, J2, J3] ∧ r = [J4, J5] := by
  rcases c with _ | ⟨x1, _ | ⟨x2, _ | ⟨x3, _ | ⟨x4, _ | ⟨x5, _ | ⟨x6, c⟩⟩⟩⟩⟩⟩
  · simp at hl
  · simp at h hl
    obtain ⟨rfl, -⟩ := h
    subst hl
    rw [h1] at hj; cases hj
  · simp at h hl
    obtain ⟨rfl, rfl, -⟩ := h
    subst hl
    rw [h2] at hj; cases hj
  · simp at h hl
    obtain ⟨rfl, rfl, rfl, rfl⟩ := h
    exact ⟨rfl, rfl⟩
  · simp at h hl
    obtain ⟨rfl, rfl, rfl, rfl, -⟩ := h
    subst hl
    rw [h4] at hj; cases hj
  · simp at h hl
    obtain ⟨rfl, rfl, rfl, rfl, rfl, -⟩ := h
    subst hl
    rw [h5] at hj; cases hj
  · simp at h

theorem World.claimed_not_returned {v : World} (hv : v.Reachable) (hnd : v.dispatched.Nodup) :
    ∀ a ∈ v.claimedJobs, ∀ r ∈ v.returned, a ∉ r := by
  intro a ha r hr har
  obtain ⟨_, hacc, _, hcl⟩ := World.reachable_inv hv
  have h1 := (World.accounted_iff v).mp hacc a
  have h2 := hcl a
  have h3 : 0 < v.claimedJobs.count a := List.count_pos_iff.mpr ha
  have h4 : 0 < v.returned.flatten.count a :=
    List.count_pos_iff.mpr (List.mem_flatten.mpr ⟨r, hr, har⟩)
  have h5 : v.dispatched.count a ≤ 1 := List.nodup_iff_count_le_one.mp hnd a
  omega

/-- C4: on a pool of one worker on which only jobs running on the worker call
`cancel()`, if five jobs `J1..J5` were enqueued in that order and only `J3`
calls `cancel()`, then every list a `cancel()` returned is exactly `[J4, J5]`,
and once `J3` has run there is exactly one such list and the claimed jobs are
`J1, J2, J3`; in general, in every reachable state with distinct dispatched
jobs, a job that a worker has claimed is in no list returned by `cancel()`. -/
theorem cancel_returns_backlog (es : List Event) (w : World) (J1 J2 J3 J4 J5 : Job)
    (hes : ∀ e ∈ es, e.inCancelScenario = true) (hrun : run (World.create 1) es = some w)
    (henq : w.enqueued = [J1, J2, J3, J4, J5])
    (h1 : J1.cancels = false) (h2 : J2.cancels = false) (h3 : J3.cancels = true)
    (h4 : J4.cancels = false) (h5 : J5.cancels = false) :
    (∀ r ∈ w.returned, r = [J4, J5])
      ∧ (J3 ∈ w.finished → w.returned = [[J4, J5]] ∧ w.claimedJobs = [J1, J2, J3])
      ∧ (∀ v : World, v.Reachable → v.dispatched.Nodup →
          ∀ a ∈ v.claimedJobs, ∀ r ∈ v.returned, a ∉ r) := by
  obtain ⟨_, _, hfin, hq⟩ := World.run_inv World.CancelInv
    (fun e => e.inCancelScenario = true) World.cancelInv_step es _ _ hes
    World.cancelInv_create hrun
  refine ⟨?_, ?_, fun v hv hnd => World.claimed_not_returned hv hnd⟩
  · rcases hq with ⟨hr, _⟩ | ⟨r, j, hr, hen, _, _, hl, hc⟩
    · intro r hr1
      rw [hr] at hr1
      cases hr1
    · rw [henq] at hen
      obtain ⟨_, hr2⟩ := five_jobs_split hen hl hc h1 h2 h4 h5
      intro r1 hr1
      rw [hr] at hr1
      simp at hr1
      rw [hr1, hr2]
  · intro hj3
    have hne := hfin J3 hj3 h3
    rcases hq with ⟨hr, _⟩ | ⟨r, j, hr, hen, _, _, hl, hc⟩
    · exact absurd hr hne
    · rw [henq] at hen
      obtain ⟨hc2, hr2⟩ := five_jobs_split hen hl hc h1 h2 h4 h5
      exact ⟨by rw [hr, hr2], hc2⟩

/-- A concrete instance: the run of five jobs in which job 3 calls `cancel()`. -/
theorem cancel_returns_backlog_witness :
    cancelWorld.returned = [[⟨4, false⟩, ⟨5, false⟩]]
      ∧ cancelWorld.claimedJobs = [⟨1, false⟩, ⟨2, false⟩, ⟨3, true⟩] :=
  (cancel_returns_backlog cancelRun cancelWorld ⟨1, false⟩ ⟨2, false⟩ ⟨3, true⟩ ⟨4, false⟩
    ⟨5, false⟩ (by decide) (by decide) rfl rfl rfl rfl rfl rfl).2.1 (by decide)

/-! ## The empty job, and the steps that change the enabled flag -/

/-- C13: `dispatch` of an empty job returns at line 80 before taking the lock: in
every pool state it invokes nothing and leaves the queue, the enabled flag and
the workers as they were, and the step is enabled in every state of the pool,
which it leaves unchanged. -/
theorem dispatch_null_noop (s : job_system) (w : World) :
    s.dispatch none = (s, []) ∧ w.step (Event.dispatch none) = some w := by
  simp [job_system.dispatch, step]

/-- C15: a step that turns a disabled pool into an enabled one is the relaunch
step of `reset`; the steps of `dispatch` and of the workers (a pass of the loop,
the return of a job) and the return of a synchronous job leave the flag as it
was; and a constructed pool is enabled. -/
theorem enabled_only_by_reset (w w1 : World) (e : Event) (h : w.step e = some w1) :
    (w.pool.enabled = false → w1.pool.enabled = true → e = Event.resetRelaunch)
      ∧ (e.isDispatchOrWork = true → w1.pool.enabled = w.pool.enabled)
      ∧ (∀ j, e = Event.syncFinish j → w1.pool.enabled = w.pool.enabled)
      ∧ (e = Event.cancel ∨ e = Event.joinBegin ∨ e = Event.joinThread ∨ e = Event.joinEnd →
          w1.pool.enabled = false ∨ w1.pool.enabled = w.pool.enabled)
      ∧ ∀ n, (World.create n).pool.enabled = true := by
  refine ⟨?_, ?_, ?_, ?_, fun n => by simp [World.create, job_system.create_eq]⟩
  · intro hd he
    cases World.Step.of_step h <;> simp_all
  · intro hA
    cases World.Step.of_step h <;> simp_all [Event.isDispatchOrWork]
  · intro j hj
    cases World.Step.of_step h <;> simp_all
  · intro hj
    cases World.Step.of_step h <;> simp_all

/-! ## Disabled pools and pools without workers -/

/-- A concrete instance: on a fresh pool of one worker a dispatch leaves the flag set. -/
theorem enabled_only_by_reset_witness :
    ({ World.create 1 with
        pool := { enabled := true, workers := [Thread.idle], jobs := [⟨1, false⟩] }
        dispatched := [⟨1, false⟩], enqueued := [⟨1, false⟩] } : World).pool.enabled
      = (World.create 1).pool.enabled :=
  (enabled_only_by_reset (World.create 1) _ (Event.dispatch (some ⟨1, false⟩)) (by decide)).2.1
    rfl

theorem World.disabled_empty_step (E : List Job) (w : World) (e : Event) (w1 : World)
    (hA : e.isReset = false)
    (hI : w.pool.enabled = false ∧ w.pool.jobs = [] ∧ w.enqueued = E)
    (h : World.Step w e w1) :
    w1.pool.enabled = false ∧ w1.pool.jobs = [] ∧ w1.enqueued = E := by
  obtain ⟨he, hq, hE⟩ := hI
  cases h <;> simp_all [Event.isReset]

/-- C14: from a state in which the pool is disabled and the queue is empty, as
`cancel()` leaves it in every state and `join()` leaves it when it returns, and
along every run without an event of `reset`, the pool stays disabled and the
queue empty, nothing is pushed on the queue, and a `dispatch` of a non-empty
job invokes it on the calling thread and leaves the pool as it was. -/
theorem disabled_pool_dispatches_synchronously (w w1 : World) (es : List Event)
    (he : w.pool.enabled = false) (hq : w.pool.jobs = [])
    (hes : ∀ e ∈ es, e.isReset = false) (hrun : run w es = some w1) :
    w1.pool.enabled = false ∧ w1.pool.jobs = [] ∧ w1.enqueued = w.enqueued
      ∧ (∀ j, w1.pool.dispatch (some j) = (w1.pool, [j]))
      ∧ (∀ j v, w1.step (Event.dispatch (some j)) = some v →
          v.pool = w1.pool ∧ v.sync = w1.sync ++ [(j, false)] ∧ v.enqueued = w1.enqueued)
      ∧ (∀ v : World, v.doCancel.pool.enabled = false ∧ v.doCancel.pool.jobs = [])
      ∧ (∀ v v1 : World, v.Reachable → v.step Event.joinEnd = some v1 →
          v1.pool.enabled = false ∧ v1.pool.jobs = []) := by
  obtain ⟨h1, h2, h3⟩ := World.run_inv
    (fun v => v.pool.enabled = false ∧ v.pool.jobs = [] ∧ v.enqueued = w.enqueued)
    (fun e => e.isReset = false) (World.disabled_empty_step w.enqueued) es w w1 hes
    ⟨he, hq, rfl⟩ hrun
  refine ⟨h1, h2, h3, fun j => by simp [job_system.dispatch, h1], ?_, ?_, ?_⟩
  · intro j v hv
    cases World.Step.of_step hv with
    | dispatchSync _ hl h => exact ⟨rfl, rfl, rfl⟩
    | dispatchQueue _ hl he1 hw => rw [h1] at he1; cases he1
  · intro v
    simp [doCancel, job_system.cancel_eq]
  · intro v v1 hv hs
    obtain ⟨_, hj, hen, _⟩ := World.after_join hv hs
    exact ⟨hen, hj⟩

/-- A concrete instance: after the run of five jobs in which job 3 called
`cancel()`, two more dispatches run synchronously and the queue stays empty. -/
theorem disabled_pool_dispatches_synchronously_witness :
    ({ enabled := false, workers := [Thread.idle], jobs := [] } : job_system).dispatch
        (some ⟨8, false⟩)
      = ({ enabled := false, workers := [Thread.idle], jobs := [] }, [⟨8, false⟩]) :=
  (disabled_pool_dispatches_synchronously cancelWorld
    { cancelWorld with
      sync := [(⟨7, false⟩, false)]
      dispatched := cancelWorld.dispatched ++ [⟨6, false⟩, ⟨7, false⟩]
      finished := cancelWorld.finished ++ [⟨6, false⟩] }
    [Event.dispatch (some ⟨6, false⟩), Event.syncFinish ⟨6, false⟩,
     Event.dispatch (some ⟨7, false⟩)]
    rfl rfl (by decide) (by decide)).2.2.2.1 ⟨8, false⟩

theorem World.no_workers_step (w : World) (e : Event) (w1 : World)
    (hA : e.isReset = false)
    (hI : w.pool.workers = [] ∧ w.pool.jobs = [] ∧ w.enqueued = [])
    (h : World.Step w e w1) :
    w1.pool.workers = [] ∧ w1.pool.jobs = [] ∧ w1.enqueued = [] := by
  obtain ⟨hw, hq, hE⟩ := hI
  cases h <;> simp_all [Event.isReset]

/-- C20: the constructor with worker count `n` yields an enabled pool with exactly
`n` workers, all in their loop, and an empty queue; for `n = 0` the pool has no
worker, and along every run without an event of `reset` it keeps none, nothing
is ever pushed on its queue, and every `dispatch` of a non-empty job invokes it
on the calling thread. -/
theorem create_state (n : Nat) :
    job_system.create n
        = { enabled := true, workers := List.replicate n Thread.idle, jobs := [] }
      ∧ (job_system.create n).workers.length = n
      ∧ (job_system.create 0).workers = []
      ∧ ∀ (es : List Event) (w : World), (∀ e ∈ es, e.isReset = false) →
          run (World.create 0) es = some w →
          w.pool.workers = [] ∧ w.pool.jobs = [] ∧ w.enqueued = []
            ∧ ∀ j, w.pool.dispatch (some j) = (w.pool, [j]) := by
  refine ⟨job_system.create_eq n, by simp [job_system.create_eq], rfl, ?_⟩
  intro es w hes hrun
  obtain ⟨h1, h2, h3⟩ := World.run_inv
    (fun v => v.pool.workers = [] ∧ v.pool.jobs = [] ∧ v.enqueued = [])
    (fun e => e.isReset = false) World.no_workers_step es _ w hes ⟨rfl, rfl, rfl⟩ hrun
  exact ⟨h1, h2, h3, fun j => by simp [job_system.dispatch, h1]⟩

/-! ## The queue of a disabled pool -/

theorem getElem?_set_joined {ws : List Thread} {i m : Nat} {t u : Thread}
    (hi : ws[i]? = some t) (hu : u ≠ Thread.joined)
    (h : (ws.set i u)[m]? = some Thread.joined) : ws[m]? = some Thread.joined := by
  by_cases him : i = m
  · subst him
    have hlt : i < ws.length := by
      by_contra hc
      rw [List.getElem?_eq_none (by omega)] at hi
      cases hi
    rw [List.getElem?_set_self hlt] at h
    exact absurd (Option.some.inj h) hu
  · rwa [List.getElem?_set_ne him] at h

theorem replicate_idle_not_joined (n i : Nat) :
    (List.replicate n Thread.idle)[i]? ≠ some Thread.joined := by
  rw [List.getElem?_replicate]
  split <;> simp

theorem World.backlog_step {w w1 : World} {e : Event} (hJ : w.JoinInv) (hI : w.BacklogInv)
    (h : World.Step w e w1) : w1.BacklogInv := by
  obtain ⟨hR, hK⟩ := hI
  cases h with
  | dispatchNull => exact ⟨hR, hK⟩
  | dispatchSync j hl h => exact ⟨hR, hK⟩
  | dispatchQueue j hl he hw =>
    refine ⟨fun h => by simp [he] at h, fun i hi => ?_⟩
    rcases hK i hi with ⟨_, h2⟩ | h2
    · rw [he] at h2; cases h2
    · exact Or.inr h2
  | cancel hl => exact ⟨fun _ => Or.inl rfl, fun i _ => Or.inl ⟨rfl, rfl⟩⟩
  | claim i j rest hl hi he hq =>
    refine ⟨fun h => by simp [he] at h, fun m hm => ?_⟩
    have hm1 := getElem?_set_joined hi (by simp) hm
    rcases hK m hm1 with ⟨_, h2⟩ | h2
    · rw [he] at h2; cases h2
    · exact Or.inr h2
  | exit i hl hi he =>
    refine ⟨hR, fun m hm => ?_⟩
    exact hK m (getElem?_set_joined hi (by simp) hm)
  | bodyCancel i j hl hi hc => exact ⟨fun _ => Or.inl rfl, fun i _ => Or.inl ⟨rfl, rfl⟩⟩
  | finish i j hi =>
    refine ⟨hR, fun m hm => ?_⟩
    exact hK m (getElem?_set_joined hi (by simp) hm)
  | syncCancel j hl hm hc => exact ⟨fun _ => Or.inl rfl, fun i _ => Or.inl ⟨rfl, rfl⟩⟩
  | syncFinish j hm => exact ⟨hR, hK⟩
  | joinBegin ho hq => exact ⟨fun _ => Or.inl hq, fun i _ => Or.inl ⟨hq, rfl⟩⟩
  | joinOk k ho hk =>
    simp only [JoinInv, ho] at hJ
    exact ⟨fun _ => Or.inl hJ.2.2, fun i _ => Or.inl ⟨hJ.2.2, hJ.2.1⟩⟩
  | joinThrow k ho hk =>
    simp only [JoinInv, ho] at hJ
    exact ⟨fun _ => Or.inl hJ.2.2, fun i _ => Or.inl ⟨hJ.2.2, hJ.2.1⟩⟩
  | resetJoinOk n k ho hk =>
    refine ⟨fun _ => Or.inr ⟨n, k + 1, rfl⟩, fun m hm => ?_⟩
    by_cases hkm : k = m
    · subst hkm
      exact Or.inr ⟨n, k + 1, rfl, Nat.lt_succ_self k⟩
    · simp only at hm
      rw [List.getElem?_set_ne hkm] at hm
      rcases hK m hm with h1 | ⟨n1, k1, ho1, hlt⟩
      · exact Or.inl h1
      · rw [ho] at ho1
        cases ho1
        exact Or.inr ⟨n, k + 1, rfl, by omega⟩
  | resetJoinThrow n k ho hk =>
    have hpool : w.pool.jobs = [] ∧ w.pool.enabled = false := by
      rcases hK k hk with h1 | ⟨n1, k1, ho1, hlt⟩
      · exact h1
      · rw [ho] at ho1
        cases ho1
        omega
    exact ⟨fun _ => Or.inl hpool.1, fun i _ => Or.inl hpool⟩
  | joinEnd ho =>
    simp only [JoinInv, ho] at hJ
    exact ⟨fun _ => Or.inl hJ.2.2, fun i _ => Or.inl ⟨hJ.2.2, hJ.2.1⟩⟩
  | resetBegin n ho =>
    refine ⟨fun _ => Or.inr ⟨n, 0, rfl⟩, fun i hi => ?_⟩
    rcases hK i hi with h1 | ⟨n1, k1, ho1, _⟩
    · exact Or.inl ⟨h1.1, rfl⟩
    · rw [ho] at ho1; cases ho1
  | relaunch n hn ho =>
    refine ⟨fun h => by simp at h, fun i hi => ?_⟩
    exact absurd hi (replicate_idle_not_joined n i)
  | relaunchZero ho =>
    refine ⟨fun h => by simp at h, fun i hi => ?_⟩
    simp at hi
  | drainInvoke j rest ho hq =>
    refine ⟨fun h => ?_, fun i hi => ?_⟩
    · rcases hR h with h1 | ⟨n1, k1, ho1⟩
      · exact Or.inl h1
      · rw [ho] at ho1; cases ho1
    · rcases hK i hi with h1 | ⟨n1, k1, ho1, _⟩
      · exact Or.inl h1
      · rw [ho] at ho1; cases ho1
  | drainFinish j ho hc =>
    refine ⟨fun h => ?_, fun i hi => ?_⟩
    · rcases hR h with h1 | ⟨n1, k1, ho1⟩
      · exact Or.inl (by simp [h1])
      · rw [ho] at ho1; cases ho1
    · rcases hK i hi with h1 | ⟨n1, k1, ho1, _⟩
      · exact Or.inl ⟨by simp [h1.1], h1.2⟩
      · rw [ho] at ho1; cases ho1
  | resetEnd ho hq =>
    refine ⟨fun _ => Or.inl hq, fun i hi => ?_⟩
    rcases hK i hi with h1 | ⟨n1, k1, ho1, _⟩
    · exact Or.inl h1
    · rw [ho] at ho1; cases ho1

theorem World.backlog_inv {w : World} (h : w.Reachable) : w.BacklogInv := by
  obtain ⟨n, es, hrun⟩ := h
  have := World.run_inv (fun w => w.JoinInv ∧ w.BacklogInv) (fun _ => True)
    (fun w e w1 _ hP hs => ⟨World.joinInv_step hP.1 hs, World.backlog_step hP.1 hP.2 hs⟩)
    es (World.create n) w (fun _ _ => trivial) ⟨World.joinInv_create n, ?_⟩ hrun
  · exact this.2
  · refine ⟨fun h => ?_, fun i hi => ?_⟩
    · simp [World.create, job_system.create_eq] at h
    · simp only [World.create, job_system.create_eq] at hi
      exact absurd hi (replicate_idle_not_joined n i)

/-! ## The state in which a worker leaves its loop -/

theorem resetPendingWorld_reachable : resetPendingWorld.Reachable :=
  ⟨1, [Event.dispatch (some ⟨1, false⟩), Event.resetBegin 1], by decide⟩

/-- C16 as stated fails: on a pool of one worker with one queued job, `reset(1)`
disables the pool without draining the queue, and the worker's next pass of its
loop leaves the loop while the job is still pending. -/
theorem worker_exit_counterexample :
    run (World.create 1) [Event.dispatch (some ⟨1, false⟩), Event.resetBegin 1]
        = some resetPendingWorld
      ∧ resetPendingWorld.step (Event.loop 0)
        = some { resetPendingWorld with
            pool := { enabled := false, workers := [Thread.exited], jobs := [⟨1, false⟩] } }
      ∧ resetPendingWorld.pool.jobs = [⟨1, false⟩] := by
  decide

/-- C16 amended: a worker leaves its loop only in a state in which the pool is
disabled, and its exit leaves the queue as it is; in every reachable state the
queue of a disabled pool is empty except while a `reset` that has disabled the
pool is joining the old workers, so a worker exits with a job still pending
only when it is stopped by such a `reset`. -/
theorem worker_exit_state (w w1 : World) (i : Nat) (hr : w.Reachable)
    (h : w.step (Event.loop i) = some w1) (hx : w1.pool.workers[i]? = some Thread.exited) :
    w.pool.enabled = false ∧ w1.pool.jobs = w.pool.jobs
      ∧ (w.pool.jobs = [] ∨ ∃ n k, w.owner = Owner.resetJoining n k) := by
  cases World.Step.of_step h with
  | claim _ j rest hl hi he hq =>
    have hlt : i < w.pool.workers.length := by
      by_contra hc
      rw [List.getElem?_eq_none (by omega)] at hi
      cases hi
    simp only at hx
    rw [List.getElem?_set_self hlt] at hx
    cases hx
  | exit _ hl hi he => exact ⟨he, rfl, (World.backlog_inv hr).1 he⟩

/-- A concrete instance: the exit of the worker that `reset(1)` stops. -/
theorem worker_exit_state_witness :
    resetPendingWorld.pool.enabled = false
      ∧ ([⟨1, false⟩] : List Job) = resetPendingWorld.pool.jobs
      ∧ (resetPendingWorld.pool.jobs = [] ∨ ∃ n k, resetPendingWorld.owner = Owner.resetJoining n k) :=
  worker_exit_state resetPendingWorld
    { resetPendingWorld with
      pool := { enabled := false, workers := [Thread.exited], jobs := [⟨1, false⟩] } }
    0 resetPendingWorld_reachable (by decide) (by decide)

/-! ## Stopping one thread -/

theorem set_exited_self {ws : List Thread} {k : Nat} (hk : ws[k]? = some Thread.exited) :
    ws.set k Thread.exited = ws := by
  apply List.ext_getElem?
  intro m
  by_cases hkm : k = m
  · subst hkm
    have hlt : k < ws.length := by
      by_contra hc
      rw [List.getElem?_eq_none (by omega)] at hk
      cases hk
    rw [List.getElem?_set_self hlt, hk]
  · rw [List.getElem?_set_ne hkm]

/-- On a disabled pool with an empty queue, the thread at index `k` runs to the
end of its thread function: a waiting thread leaves the loop, a thread running
a job lets the job make its `cancel()` call if it makes one, return, and then
leaves the loop. -/
theorem World.stop_one (w : World) (k : Nat) (t : Thread)
    (hk : w.pool.workers[k]? = some t) (ht : t.stoppable = true)
    (he : w.pool.enabled = false) (hq : w.pool.jobs = []) (hl : w.lockHeld = false) :
    ∃ es w1, run w es = some w1 ∧ (∀ e ∈ es, e.isWorker = true)
      ∧ w1.pool = { w.pool with workers := w.pool.workers.set k Thread.exited }
      ∧ w1.owner = w.owner ∧ w1.threw = w.threw ∧ w1.sync = w.sync
      ∧ w1.dispatched = w.dispatched ∧ w1.enqueued = w.enqueued := by
  simp only [lockHeld] at hl
  cases t with
  | joined => simp [Thread.stoppable] at ht
  | exited =>
    refine ⟨[], w, rfl, by simp, ?_, rfl, rfl, rfl, rfl, rfl⟩
    rw [set_exited_self hk]
  | idle =>
    refine ⟨[Event.loop k],
      { w with pool := { w.pool with workers := w.pool.workers.set k Thread.exited } },
      ?_, by simp [Event.isWorker], rfl, rfl, rfl, rfl, rfl, rfl⟩
    simp [run, step, lockHeld, hl, doLoop, hk, job_system.worker_loop, he]
  | busy j c =>
    have hlt : k < w.pool.workers.length := by
      by_contra hc
      rw [List.getElem?_eq_none (by omega)] at hk
      cases hk
    by_cases hc : c = j.cancels
    · subst hc
      refine ⟨[Event.finish k, Event.loop k],
        { w with
          pool := { w.pool with workers := w.pool.workers.set k Thread.exited }
          finished := w.finished ++ [j] },
        ?_, by simp [Event.isWorker], rfl, rfl, rfl, rfl, rfl, rfl⟩
      simp [run, step, lockHeld, hl, doLoop, hk, job_system.worker_loop, he,
        List.getElem?_set_self, hlt]
    · have hc1 : c = false ∧ j.cancels = true := by
        cases c <;> cases hj : j.cancels <;> simp_all [Thread.stoppable]
      obtain ⟨rfl, hj⟩ := hc1
      refine ⟨[Event.bodyCancel k, Event.finish k, Event.loop k],
        { w with
          pool := { enabled := false, workers := w.pool.workers.set k Thread.exited, jobs := [] }
          finished := w.finished ++ [j]
          returned := w.returned ++ [[]] },
        ?_, by simp [Event.isWorker], ?_, rfl, rfl, rfl, rfl, rfl⟩
      · simp [run, step, lockHeld, hl, doLoop, hk, job_system.worker_loop, hj, doCancel,
          job_system.cancel_eq, List.getElem?_set_self, hlt, hq]
      · simp [← he, ← hq]

/-! ## Stopping all threads -/

theorem World.lockHeld_of_owner {w w1 : World} (h : w1.owner = w.owner) :
    w1.lockHeld = w.lockHeld := by
  simp [lockHeld, h]

/-- On a disabled pool with an empty queue every thread that is not yet joined
runs to the end of its thread function. -/
theorem World.stop_from :
    ∀ (m k : Nat) (w : World), w.pool.enabled = false → w.pool.jobs = [] → w.lockHeld = false →
      k + m = w.pool.workers.length →
      (∀ i, i < k → w.pool.workers[i]? = some Thread.exited) →
      (∀ i t, k ≤ i → w.pool.workers[i]? = some t → t.stoppable = true) →
      ∃ es w1, run w es = some w1 ∧ (∀ e ∈ es, e.isWorker = true)
        ∧ w1.pool.enabled = false ∧ w1.pool.jobs = []
        ∧ w1.pool.workers.length = w.pool.workers.length
        ∧ (∀ i, i < w.pool.workers.length → w1.pool.workers[i]? = some Thread.exited)
        ∧ w1.owner = w.owner ∧ w1.threw = w.threw ∧ w1.sync = w.sync
        ∧ w1.dispatched = w.dispatched ∧ w1.enqueued = w.enqueued := by
  intro m
  induction m with
  | zero =>
    intro k w he hq _ hk hlow _
    exact ⟨[], w, rfl, by simp, he, hq, rfl, fun i hi => hlow i (by omega),
      rfl, rfl, rfl, rfl, rfl⟩
  | succ m ih =>
    intro k w he hq hl hk hlow hup
    have hkl : k < w.pool.workers.length := by omega
    obtain ⟨es1, w1, hrun1, hes1, hp1, ho1, ht1, hs1, hd1, hen1⟩ :=
      World.stop_one w k (w.pool.workers[k]) (List.getElem?_eq_getElem hkl)
        (hup k _ (Nat.le_refl k) (List.getElem?_eq_getElem hkl)) he hq hl
    have hws1 : w1.pool.workers = w.pool.workers.set k Thread.exited := by rw [hp1]
    obtain ⟨es2, w2, hrun2, hes2, he2, hq2, hlen2, hall2, ho2, ht2, hs2, hd2, hen2⟩ :=
      ih (k + 1) w1 (by rw [hp1]; exact he) (by rw [hp1]; exact hq)
        (by rw [World.lockHeld_of_owner ho1]; exact hl)
        (by rw [hws1, List.length_set]; omega)
        (by
          intro i hi
          rw [hws1]
          by_cases hik : i = k
          · subst hik
            rw [List.getElem?_set_self hkl]
          · rw [List.getElem?_set_ne (fun h => hik h.symm)]
            exact hlow i (by omega))
        (by
          intro i t hi hit
          rw [hws1, List.getElem?_set_ne (by omega)] at hit
          exact hup i t (by omega) hit)
    have hlen1 : w1.pool.workers.length = w.pool.workers.length := by
      rw [hws1, List.length_set]
    refine ⟨es1 ++ es2, w2, ?_, ?_, he2, hq2, by rw [hlen2, hlen1], ?_, by rw [ho2, ho1],
      by rw [ht2, ht1], by rw [hs2, hs1], by rw [hd2, hd1], by rw [hen2, hen1]⟩
    · rw [World.run_append, hrun1, Option.some_bind, hrun2]
    · intro e he
      rcases List.mem_append.mp he with h | h
      · exact hes1 e h
      · exact hes2 e h
    · intro i hi
      exact hall2 i (by rw [hlen1]; exact hi)

/-! ## A whole `join()` from any state whose threads can be joined -/

/-- A whole `join()` on a pool whose queue is empty and whose threads can all
still be joined: it returns, without an exception, and leaves the pool disabled
with an empty queue and a vector of the same length. -/
theorem World.join_run (w : World) (ho : w.owner = Owner.free) (hq : w.pool.jobs = [])
    (hts : ∀ t ∈ w.pool.workers, t.stoppable = true) :
    ∃ es w1, (∀ e ∈ es, e.isWorker = true)
      ∧ run w (Event.joinBegin ::
          (es ++ (List.replicate w.pool.workers.length Event.joinThread ++ [Event.joinEnd])))
        = some w1
      ∧ w1.pool.enabled = false ∧ w1.pool.jobs = []
      ∧ w1.pool.workers.length = w.pool.workers.length
      ∧ w1.owner = Owner.free ∧ w1.threw = w.threw := by
  have hb : w.step Event.joinBegin
      = some { w with pool := w.pool.disable_and_stop_all_threads, owner := Owner.joining 0 } := by
    simp [step, ho, hq]
  obtain ⟨es, w2, hrun2, hes, he2, hq2, hlen2, hall2, ho2, ht2, _, _, _⟩ :=
    World.stop_from w.pool.workers.length 0
      { w with pool := w.pool.disable_and_stop_all_threads, owner := Owner.joining 0 }
      rfl hq rfl (by simp [job_system.disable_and_stop_all_threads])
      (by intro i hi; omega)
      (by
        intro i t _ hit
        exact hts t (List.getElem?_mem hit))
  simp only [job_system.disable_and_stop_all_threads] at hlen2 hall2 ho2 ht2
  obtain ⟨ws, hlen3, hrun3⟩ := World.joins_run Owner.joining (Or.inl rfl)
    w.pool.workers.length 0 w2 ho2 (by omega)
    (by
      intro i _ hi
      exact hall2 i (by omega))
  refine ⟨es, { w2 with pool := { w2.pool with workers := ws }, owner := Owner.free }, hes, ?_,
    he2, hq2, by simp only; omega, rfl, ht2⟩
  simp only [run, hb, Option.some_bind, World.run_append, hrun2, hrun3]
  simp [step, hlen3, hlen2]

/-! ## The move constructor -/

/-- C19: move construction from a source pool with flag `e`, queue `q` and `w`
threads that can all still be joined: the part under the source's lock takes
`e` and `q`, the call `sys.join()` returns without an exception after a run of
the source's threads, and the rest of the constructor yields a destination with
flag `e`, queue `q` in the same order and `w` fresh workers, and leaves the
source disabled with an empty queue and no worker. -/
theorem move_construction (w : World) (ho : w.owner = Owner.free)
    (hts : ∀ t ∈ w.pool.workers, t.stoppable = true) :
    w.pool.move_take
        = ({ enabled := w.pool.enabled, workers := [], jobs := w.pool.jobs },
           { w.pool with jobs := [] })
      ∧ ∃ es w1, (∀ e ∈ es, e.isWorker = true)
          ∧ run { w with pool := w.pool.move_take.2 }
              (Event.joinBegin ::
                (es ++ (List.replicate w.pool.workers.length Event.joinThread ++ [Event.joinEnd])))
            = some w1
          ∧ w1.threw = w.threw
          ∧ job_system.move_finish w.pool.move_take.1 w1.pool
            = ({ enabled := w.pool.enabled,
                 workers := List.replicate w.pool.workers.length Thread.idle,
                 jobs := w.pool.jobs },
               { enabled := false, workers := [], jobs := [] }) := by
  refine ⟨by simp [job_system.move_take, job_system.default], ?_⟩
  obtain ⟨es, w1, hes, hrun, he1, hq1, hlen1, _, ht1⟩ :=
    World.join_run { w with pool := w.pool.move_take.2 } ho
      (by simp [job_system.move_take]) (by simpa [job_system.move_take] using hts)
  simp only [job_system.move_take] at hlen1 hrun ht1
  refine ⟨es, w1, hes, by simpa [job_system.move_take] using hrun, ht1, ?_⟩
  simp [job_system.move_finish, job_system.move_take, job_system.default,
    job_system.allocate_eq, hlen1, he1, hq1]

/-- A concrete instance: the move of a pool with a waiting thread, a thread that
runs a job, and two pending jobs. -/
theorem move_construction_witness :
    moveSourceWorld.pool.move_take
        = ({ enabled := true, workers := [], jobs := [⟨2, false⟩, ⟨3, true⟩] },
           { enabled := true, workers := [Thread.idle, Thread.busy ⟨1, false⟩ false], jobs := [] })
      ∧ ∃ es w1, (∀ e ∈ es, e.isWorker = true)
          ∧ run { moveSourceWorld with pool := moveSourceWorld.pool.move_take.2 }
              (Event.joinBegin ::
                (es ++ (List.replicate 2 Event.joinThread ++ [Event.joinEnd])))
            = some w1
          ∧ w1.threw = false
          ∧ job_system.move_finish moveSourceWorld.pool.move_take.1 w1.pool
            = ({ enabled := true, workers := [Thread.idle, Thread.idle],
                 jobs := [⟨2, false⟩, ⟨3, true⟩] },
               { enabled := false, workers := [], jobs := [] }) :=
  move_construction moveSourceWorld rfl (by decide)

/-! ## `reset(n)` from a disabled pool -/

theorem World.drain_no_workers_step {w w1 : World} {e : Event}
    (hI : w.lockHeld = true → w.pool.workers = []) (h : World.Step w e w1) :
    w1.lockHeld = true → w1.pool.workers = [] := by
  cases h with
  | dispatchNull => exact hI
  | finish i j hi =>
    intro hl
    have hw := hI (by simpa [lockHeld] using hl)
    rw [hw] at hi
    simp at hi
  | syncFinish j hm => exact hI
  | relaunchZero ho => intro _; rfl
  | drainInvoke j rest ho hq =>
    intro _
    exact hI (by simp [lockHeld, ho])
  | drainFinish j ho hc =>
    intro _
    exact hI (by simp [lockHeld, ho])
  | dispatchSync j hl h => intro h1; simp [lockHeld] at h1 hl; simp [hl] at h1
  | dispatchQueue j hl he hw => intro h1; simp [lockHeld] at h1 hl; simp [hl] at h1
  | cancel hl => intro h1; simp [lockHeld] at h1 hl; simp [hl] at h1
  | claim i j rest hl hi he hq => intro h1; simp [lockHeld] at h1 hl; simp [hl] at h1
  | exit i hl hi he => intro h1; simp [lockHeld] at h1 hl; simp [hl] at h1
  | bodyCancel i j hl hi hc => intro h1; simp [lockHeld] at h1 hl; simp [hl] at h1
  | syncCancel j hl hm hc => intro h1; simp [lockHeld] at h1 hl; simp [hl] at h1
  | _ => intro h1; simp [lockHeld] at h1

/-- While `reset(0)` holds the lock the pool has no worker. -/
theorem World.drain_no_workers {w : World} (h : w.Reachable) :
    w.lockHeld = true → w.pool.workers = [] := by
  obtain ⟨n, es, hrun⟩ := h
  exact World.run_inv (fun w => w.lockHeld = true → w.pool.workers = []) (fun _ => True)
    (fun w e w1 _ hP hs => World.drain_no_workers_step hP hs)
    es (World.create n) w (fun _ _ => trivial) (by simp [World.create, lockHeld]) hrun

/-- C17, the code at the failing input: a job that calls `cancel()` is pending
when `reset(0)` is called on a pool of one worker.  The drain calls the job
while `reset` holds the lock, so the job's `cancel()` cannot take the lock, a
`dispatch` cannot either, the call cannot return, and no step at all is left.
The two other places that invoke a job release the lock first: a job running
on a worker or in the synchronous fallback of `dispatch` can make its
`cancel()` call whenever the serial drain does not hold the lock, and while
the drain holds it there is no worker. -/
theorem drain_holds_lock :
    run (World.create 1) reentrantDrainEvents = some reentrantDrainWorld
      ∧ reentrantDrainWorld.lockHeld = true
      ∧ reentrantDrainWorld.step Event.cancel = none
      ∧ (∀ j, reentrantDrainWorld.step (Event.dispatch (some j)) = none)
      ∧ reentrantDrainWorld.step Event.drainFinish = none
      ∧ (∀ e w1, reentrantDrainWorld.step e = some w1 → e = Event.dispatch none)
      ∧ (∀ (w : World) (i : Nat) (j : Job), w.pool.workers[i]? = some (Thread.busy j false) →
          j.cancels = true → w.lockHeld = false → ∃ w1, w.step (Event.bodyCancel i) = some w1)
      ∧ (∀ (w : World) (j : Job), (j, false) ∈ w.sync → j.cancels = true → w.lockHeld = false →
          ∃ w1, w.step (Event.syncCancel j) = some w1)
      ∧ (∀ w : World, w.Reachable → w.lockHeld = true → w.pool.workers = []) := by
  refine ⟨by decide, by decide, by decide, fun j => rfl, by decide, ?_, ?_, ?_,
    fun w hr => World.drain_no_workers hr⟩
  · intro e w1 h
    cases World.Step.of_step h with
    | dispatchNull => rfl
    | drainFinish j ho hc =>
      simp only [reentrantDrainWorld, Owner.drainRun.injEq] at ho
      subst ho
      cases hc
    | _ => simp_all [reentrantDrainWorld, lockHeld]
  · intro w i j hi hc hl
    simp [step, hi, hc, hl]
  · intro w j hm hc hl
    simp [step, hm, hc, hl]

/-! ## The queue invariant -/

/-- C18 as stated fails: after `twoJobDrainEvents` the first of two distinct
queued jobs is being executed by the thread that called `reset(0)` and is still
an element of the pending queue. -/
theorem queue_invariant_counterexample :
    run (World.create 1) twoJobDrainEvents = some twoJobDrainWorld
      ∧ twoJobDrainWorld.dispatched.Nodup
      ∧ (⟨1, false⟩ : Job) ∈ twoJobDrainWorld.callerRunning
      ∧ (⟨1, false⟩ : Job) ∈ twoJobDrainWorld.pool.jobs := by
  decide

/-- C18 amended: in every reachable state in which the dispatched jobs are
distinct, no job occurs twice in the pending queue, and no job that a worker is
executing, that a synchronous `dispatch` is executing, or that has finished is
an element of the pending queue; the job that the drain loop of `reset(0)` is
executing is the front element of the pending queue until its call returns,
and the pool has no worker then. -/
theorem queue_invariant (w : World) (hr : w.Reachable) (hnd : w.dispatched.Nodup) :
    w.pool.jobs.Nodup
      ∧ (∀ a ∈ busyJobs w.pool.workers, a ∉ w.pool.jobs)
      ∧ (∀ a ∈ w.sync.map Prod.fst, a ∉ w.pool.jobs)
      ∧ (∀ a ∈ w.finished, a ∉ w.pool.jobs)
      ∧ (∀ j, w.owner = Owner.drainRun j →
          w.pool.jobs.head? = some j ∧ w.pool.workers = []) := by
  obtain ⟨hJ, hacc, _, _⟩ := World.reachable_inv hr
  have hcount : ∀ a, w.pool.jobs.count a + (busyJobs w.pool.workers).count a
      + (w.sync.map Prod.fst).count a + w.finished.count a + w.returned.flatten.count a ≤ 1 := by
    intro a
    rw [← (World.accounted_iff w).mp hacc a]
    exact List.nodup_iff_count_le_one.mp hnd a
  refine ⟨?_, ?_, ?_, ?_, ?_⟩
  · rw [List.nodup_iff_count_le_one]
    intro a
    have := hcount a
    omega
  · intro a ha hq
    have h1 := hcount a
    have h2 : 0 < (busyJobs w.pool.workers).count a := List.count_pos_iff.mpr ha
    have h3 : 0 < w.pool.jobs.count a := List.count_pos_iff.mpr hq
    omega
  · intro a ha hq
    have h1 := hcount a
    have h2 : 0 < (w.sync.map Prod.fst).count a := List.count_pos_iff.mpr ha
    have h3 : 0 < w.pool.jobs.count a := List.count_pos_iff.mpr hq
    omega
  · intro a ha hq
    have h1 := hcount a
    have h2 : 0 < w.finished.count a := List.count_pos_iff.mpr ha
    have h3 : 0 < w.pool.jobs.count a := List.count_pos_iff.mpr hq
    omega
  · intro j hj
    have hl : w.lockHeld = true := by simp [lockHeld, hj]
    exact ⟨by simpa [JoinInv, hj] using hJ, World.drain_no_workers hr hl⟩

/-- A concrete instance: in the run of two workers, the claimed job 1 is not in the queue. -/
theorem queue_invariant_witness :
    (⟨1, false⟩ : Job) ∉ twoWorkerWorld.pool.jobs :=
  (queue_invariant twoWorkerWorld twoWorkerWorld_reachable (by decide)).2.1 ⟨1, false⟩
    (by decide)

/-! ## `cancel()` and the workers; `join()` after a job has called `cancel()` -/

/-- C21: `cancel()` changes only the enabled flag and the pending queue.  As a
function of the pool it leaves the vector of threads as it was.  As an event it
is enabled in every state in which the mutex is free, whatever the workers and
the dispatching threads are running, and its step changes the flag, the queue
and the log of returned backlogs and nothing else: no thread changes state, so
none is joined, the owner is where it was, and nothing is claimed, invoked or
finished.  In a reachable state in which a worker runs a job the mutex is free,
so `cancel()` does not wait for a job in flight. -/
theorem cancel_frame (w : World) :
    (w.pool.cancel).1.workers = w.pool.workers
      ∧ (w.lockHeld = false → w.step Event.cancel = some w.doCancel)
      ∧ w.doCancel = { w with
          pool := { w.pool with enabled := false, jobs := [] }
          returned := w.returned ++ [w.pool.jobs] }
      ∧ (w.Reachable → busyJobs w.pool.workers ≠ [] → w.step Event.cancel = some w.doCancel) := by
  refine ⟨by simp [job_system.cancel_eq], fun hl => by simp [step, hl],
    by simp [doCancel, job_system.cancel_eq], fun hr hb => ?_⟩
  have hl : w.lockHeld = false := by
    cases h : w.lockHeld with
    | false => rfl
    | true =>
      have := World.drain_no_workers hr h
      rw [this] at hb
      simp [busyJobs] at hb
  simp [step, hl]

/-- A concrete instance: while both workers of a pool run a job, `cancel()` is
enabled and leaves the two threads running their jobs. -/
theorem cancel_frame_witness :
    twoWorkerWorld.step Event.cancel = some twoWorkerWorld.doCancel
      ∧ twoWorkerWorld.doCancel.pool.workers
          = [Thread.busy ⟨2, false⟩ false, Thread.busy ⟨1, false⟩ false] :=
  ⟨(cancel_frame twoWorkerWorld).2.2.2 twoWorkerWorld_reachable (by decide), by decide⟩

theorem World.before_join_step (n : Nat) (w : World) (e : Event) (w1 : World)
    (hA : e.beforeJoin = true)
    (hI : w.owner = Owner.free ∧ w.threw = false ∧ w.pool.workers.length = n
      ∧ ∀ t ∈ w.pool.workers, t.stoppable = true)
    (h : World.Step w e w1) :
    w1.owner = Owner.free ∧ w1.threw = false ∧ w1.pool.workers.length = n
      ∧ ∀ t ∈ w1.pool.workers, t.stoppable = true := by
  obtain ⟨ho, ht, hn, hs⟩ := hI
  have hset : ∀ (i : Nat) (u : Thread), u.stoppable = true →
      ∀ t ∈ w.pool.workers.set i u, t.stoppable = true := by
    intro i u hu t htm
    rcases List.mem_or_eq_of_mem_set htm with h1 | h1
    · exact hs t h1
    · rw [h1]; exact hu
  cases h with
  | dispatchNull => exact ⟨ho, ht, hn, hs⟩
  | dispatchSync j hl h => exact ⟨ho, ht, hn, hs⟩
  | dispatchQueue j hl he hw => exact ⟨ho, ht, hn, hs⟩
  | cancel hl => exact ⟨ho, ht, hn, hs⟩
  | claim i j rest hl hi he hq =>
    exact ⟨ho, ht, by simpa using hn, hset i _ (by simp [Thread.stoppable])⟩
  | exit i hl hi he =>
    exact ⟨ho, ht, by simpa using hn, hset i _ (by simp [Thread.stoppable])⟩
  | bodyCancel i j hl hi hc =>
    exact ⟨ho, ht, by simpa using hn, hset i _ (by simp [Thread.stoppable, hc])⟩
  | finish i j hi =>
    exact ⟨ho, ht, by simpa using hn, hset i _ (by simp [Thread.stoppable])⟩
  | syncCancel j hl hm hc => exact ⟨ho, ht, hn, hs⟩
  | syncFinish j hm => exact ⟨ho, ht, hn, hs⟩
  | _ => simp [Event.beforeJoin] at hA

theorem World.before_join_disabled_step (w : World) (e : Event) (w1 : World)
    (hA : e.beforeJoin = true)
    (hI : w.pool.enabled = false ∧ w.pool.jobs = [])
    (h : World.Step w e w1) :
    w1.pool.enabled = false ∧ w1.pool.jobs = [] := by
  obtain ⟨he, hq⟩ := hI
  cases h <;> simp_all [Event.beforeJoin]

theorem World.create_before_join (n : Nat) :
    (World.create n).owner = Owner.free ∧ (World.create n).threw = false
      ∧ (World.create n).pool.workers.length = n
      ∧ ∀ t ∈ (World.create n).pool.workers, t.stoppable = true := by
  refine ⟨rfl, rfl, by simp [World.create, job_system.create_eq], ?_⟩
  intro t ht
  simp only [World.create, job_system.create_eq] at ht
  rw [List.eq_of_mem_replicate ht]
  rfl

/-- C22: a pool is constructed with `n` workers; any threads dispatch any jobs and
the workers run them, in any interleaving, and the body of a job running on a
worker calls `cancel()`; nobody has called `join()` or `reset` yet.  In the
state `w` reached, the pool is disabled and the queue is empty, so the wait of
`join()` on the queue is satisfied at once: its first step is enabled.  From
`w` a whole `join()` by the owner runs to its return: the jobs still running
return, each thread leaves its loop, and each of the `n` threads is joined, in
`n` calls of `thread::join` of which none throws.  When `join()` returns, the
queue is empty, the pool is disabled and every thread of the vector is joined. -/
theorem join_after_worker_cancel (n : Nat) (es : List Event) (i : Nat) (w : World)
    (hes : ∀ e ∈ es, e.beforeJoin = true) (hc : Event.bodyCancel i ∈ es)
    (hrun : run (World.create n) es = some w) :
    w.pool.enabled = false ∧ w.pool.jobs = [] ∧ w.threw = false
      ∧ w.step Event.joinBegin
          = some { w with pool := w.pool.disable_and_stop_all_threads, owner := Owner.joining 0 }
      ∧ ∃ ws w0 w1, (∀ e ∈ ws, e.isWorker = true)
          ∧ run w (Event.joinBegin :: (ws ++ List.replicate n Event.joinThread)) = some w0
          ∧ w0.step Event.joinEnd = some w1
          ∧ w1.threw = false ∧ w1.owner = Owner.free
          ∧ w1.pool.jobs = [] ∧ w1.pool.enabled = false
          ∧ w1.pool.workers = List.replicate n Thread.joined := by
  obtain ⟨es1, es2, rfl⟩ := List.append_of_mem hc
  rw [World.run_append] at hrun
  cases h1 : run (World.create n) es1 with
  | none => simp [h1] at hrun
  | some v1 =>
    simp only [h1, Option.some_bind, run] at hrun
    cases h2 : v1.step (Event.bodyCancel i) with
    | none => simp [h2] at hrun
    | some v2 =>
      simp only [h2, Option.some_bind] at hrun
      have hes1 : ∀ e ∈ es1, e.beforeJoin = true := fun e he => hes e (by simp [he])
      have hes2 : ∀ e ∈ es2, e.beforeJoin = true := fun e he => hes e (by simp [he])
      have hP1 := World.run_inv _ (fun e => e.beforeJoin = true) (World.before_join_step n)
        es1 _ _ hes1 (World.create_before_join n) h1
      have hP2 := World.before_join_step n v1 (Event.bodyCancel i) v2 rfl hP1 (World.Step.of_step h2)
      have hQ2 : v2.pool.enabled = false ∧ v2.pool.jobs = [] := by
        cases World.Step.of_step h2 with
        | bodyCancel j hl hi hc => exact ⟨rfl, rfl⟩
      obtain ⟨ho, ht, hn, hs⟩ := World.run_inv _ (fun e => e.beforeJoin = true)
        (World.before_join_step n) es2 _ _ hes2 hP2 hrun
      obtain ⟨he, hq⟩ := World.run_inv _ (fun e => e.beforeJoin = true)
        World.before_join_disabled_step es2 _ _ hes2 hQ2 hrun
      have hreach : w.Reachable :=
        ⟨n, es1 ++ Event.bodyCancel i :: es2, by
          rw [World.run_append, h1]
          simp only [Option.some_bind, run, h2]
          exact hrun⟩
      obtain ⟨ws, w1, hws, hj, he1, hq1, hl1, ho1, ht1⟩ := World.join_run w ho hq hs
      rw [hn, ← List.append_assoc, ← List.cons_append, World.run_append] at hj
      cases h3 : run w (Event.joinBegin :: (ws ++ List.replicate n Event.joinThread)) with
      | none => rw [h3] at hj; simp at hj
      | some w0 =>
        rw [h3] at hj
        simp only [Option.some_bind, run] at hj
        cases h4 : w0.step Event.joinEnd with
        | none => simp [h4] at hj
        | some w1' =>
          simp only [h4, Option.some_bind, Option.bind_some, Option.some.injEq] at hj
          subst hj
          have hr0 : w0.Reachable := by
            obtain ⟨m, fs, hfs⟩ := hreach
            exact ⟨m, fs ++ (Event.joinBegin :: (ws ++ List.replicate n Event.joinThread)), by
              rw [World.run_append, hfs]; exact h3⟩
          obtain ⟨_, _, _, hall⟩ := World.after_join hr0 h4
          refine ⟨he, hq, ht, by simp [step, ho, hq], ws, w0, w1', hws, h3, h4, ?_, ho1, hq1,
            he1, ?_⟩
          · rw [ht1, ht]
          · rw [← hn, ← hl1]
            exact List.eq_replicate_iff.mpr ⟨rfl, hall⟩

/-- A concrete instance, the run of `test_job`: two workers, six jobs of which the
third calls `cancel()` from worker 0; `join()` returns without an exception, with
both threads joined. -/
theorem join_after_worker_cancel_witness :
    testJobWorld.pool.enabled = false ∧ testJobWorld.pool.jobs = []
      ∧ ∃ ws w0 w1, (∀ e ∈ ws, e.isWorker = true)
          ∧ run testJobWorld (Event.joinBegin :: (ws ++ List.replicate 2 Event.joinThread))
              = some w0
          ∧ w0.step Event.joinEnd = some w1
          ∧ w1.threw = false ∧ w1.owner = Owner.free
          ∧ w1.pool.jobs = [] ∧ w1.pool.enabled = false
          ∧ w1.pool.workers = List.replicate 2 Thread.joined :=
  have h := join_after_worker_cancel 2 testJobRun 0 testJobWorld (by decide) (by decide)
    (by decide)
  ⟨h.1, h.2.1, h.2.2.2.2⟩

end JobSystem

/-! ## The order-2 Hilbert curve -/

namespace Hilbert

/-- C23: in the order-2 curve `hilbert_curve<2>()`, whose 64 points lie in memory
sub-curve after sub-curve, every two consecutive points `hc[i-1]` and `hc[i]`,
`1 <= i < 64`, are at Manhattan distance exactly 1; the loop of `test_hilbert`,
which runs over these `i`, prints `ERROR` at none of them. -/
theorem order2_consecutive_adjacent :
    size 2 = 64 ∧ (hilbert_curve 2 2).length = 64 ∧ test_hilbert 2 = []
      ∧ ∀ i : Nat, 1 ≤ i → i < 64 →
          magnitude ((index (hilbert_curve 2 2) i).toIvec3.sub
            (index (hilbert_curve 2 2) (i - 1)).toIvec3) = 1 := by
  refine ⟨by decide, by decide, by decide, fun i h1 h2 => ?_⟩
  have h : ∀ k : Fin 64, 1 ≤ k.val →
      magnitude ((index (hilbert_curve 2 2) k.val).toIvec3.sub
        (index (hilbert_curve 2 2) (k.val - 1)).toIvec3) = 1 := by
    decide
  exact h ⟨i, h2⟩ h1

/-- A concrete instance: the last point of sub-curve 0 and the first point of
sub-curve 1 are neighbours. -/
theorem order2_consecutive_adjacent_witness :
    index (hilbert_curve 2 2) 7 = ⟨0, 1, 0⟩ ∧ index (hilbert_curve 2 2) 8 = ⟨0, 2, 0⟩
      ∧ magnitude ((index (hilbert_curve 2 2) 8).toIvec3.sub
          (index (hilbert_curve 2 2) (8 - 1)).toIvec3) = 1 :=
  ⟨by decide, by decide, order2_consecutive_adjacent.2.2.2 8 (by decide) (by decide)⟩

end Hilbert

/-! ## Loops, and the number held by a list of words -/

namespace Integer
open integer

theorem forUp_inv {σ : Type} (P : Nat → σ → Prop) (body : Nat → σ → σ) :
    ∀ (count i : Nat) (s : σ), P i s →
      (∀ j s, i ≤ j → j < i + count → P j s → P (j + 1) (body j s)) →
      P (i + count) (forUp body count i s) := by
  intro count
  induction count with
  | zero => intro i s h _; simpa [forUp] using h
  | succ k ih =>
    intro i s h hs
    have := ih (i + 1) (body i s) (hs i s (Nat.le_refl i) (by omega) h)
      (fun j s hj hlt hp => hs j s (by omega) (by omega) hp)
    rw [show i + (k + 1) = i + 1 + k by omega]
    exact this

theorem forDown_inv {σ : Type} (P : Nat → σ → Prop) (body : Nat → σ → σ) (lo : Nat) :
    ∀ (count : Nat) (s : σ), P count s →
      (∀ k s, k < count → P (k + 1) s → P k (body (lo + k) s)) →
      P 0 (forDown body count lo s) := by
  intro count
  induction count with
  | zero => intro s h _; simpa [forDown] using h
  | succ k ih =>
    intro s h hs
    exact ih (body (lo + k) s) (hs k s (by omega) h) (fun j s hj hp => hs j s (by omega) hp)

theorem toNat_append (a b : List Nat) :
    toNat (a ++ b) = toNat a + 2 ^ (32 * a.length) * toNat b := by
  induction a with
  | nil => simp [toNat]
  | cons w ws ih =>
    have e : toNat (w :: ws ++ b) = w + 2 ^ 32 * toNat (ws ++ b) := rfl
    have e2 : toNat (w :: ws) = w + 2 ^ 32 * toNat ws := rfl
    rw [e, e2, ih, List.length_cons, show 32 * (ws.length + 1) = 32 + 32 * ws.length by ring,
      pow_add]
    ring

theorem toNat_lt (l : List Nat) (h : ∀ w ∈ l, w < 2 ^ 32) : toNat l < 2 ^ (32 * l.length) := by
  induction l with
  | nil => simp [toNat]
  | cons w ws ih =>
    have h1 := h w (List.mem_cons_self _ _)
    have h2 := ih (fun v hv => h v (List.mem_cons_of_mem _ hv))
    simp only [toNat, List.length_cons]
    rw [show 32 * (ws.length + 1) = 32 + 32 * ws.length by ring, pow_add]
    nlinarith

theorem toNat_take_succ (l : List Nat) (i : Nat) (h : i < l.length) :
    toNat (l.take (i + 1)) = toNat (l.take i) + 2 ^ (32 * i) * l.getD i 0 := by
  rw [List.take_succ, toNat_append]
  simp [List.getElem?_eq_getElem h, List.getD_eq_getElem _ _ h, toNat, Nat.min_eq_left (Nat.le_of_lt h)]

theorem toNat_set (l : List Nat) (i v : Nat) (h : i < l.length) :
    toNat (l.set i v) + 2 ^ (32 * i) * l.getD i 0 = toNat l + 2 ^ (32 * i) * v := by
  induction l generalizing i with
  | nil => simp at h
  | cons w ws ih =>
    cases i with
    | zero => simp [toNat]; ring
    | succ i =>
      have := ih i (by simpa using h)
      simp only [List.set_cons_succ, toNat, List.getD_cons_succ]
      rw [show 32 * (i + 1) = 32 + 32 * i by ring, pow_add]
      nlinarith

theorem toNat_replicate_zero (n : Nat) : toNat (List.replicate n 0) = 0 := by
  induction n with
  | zero => rfl
  | succ n ih => simp [List.replicate_succ, toNat, ih]

theorem toNat_replicate_ones (n : Nat) :
    toNat (List.replicate n (2 ^ 32 - 1)) + 1 = 2 ^ (32 * n) := by
  induction n with
  | zero => rfl
  | succ n ih =>
    simp only [List.replicate_succ, toNat]
    rw [show 32 * (n + 1) = 32 + 32 * n by ring, pow_add]
    have : (2:ℕ) ^ 32 - 1 + 1 = 2 ^ 32 := by norm_num
    nlinarith

theorem mem_set_lt (l : List Nat) (i v b : Nat) (h : ∀ w ∈ l, w < b) (hv : v < b) :
    ∀ w ∈ l.set i v, w < b := by
  intro w hw
  rcases List.mem_or_eq_of_mem_set hw with h1 | h1
  · exact h w h1
  · rw [h1]; exact hv

theorem getD_lt (l : List Nat) (i b : Nat) (h : ∀ w ∈ l, w < b) (hb : 0 < b) : l.getD i 0 < b := by
  by_cases hi : i < l.length
  · rw [List.getD_eq_getElem _ _ hi]
    exact h _ (List.getElem_mem hi)
  · rw [List.getD_eq_default _ _ (by omega)]
    exact hb

end Integer

/-! ## The member function `add` -/

namespace Integer
open integer

variable {Bits : Nat} {IS_SIGNED : Bool}

theorem add_spec (x y : integer Bits IS_SIGNED) (n : Nat) (hx : x.wf) (hy : y.wf)
    (hn : n ≤ NUM_INTS Bits) :
    (x.add y n).wf ∧ ∃ c, toNat (x.add y n).ints + 2 ^ (32 * NUM_INTS Bits) * c
        = toNat x.ints + 2 ^ (32 * n) * toNat (y.ints.take (NUM_INTS Bits - n)) := by
  have key := forUp_inv
    (fun i (st : List Nat × Nat) =>
      st.1.length = NUM_INTS Bits ∧ (∀ w ∈ st.1, w < 2 ^ 32) ∧ st.2 ≤ 1
        ∧ toNat st.1 + 2 ^ (32 * i) * st.2
            = toNat x.ints + 2 ^ (32 * n) * toNat (y.ints.take (i - n)))
    (fun i (st : List Nat × Nat) =>
      let a := (st.1.getD i 0 + st.2 + y.ints.getD (i - n) 0) % 2 ^ 64
      (st.1.set i (a % 2 ^ 32), (a >>> 32) % 2 ^ 32))
    (NUM_INTS Bits - n) n (x.ints, 0)
    ⟨hx.1, hx.2, by omega, by simp [toNat]⟩
    (by
      rintro j ⟨ints, carry⟩ hj hlt ⟨hlen, hw, hc, heq⟩
      simp only at hlen hw hc heq ⊢
      have hjN : j < NUM_INTS Bits := by omega
      have hij : ints.getD j 0 < 2 ^ 32 := getD_lt _ _ _ hw (by norm_num)
      have hyj : y.ints.getD (j - n) 0 < 2 ^ 32 := getD_lt _ _ _ hy.2 (by norm_num)
      have ha : (ints.getD j 0 + carry + y.ints.getD (j - n) 0) % 2 ^ 64
          = ints.getD j 0 + carry + y.ints.getD (j - n) 0 := Nat.mod_eq_of_lt (by omega)
      rw [ha, Nat.shiftRight_eq_div_pow]
      generalize hA : ints.getD j 0 + carry + y.ints.getD (j - n) 0 = a at *
      have hdiv : a / 2 ^ 32 ≤ 1 := by omega
      have hset := toNat_set ints j (a % 2 ^ 32) (by omega)
      have htake := toNat_take_succ y.ints (j - n) (by rw [hy.1]; omega)
      refine ⟨by simpa using hlen, mem_set_lt _ _ _ _ hw (Nat.mod_lt _ (by norm_num)),
        by omega, ?_⟩
      rw [Nat.mod_eq_of_lt (by omega : a / 2 ^ 32 < 2 ^ 32),
        show j + 1 - n = j - n + 1 by omega, htake]
      have hpow : (2:ℕ) ^ (32 * (j + 1)) = 2 ^ (32 * j) * 2 ^ 32 := by
        rw [show 32 * (j + 1) = 32 * j + 32 by ring, pow_add]
      have hpow2 : (2:ℕ) ^ (32 * n) * 2 ^ (32 * (j - n)) = 2 ^ (32 * j) := by
        rw [← pow_add, show 32 * n + 32 * (j - n) = 32 * j by omega]
      have hdm : a % 2 ^ 32 + 2 ^ 32 * (a / 2 ^ 32) = a := Nat.mod_add_div a (2 ^ 32)
      rw [hpow]
      have e1 : 2 ^ (32 * j) * 2 ^ 32 * (a / 2 ^ 32) + 2 ^ (32 * j) * (a % 2 ^ 32)
          = 2 ^ (32 * j) * a := by
        conv_rhs => rw [← hdm]
        ring
      have e2 : 2 ^ (32 * n) * (toNat (List.take (j - n) y.ints)
            + 2 ^ (32 * (j - n)) * y.ints.getD (j - n) 0)
          = 2 ^ (32 * n) * toNat (List.take (j - n) y.ints)
            + 2 ^ (32 * j) * y.ints.getD (j - n) 0 := by
        rw [← hpow2]; ring
      have e3 : 2 ^ (32 * j) * a = 2 ^ (32 * j) * ints.getD j 0 + 2 ^ (32 * j) * carry
          + 2 ^ (32 * j) * y.ints.getD (j - n) 0 := by
        rw [← hA]; ring
      rw [e2]
      omega)
  rw [show n + (NUM_INTS Bits - n) = NUM_INTS Bits by omega] at key
  obtain ⟨hlen, hw, _, heq⟩ := key
  exact ⟨⟨hlen, hw⟩, _, heq⟩

end Integer

/-! ## The top word: mask and sign bit -/

namespace Integer
open integer

variable {Bits : Nat} {IS_SIGNED : Bool}

theorem int_mask_eq (k : Nat) (hk : k < 32) :
    not32 (shl32 (not32 0) k) = 2 ^ k - 1 := by
  have h : ∀ k < 32, not32 (shl32 (not32 0) k) = 2 ^ k - 1 := by decide
  exact h k hk

theorem or_high_mask (top k : Nat) (ht : top < 2 ^ 32) (hk : k ≤ 32) :
    top ||| (2 ^ 32 - 2 ^ k) = top % 2 ^ k + (2 ^ 32 - 2 ^ k) := by
  have hp : (2:ℕ) ^ 32 = 2 ^ k * 2 ^ (32 - k) := by
    rw [← pow_add, show k + (32 - k) = 32 by omega]
  have hm : (2:ℕ) ^ 32 - 2 ^ k = 2 ^ k * (2 ^ (32 - k) - 1) := by
    rw [Nat.mul_sub, ← hp, Nat.mul_one]
  have hlo : top % 2 ^ k < 2 ^ k := Nat.mod_lt _ (by positivity)
  apply Nat.eq_of_testBit_eq
  intro i
  rw [Nat.testBit_or, hm, Nat.add_comm (top % 2 ^ k), Nat.testBit_mul_pow_two_add _ hlo]
  have h0 := Nat.testBit_mul_pow_two_add (2 ^ (32 - k) - 1) (show 0 < 2 ^ k by positivity) i
  rw [Nat.add_zero] at h0
  rw [h0, Nat.testBit_two_pow_sub_one, Nat.testBit_mod_two_pow]
  by_cases hik : i < k
  · simp [hik]
  · simp only [hik, if_false, Nat.zero_testBit]
    by_cases hi : i - k < 32 - k
    · simp [hi]
    · have : top.testBit i = false :=
        Nat.testBit_lt_two_pow (lt_of_lt_of_le ht (Nat.pow_le_pow_right (by norm_num) (by omega)))
      simp [hi, this]

theorem num_ints_cases (Bits : Nat) (hB : 0 < Bits) :
    ∃ k, 1 ≤ k ∧ k ≤ 32 ∧ Bits = 32 * (NUM_INTS Bits - 1) + k ∧ 1 ≤ NUM_INTS Bits
      ∧ (Bits - 1) % 32 = k - 1 ∧ (Bits % 32 ≠ 0 → k = Bits % 32) ∧ (Bits % 32 = 0 → k = 32) := by
  unfold NUM_INTS
  refine ⟨if Bits % 32 = 0 then 32 else Bits % 32, ?_⟩
  split <;> omega

theorem top_decomp (x : integer Bits IS_SIGNED) (hB : 0 < Bits) (hx : x.wf) :
    ∃ t0, t0 < 2 ^ (32 * (NUM_INTS Bits - 1)) ∧ x.back < 2 ^ 32
      ∧ toNat x.ints = t0 + 2 ^ (32 * (NUM_INTS Bits - 1)) * x.back
      ∧ ∀ v, toNat (x.ints.set (NUM_INTS Bits - 1) v)
          = t0 + 2 ^ (32 * (NUM_INTS Bits - 1)) * v := by
  obtain ⟨k, _, _, _, hN, _⟩ := num_ints_cases Bits hB
  have hlt : NUM_INTS Bits - 1 < x.ints.length := by rw [hx.1]; omega
  have h1 := toNat_take_succ x.ints (NUM_INTS Bits - 1) hlt
  rw [show NUM_INTS Bits - 1 + 1 = x.ints.length by rw [hx.1]; omega, List.take_length] at h1
  have h2 := toNat_lt (x.ints.take (NUM_INTS Bits - 1))
    (fun w hw => hx.2 w (List.mem_of_mem_take hw))
  rw [List.length_take, Nat.min_eq_left (Nat.le_of_lt hlt)] at h2
  refine ⟨toNat (x.ints.take (NUM_INTS Bits - 1)), h2, getD_lt _ _ _ hx.2 (by norm_num), h1, ?_⟩
  intro v
  have h3 := toNat_set x.ints (NUM_INTS Bits - 1) v hlt
  omega

theorem mod_decomp (t0 A top k : Nat) (h0 : t0 < A) :
    (t0 + A * top) % (A * 2 ^ k) = t0 + A * (top % 2 ^ k) := by
  have hlo : top % 2 ^ k < 2 ^ k := Nat.mod_lt _ (by positivity)
  have e : t0 + A * top = t0 + A * (top % 2 ^ k) + A * 2 ^ k * (top / 2 ^ k) := by
    conv_lhs => rw [← Nat.mod_add_div top (2 ^ k)]
    ring
  rw [e, Nat.add_mul_mod_self_left]
  apply Nat.mod_eq_of_lt
  have : A * (top % 2 ^ k + 1) ≤ A * 2 ^ k := Nat.mul_le_mul_left _ hlo
  nlinarith

theorem sign_bit (top k : Nat) (hk : 1 ≤ k) :
    ((top >>> (k - 1)) &&& 1 ≠ 0) ↔ 2 ^ (k - 1) ≤ top % 2 ^ k := by
  rw [Nat.shiftRight_eq_div_pow, Nat.and_one_is_mod]
  have e : top % 2 ^ k = top % 2 ^ (k - 1) + 2 ^ (k - 1) * (top / 2 ^ (k - 1) % 2) := by
    conv_lhs => rw [show k = k - 1 + 1 by omega]
    exact Nat.mod_pow_succ
  have hlt : top % 2 ^ (k - 1) < 2 ^ (k - 1) := Nat.mod_lt _ (by positivity)
  rw [e]
  rcases Nat.mod_two_eq_zero_or_one (top / 2 ^ (k - 1)) with h | h
  · rw [h]; simp; omega
  · rw [h]; simp

theorem low_bits (x : integer Bits IS_SIGNED) (hB : 0 < Bits) (hx : x.wf) :
    ∃ t0 k, 1 ≤ k ∧ k ≤ 32 ∧ Bits = 32 * (NUM_INTS Bits - 1) + k ∧ 1 ≤ NUM_INTS Bits
      ∧ (Bits - 1) % 32 = k - 1 ∧ (Bits % 32 ≠ 0 → k = Bits % 32) ∧ (Bits % 32 = 0 → k = 32)
      ∧ t0 < 2 ^ (32 * (NUM_INTS Bits - 1)) ∧ x.back < 2 ^ 32
      ∧ toNat x.ints % 2 ^ Bits = t0 + 2 ^ (32 * (NUM_INTS Bits - 1)) * (x.back % 2 ^ k)
      ∧ (∀ v, toNat (x.ints.set (NUM_INTS Bits - 1) v)
          = t0 + 2 ^ (32 * (NUM_INTS Bits - 1)) * v)
      ∧ (2 ^ (Bits - 1) ≤ toNat x.ints % 2 ^ Bits ↔ 2 ^ (k - 1) ≤ x.back % 2 ^ k)
      ∧ (2:ℕ) ^ Bits = 2 ^ (32 * (NUM_INTS Bits - 1)) * 2 ^ k
      ∧ (2:ℕ) ^ (32 * NUM_INTS Bits) = 2 ^ (32 * (NUM_INTS Bits - 1)) * 2 ^ 32 := by
  obtain ⟨k, hk1, hk2, hBk, hN, hk3, hk4, hk5⟩ := num_ints_cases Bits hB
  obtain ⟨t0, ht0, htop, ht, hset⟩ := top_decomp x hB hx
  have hpB : (2:ℕ) ^ Bits = 2 ^ (32 * (NUM_INTS Bits - 1)) * 2 ^ k := by
    rw [← pow_add, ← hBk]
  have hpM : (2:ℕ) ^ (32 * NUM_INTS Bits) = 2 ^ (32 * (NUM_INTS Bits - 1)) * 2 ^ 32 := by
    rw [← pow_add, show 32 * (NUM_INTS Bits - 1) + 32 = 32 * NUM_INTS Bits by omega]
  have hpH : (2:ℕ) ^ (Bits - 1) = 2 ^ (32 * (NUM_INTS Bits - 1)) * 2 ^ (k - 1) := by
    rw [← pow_add, show 32 * (NUM_INTS Bits - 1) + (k - 1) = Bits - 1 by omega]
  have hmod : toNat x.ints % 2 ^ Bits
      = t0 + 2 ^ (32 * (NUM_INTS Bits - 1)) * (x.back % 2 ^ k) := by
    rw [ht, hpB, mod_decomp _ _ _ _ ht0]
  refine ⟨t0, k, hk1, hk2, hBk, hN, hk3, hk4, hk5, ht0, htop, hmod, hset, ?_, hpB, hpM⟩
  rw [hmod, hpH]
  have hA : 0 < 2 ^ (32 * (NUM_INTS Bits - 1)) := by positivity
  constructor
  · intro h
    by_contra hc
    have h1 : x.back % 2 ^ k + 1 ≤ 2 ^ (k - 1) := by omega
    have := Nat.mul_le_mul_left (2 ^ (32 * (NUM_INTS Bits - 1))) h1
    nlinarith
  · intro h
    have := Nat.mul_le_mul_left (2 ^ (32 * (NUM_INTS Bits - 1))) h
    omega

theorem is_negative_iff (x : integer Bits IS_SIGNED) (hB : 0 < Bits) (hx : x.wf) :
    x.is_negative = true
      ↔ (IS_SIGNED = true ∧ 2 ^ (Bits - 1) ≤ toNat x.ints % 2 ^ Bits) := by
  obtain ⟨t0, k, hk1, hk2, hBk, hN, hk3, hk4, hk5, ht0, htop, hmod, hset, hsgn, hpB, hpM⟩ :=
    low_bits x hB hx
  rw [hsgn, ← sign_bit _ _ hk1]
  unfold is_negative
  rw [hk3, Bool.and_eq_true, decide_eq_true_eq]

end Integer

/-! ## Reduction modulo `2^Bits`, and `extend_sign` -/

namespace Integer
open integer

variable {Bits : Nat} {IS_SIGNED : Bool}

theorem two_pow_bits (Bits : Nat) (hB : 0 < Bits) :
    (2:ℤ) ^ Bits = 2 * 2 ^ (Bits - 1) := by
  conv_lhs => rw [show Bits = Bits - 1 + 1 by omega]
  rw [pow_succ]; ring

theorem wrap_eq_of_emod (Bits : Nat) (a b : Int) (h : a % 2 ^ Bits = b % 2 ^ Bits) :
    wrap Bits a = wrap Bits b := by
  unfold wrap
  rw [Int.add_emod a, Int.add_emod b, h]

theorem wrap_emod (Bits : Nat) (z : Int) : wrap Bits z % 2 ^ Bits = z % 2 ^ Bits := by
  unfold wrap
  rw [Int.sub_emod, Int.emod_emod_of_dvd _ (dvd_refl _), ← Int.sub_emod]
  simp

theorem wrap_range (Bits : Nat) (hB : 0 < Bits) (z : Int) :
    -2 ^ (Bits - 1) ≤ wrap Bits z ∧ wrap Bits z < 2 ^ (Bits - 1) := by
  unfold wrap
  have hp : (0:ℤ) < 2 ^ Bits := by positivity
  have h1 := Int.emod_nonneg (z + 2 ^ (Bits - 1)) (ne_of_gt hp)
  have h2 := Int.emod_lt_of_pos (z + 2 ^ (Bits - 1)) hp
  have h3 := two_pow_bits Bits hB
  constructor <;> linarith

theorem wrap_of_range (Bits : Nat) (hB : 0 < Bits) (z : Int)
    (h1 : -2 ^ (Bits - 1) ≤ z) (h2 : z < 2 ^ (Bits - 1)) : wrap Bits z = z := by
  unfold wrap
  have h3 := two_pow_bits Bits hB
  rw [Int.emod_eq_of_lt (by linarith) (by linarith)]
  ring

theorem wrap_wrap_add (Bits : Nat) (a b : Int) :
    wrap Bits (wrap Bits a + wrap Bits b) = wrap Bits (a + b) := by
  apply wrap_eq_of_emod
  rw [Int.add_emod, wrap_emod, wrap_emod, ← Int.add_emod]

theorem wrap_wrap_mul (Bits : Nat) (a b : Int) :
    wrap Bits (wrap Bits a * wrap Bits b) = wrap Bits (a * b) := by
  apply wrap_eq_of_emod
  rw [Int.mul_emod, wrap_emod, wrap_emod, ← Int.mul_emod]

theorem wrap_neg_wrap (Bits : Nat) (a : Int) :
    wrap Bits (-wrap Bits a) = wrap Bits (-a) := by
  apply wrap_eq_of_emod
  exact Int.ModEq.neg (wrap_emod Bits a)

theorem val_eq_wrap (x : integer Bits true) (hB : 0 < Bits) :
    x.val = wrap Bits (toNat x.ints) := by
  have h3 := two_pow_bits Bits hB
  have hdm : ((toNat x.ints : ℕ) : ℤ)
      = ((toNat x.ints % 2 ^ Bits : ℕ) : ℤ) + 2 ^ Bits * ((toNat x.ints / 2 ^ Bits : ℕ) : ℤ) := by
    have := Nat.mod_add_div (toNat x.ints) (2 ^ Bits)
    exact_mod_cast this.symm
  have hlt : ((toNat x.ints % 2 ^ Bits : ℕ) : ℤ) < 2 ^ Bits := by
    have := Nat.mod_lt (toNat x.ints) (show 0 < 2 ^ Bits by positivity)
    exact_mod_cast this
  have hge : (0:ℤ) ≤ ((toNat x.ints % 2 ^ Bits : ℕ) : ℤ) := Int.natCast_nonneg _
  have e : wrap Bits (toNat x.ints) = wrap Bits ((toNat x.ints % 2 ^ Bits : ℕ) : ℤ) := by
    apply wrap_eq_of_emod
    rw [hdm, Int.add_mul_emod_self_left]
  rw [e]
  unfold val wrap
  by_cases hc : 2 ^ (Bits - 1) ≤ toNat x.ints % 2 ^ Bits
  · have hc' : (2:ℤ) ^ (Bits - 1) ≤ ((toNat x.ints % 2 ^ Bits : ℕ) : ℤ) := by exact_mod_cast hc
    rw [if_pos ⟨rfl, hc⟩]
    have : ((toNat x.ints % 2 ^ Bits : ℕ) : ℤ) + 2 ^ (Bits - 1)
        = (((toNat x.ints % 2 ^ Bits : ℕ) : ℤ) - 2 ^ (Bits - 1)) + 1 * 2 ^ Bits := by
      rw [h3]; ring
    rw [this, Int.add_mul_emod_self, Int.emod_eq_of_lt (by linarith) (by linarith)]
    rw [h3]; ring
  · have hc' : ((toNat x.ints % 2 ^ Bits : ℕ) : ℤ) < (2:ℤ) ^ (Bits - 1) := by
      exact_mod_cast Nat.lt_of_not_le hc
    rw [if_neg (fun h => hc h.2)]
    rw [Int.emod_eq_of_lt (by linarith) (by linarith)]
    ring

theorem val_emod (x : integer Bits IS_SIGNED) :
    x.val % 2 ^ Bits = (toNat x.ints : ℤ) % 2 ^ Bits := by
  have hdm : ((toNat x.ints : ℕ) : ℤ)
      = ((toNat x.ints % 2 ^ Bits : ℕ) : ℤ) + 2 ^ Bits * ((toNat x.ints / 2 ^ Bits : ℕ) : ℤ) := by
    have := Nat.mod_add_div (toNat x.ints) (2 ^ Bits)
    exact_mod_cast this.symm
  conv_rhs => rw [hdm, Int.add_mul_emod_self_left]
  unfold val
  split
  · have : ((toNat x.ints % 2 ^ Bits : ℕ) : ℤ) - 2 ^ Bits
        = ((toNat x.ints % 2 ^ Bits : ℕ) : ℤ) + (-1) * 2 ^ Bits := by ring
    rw [this, Int.add_mul_emod_self]
  · rfl

theorem canonical_of (x : integer Bits IS_SIGNED) (hx : x.wf)
    (h : (¬(IS_SIGNED = true ∧ 2 ^ (Bits - 1) ≤ toNat x.ints % 2 ^ Bits)
          ∧ toNat x.ints = toNat x.ints % 2 ^ Bits)
      ∨ ((IS_SIGNED = true ∧ 2 ^ (Bits - 1) ≤ toNat x.ints % 2 ^ Bits)
          ∧ toNat x.ints + 2 ^ Bits = toNat x.ints % 2 ^ Bits + 2 ^ (32 * NUM_INTS Bits))) :
    x.canonical := by
  refine ⟨hx, ?_⟩
  have hM := toNat_lt x.ints hx.2
  rw [hx.1] at hM
  have hM' : ((toNat x.ints : ℕ) : ℤ) < 2 ^ (32 * NUM_INTS Bits) := by exact_mod_cast hM
  unfold val
  rcases h with ⟨hc, he⟩ | ⟨hc, he⟩
  · rw [if_neg hc, ← he, Int.emod_eq_of_lt (Int.natCast_nonneg _) hM']
  · rw [if_pos hc]
    have he' : ((toNat x.ints : ℕ) : ℤ) + 2 ^ Bits
        = ((toNat x.ints % 2 ^ Bits : ℕ) : ℤ) + 2 ^ (32 * NUM_INTS Bits) := by exact_mod_cast he
    have : ((toNat x.ints % 2 ^ Bits : ℕ) : ℤ) - 2 ^ Bits
        = ((toNat x.ints : ℕ) : ℤ) + (-1) * 2 ^ (32 * NUM_INTS Bits) := by linarith
    rw [this, Int.add_mul_emod_self, Int.emod_eq_of_lt (Int.natCast_nonneg _) hM']

theorem extend_sign_spec (x : integer Bits IS_SIGNED) (hB : 0 < Bits) (hx : x.wf) :
    x.extend_sign.canonical
      ∧ toNat x.extend_sign.ints % 2 ^ Bits = toNat x.ints % 2 ^ Bits := by
  obtain ⟨t0, k, hk1, hk2, hBk, hN, hk3, hk4, hk5, ht0, htop, hmod, hset, hsgn, hpB, hpM⟩ :=
    low_bits x hB hx
  have hneg := is_negative_iff x hB hx
  have hM := toNat_lt x.ints hx.2
  rw [hx.1] at hM
  unfold extend_sign
  by_cases hz : Bits % 32 = 0
  · have hk : k = 32 := hk5 hz
    subst hk
    rw [if_neg (by simpa using hz)]
    refine ⟨?_, rfl⟩
    have hPM : (2:ℕ) ^ Bits = 2 ^ (32 * NUM_INTS Bits) := by rw [hpB, hpM]
    have hmodt : toNat x.ints % 2 ^ Bits = toNat x.ints := by
      rw [hPM]; exact Nat.mod_eq_of_lt hM
    apply canonical_of x hx
    by_cases hc : IS_SIGNED = true ∧ 2 ^ (Bits - 1) ≤ toNat x.ints % 2 ^ Bits
    · right
      exact ⟨hc, by rw [hmodt, hPM]⟩
    · left
      exact ⟨hc, hmodt.symm⟩
  · have hk : k = Bits % 32 := hk4 hz
    have hk32 : k < 32 := by omega
    have hmask : INT_MASK Bits = 2 ^ k - 1 := by
      unfold INT_MASK
      rw [if_pos hz, ← hk]
      exact int_mask_eq k hk32
    have hlo : x.back % 2 ^ k < 2 ^ k := Nat.mod_lt _ (by positivity)
    have hk2p : (2:ℕ) ^ k < 2 ^ 32 := Nat.pow_lt_pow_right (by norm_num) hk32
    have hkpos : 0 < 2 ^ k := by positivity
    rw [if_pos hz]
    by_cases hn : x.is_negative = true
    · rw [if_neg (by simp [hn])]
      have hc := hneg.mp hn
      have hnm : not32 (INT_MASK Bits) = 2 ^ 32 - 2 ^ k := by
        rw [hmask]; unfold not32; omega
      have hor := or_high_mask x.back k htop hk2
      have hnew : toNat (x.ints.set (NUM_INTS Bits - 1) (x.back ||| not32 (INT_MASK Bits)))
          + 2 ^ Bits = toNat x.ints % 2 ^ Bits + 2 ^ (32 * NUM_INTS Bits) := by
        rw [hset, hnm, hor, hmod, hpB, hpM]
        have e : 2 ^ (32 * (NUM_INTS Bits - 1)) * (x.back % 2 ^ k + (2 ^ 32 - 2 ^ k))
            + 2 ^ (32 * (NUM_INTS Bits - 1)) * 2 ^ k
            = 2 ^ (32 * (NUM_INTS Bits - 1)) * (x.back % 2 ^ k)
              + 2 ^ (32 * (NUM_INTS Bits - 1)) * 2 ^ 32 := by
          rw [← Nat.mul_add, ← Nat.mul_add]
          congr 1
          omega
        omega
      have hwf : wf (⟨x.ints.set (NUM_INTS Bits - 1) (x.back ||| not32 (INT_MASK Bits))⟩ :
          integer Bits IS_SIGNED) :=
        ⟨by simpa using hx.1, mem_set_lt _ _ _ _ hx.2 (by rw [hnm, hor]; omega)⟩
      have hmodnew : toNat (x.ints.set (NUM_INTS Bits - 1) (x.back ||| not32 (INT_MASK Bits)))
          % 2 ^ Bits = toNat x.ints % 2 ^ Bits := by
        have hle : 2 ^ Bits ≤ 2 ^ (32 * NUM_INTS Bits) := by
          rw [hpB, hpM]; exact Nat.mul_le_mul_left _ (Nat.le_of_lt hk2p)
        have hdvd : 2 ^ Bits ∣ 2 ^ (32 * NUM_INTS Bits) - 2 ^ Bits := by
          apply Nat.dvd_sub'
          · exact pow_dvd_pow 2 (by omega)
          · exact dvd_refl _
        have e2 : toNat (x.ints.set (NUM_INTS Bits - 1) (x.back ||| not32 (INT_MASK Bits)))
            = toNat x.ints % 2 ^ Bits + (2 ^ (32 * NUM_INTS Bits) - 2 ^ Bits) := by omega
        obtain ⟨q, hq⟩ := hdvd
        rw [e2, hq, Nat.add_mul_mod_self_left, Nat.mod_mod]
      refine ⟨canonical_of _ hwf (Or.inr ⟨?_, ?_⟩), hmodnew⟩
      · show IS_SIGNED = true ∧ 2 ^ (Bits - 1) ≤ toNat (x.ints.set _ _) % 2 ^ Bits
        rw [hmodnew]; exact hc
      · show toNat (x.ints.set _ _) + 2 ^ Bits = toNat (x.ints.set _ _) % 2 ^ Bits + _
        rw [hmodnew]; exact hnew
    · rw [if_pos (by simp [hn])]
      have hc : ¬(IS_SIGNED = true ∧ 2 ^ (Bits - 1) ≤ toNat x.ints % 2 ^ Bits) :=
        fun h => hn (hneg.mpr h)
      have hand : x.back &&& INT_MASK Bits = x.back % 2 ^ k := by
        rw [hmask]; exact Nat.and_pow_two_sub_one_eq_mod _ _
      have hnew : toNat (x.ints.set (NUM_INTS Bits - 1) (x.back &&& INT_MASK Bits))
          = toNat x.ints % 2 ^ Bits := by
        rw [hset, hand, hmod]
      have hwf : wf (⟨x.ints.set (NUM_INTS Bits - 1) (x.back &&& INT_MASK Bits)⟩ :
          integer Bits IS_SIGNED) :=
        ⟨by simpa using hx.1, mem_set_lt _ _ _ _ hx.2 (by rw [hand]; omega)⟩
      have hmodnew : toNat (x.ints.set (NUM_INTS Bits - 1) (x.back &&& INT_MASK Bits))
          % 2 ^ Bits = toNat x.ints % 2 ^ Bits := by
        rw [hnew, Nat.mod_mod]
      refine ⟨canonical_of _ hwf (Or.inl ⟨?_, ?_⟩), hmodnew⟩
      · show ¬(IS_SIGNED = true ∧ 2 ^ (Bits - 1) ≤ toNat (x.ints.set _ _) % 2 ^ Bits)
        rw [hmodnew]; exact hc
      · show toNat (x.ints.set _ _) = toNat (x.ints.set _ _) % 2 ^ Bits
        rw [hmodnew]; exact hnew

end Integer

/-! ## Complement, the constructor from an `int`, sum, negation and difference -/

namespace Integer
open integer

variable {Bits : Nat} {IS_SIGNED : Bool}

theorem getD_set_ne (l : List Nat) (i j v : Nat) (h : i ≠ j) :
    (l.set i v).getD j 0 = l.getD j 0 := by
  simp [List.getD_eq_getElem?_getD, List.getElem?_set, h]

theorem getD_set_self (l : List Nat) (i v : Nat) (h : i < l.length) :
    (l.set i v).getD i 0 = v := by
  simp [List.getD_eq_getElem?_getD, List.getElem?_set, h]

theorem bits_le (Bits : Nat) : Bits ≤ 32 * NUM_INTS Bits := by
  unfold NUM_INTS; omega

theorem emod_of_add_mul (Bits n : Nat) (hle : Bits ≤ n) (a b c : Nat)
    (h : a + 2 ^ n * c = b) : (a : ℤ) % 2 ^ Bits = (b : ℤ) % 2 ^ Bits := by
  have hp : (2:ℕ) ^ n = 2 ^ Bits * 2 ^ (n - Bits) := by
    rw [← pow_add, show Bits + (n - Bits) = n by omega]
  rw [hp] at h
  have h' : (b : ℤ) = (a : ℤ) + 2 ^ Bits * (2 ^ (n - Bits) * (c : ℤ)) := by
    rw [← h]; push_cast; ring
  rw [h', Int.add_mul_emod_self_left]

theorem zero_wf : (zero : integer Bits IS_SIGNED).wf :=
  ⟨by simp [zero], by
    intro w hw
    rw [List.eq_of_mem_replicate hw]
    norm_num⟩

theorem zero_getD (j : Nat) : (zero : integer Bits IS_SIGNED).ints.getD j 0 = 0 := by
  unfold zero
  by_cases h : j < NUM_INTS Bits
  · rw [List.getD_eq_getElem _ _ (by simpa using h)]
    simp
  · rw [List.getD_eq_default _ _ (by simpa using h)]

theorem zero_toNat : toNat (zero : integer Bits IS_SIGNED).ints = 0 :=
  toNat_replicate_zero _

theorem not_spec (x : integer Bits IS_SIGNED) (hx : x.wf) :
    x.not.wf ∧ toNat x.not.ints + toNat x.ints + 1 = 2 ^ (32 * NUM_INTS Bits) := by
  have key := forUp_inv
    (fun i (f : List Nat) =>
      f.length = NUM_INTS Bits ∧ (∀ w ∈ f, w < 2 ^ 32) ∧ (∀ j, i ≤ j → f.getD j 0 = 0)
        ∧ toNat f + toNat (x.ints.take i) + 1 = 2 ^ (32 * i))
    (fun i flipped => flipped.set i (not32 (x.ints.getD i 0)))
    (NUM_INTS Bits) 0 (zero : integer Bits IS_SIGNED).ints
    ⟨zero_wf.1, zero_wf.2, fun j _ => zero_getD j, by simp [zero_toNat, toNat]⟩
    (by
      rintro j f _ hlt ⟨hlen, hw, hz, heq⟩
      beta_reduce
      have hxj : x.ints.getD j 0 < 2 ^ 32 := getD_lt _ _ _ hx.2 (by norm_num)
      have hset := toNat_set f j (not32 (x.ints.getD j 0)) (by omega)
      have htake := toNat_take_succ x.ints j (by rw [hx.1]; omega)
      rw [hz j (Nat.le_refl j)] at hset
      refine ⟨by simpa using hlen, mem_set_lt _ _ _ _ hw (by unfold not32; omega), ?_, ?_⟩
      · intro i hi
        rw [getD_set_ne _ _ _ _ (by omega)]
        exact hz i (by omega)
      · rw [htake, show 32 * (j + 1) = 32 * j + 32 by ring, pow_add]
        have e : 2 ^ (32 * j) * not32 (x.ints.getD j 0) + 2 ^ (32 * j) * x.ints.getD j 0
            + 2 ^ (32 * j) = 2 ^ (32 * j) * 2 ^ 32 := by
          rw [← Nat.mul_add, ← Nat.mul_add_one]
          congr 1
          unfold not32; omega
        omega)
  rw [Nat.zero_add] at key
  obtain ⟨hlen, hw, _, heq⟩ := key
  refine ⟨⟨hlen, hw⟩, ?_⟩
  have : x.ints.take (NUM_INTS Bits) = x.ints := by
    rw [← hx.1]; exact List.take_length _
  rw [this] at heq
  exact heq

theorem ofInt32_spec (n : Int) (hB : 0 < Bits) (h1 : -2 ^ 31 ≤ n) (h2 : n < 2 ^ 31) :
    (ofInt32 n : integer Bits IS_SIGNED).wf
      ∧ ((toNat (ofInt32 n : integer Bits IS_SIGNED).ints : ℕ) : ℤ) % 2 ^ Bits = n % 2 ^ Bits := by
  obtain ⟨k, hk1, hk2, hBk, hN, _⟩ := num_ints_cases Bits hB
  have hw0 : (n % 2 ^ 32).toNat < 2 ^ 32 := by omega
  have hwf : wf (⟨(n % 2 ^ 32).toNat ::
      List.replicate (NUM_INTS Bits - 1) (if n < 0 then not32 0 else 0)⟩ :
      integer Bits IS_SIGNED) := by
    refine ⟨by simp; omega, ?_⟩
    intro w hw
    rcases List.mem_cons.mp hw with h | h
    · rw [h]; exact hw0
    · rw [List.eq_of_mem_replicate h]
      split
      · unfold not32; norm_num
      · norm_num
  have hval : ((toNat ((n % 2 ^ 32).toNat ::
      List.replicate (NUM_INTS Bits - 1) (if n < 0 then not32 0 else 0)) : ℕ) : ℤ) % 2 ^ Bits
        = n % 2 ^ Bits := by
    by_cases hneg : n < 0
    · rw [if_pos hneg]
      have h3 := toNat_replicate_ones (NUM_INTS Bits - 1)
      have e : toNat ((n % 2 ^ 32).toNat :: List.replicate (NUM_INTS Bits - 1) (not32 0))
          = (n % 2 ^ 32).toNat + 2 ^ 32 * toNat (List.replicate (NUM_INTS Bits - 1) (2 ^ 32 - 1)) :=
        rfl
      have hpM : (2:ℕ) ^ (32 * NUM_INTS Bits) = 2 ^ 32 * 2 ^ (32 * (NUM_INTS Bits - 1)) := by
        rw [← pow_add, show 32 + 32 * (NUM_INTS Bits - 1) = 32 * NUM_INTS Bits by omega]
      have e2 : (n % 2 ^ 32).toNat = (n + 2 ^ 32).toNat := by omega
      have e3 : toNat ((n % 2 ^ 32).toNat :: List.replicate (NUM_INTS Bits - 1) (not32 0))
          + 2 ^ 32 = (n + 2 ^ 32).toNat + 2 ^ (32 * NUM_INTS Bits) := by
        rw [e, hpM, e2]
        have : 2 ^ 32 * toNat (List.replicate (NUM_INTS Bits - 1) (2 ^ 32 - 1)) + 2 ^ 32
            = 2 ^ 32 * 2 ^ (32 * (NUM_INTS Bits - 1)) := by
          rw [← h3]; ring
        omega
      have e4 : ((toNat ((n % 2 ^ 32).toNat ::
          List.replicate (NUM_INTS Bits - 1) (not32 0)) : ℕ) : ℤ)
          = n + 2 ^ (32 * NUM_INTS Bits) := by
        have : (((n + 2 ^ 32).toNat : ℕ) : ℤ) = n + 2 ^ 32 := Int.toNat_of_nonneg (by omega)
        have e3' : ((toNat ((n % 2 ^ 32).toNat ::
            List.replicate (NUM_INTS Bits - 1) (not32 0)) : ℕ) : ℤ) + 2 ^ 32
            = (((n + 2 ^ 32).toNat : ℕ) : ℤ) + 2 ^ (32 * NUM_INTS Bits) := by
          exact_mod_cast e3
        rw [this] at e3'
        linarith
      rw [e4]
      have hp : (2:ℤ) ^ (32 * NUM_INTS Bits) = 2 ^ (32 * NUM_INTS Bits - Bits) * 2 ^ Bits := by
        rw [← pow_add, show 32 * NUM_INTS Bits - Bits + Bits = 32 * NUM_INTS Bits by omega]
      rw [hp, Int.add_mul_emod_self]
    · rw [if_neg hneg]
      have e : toNat ((n % 2 ^ 32).toNat :: List.replicate (NUM_INTS Bits - 1) 0)
          = (n % 2 ^ 32).toNat := by
        show (n % 2 ^ 32).toNat + 2 ^ 32 * toNat (List.replicate (NUM_INTS Bits - 1) 0) = _
        rw [toNat_replicate_zero]; simp
      rw [e]
      have : (((n % 2 ^ 32).toNat : ℕ) : ℤ) = n := by omega
      rw [this]
  unfold ofInt32
  simp only
  split
  · have hs := extend_sign_spec _ hB hwf
    refine ⟨hs.1.1, ?_⟩
    rw [← hval]
    exact_mod_cast congrArg (fun m : ℕ => (m : ℤ)) hs.2
  · exact ⟨hwf, hval⟩

theorem plus_spec (x y : integer Bits IS_SIGNED) (hB : 0 < Bits) (hx : x.wf) (hy : y.wf) :
    (x.plus y).canonical
      ∧ ((toNat (x.plus y).ints : ℕ) : ℤ) % 2 ^ Bits
          = ((toNat x.ints : ℤ) + (toNat y.ints : ℤ)) % 2 ^ Bits := by
  obtain ⟨hwf, c, hc⟩ := add_spec x y 0 hx hy (Nat.zero_le _)
  have hs := extend_sign_spec _ hB hwf
  refine ⟨hs.1, ?_⟩
  have ht : y.ints.take (NUM_INTS Bits - 0) = y.ints := by
    rw [Nat.sub_zero, ← hy.1]; exact List.take_length _
  rw [ht] at hc
  simp only [Nat.mul_zero, pow_zero, Nat.one_mul] at hc
  have h1 := emod_of_add_mul Bits _ (bits_le Bits) _ _ _ hc
  have h2 : ((toNat (x.plus y).ints : ℕ) : ℤ) % 2 ^ Bits
      = ((toNat (x.add y 0).ints : ℕ) : ℤ) % 2 ^ Bits := by
    exact_mod_cast congrArg (fun m : ℕ => (m : ℤ)) hs.2
  rw [h2, h1]
  push_cast
  rfl

theorem neg_spec (x : integer Bits IS_SIGNED) (hB : 0 < Bits) (hx : x.wf) :
    x.neg.canonical
      ∧ ((toNat x.neg.ints : ℕ) : ℤ) % 2 ^ Bits = (-(toNat x.ints : ℤ)) % 2 ^ Bits := by
  obtain ⟨hnwf, hn⟩ := not_spec x hx
  obtain ⟨h1wf, h1⟩ := @ofInt32_spec Bits IS_SIGNED 1 hB
    (by norm_num) (by norm_num)
  obtain ⟨hc, hp⟩ := plus_spec x.not (ofInt32 1) hB hnwf h1wf
  refine ⟨hc, ?_⟩
  unfold neg
  rw [hp, Int.add_emod, h1, ← Int.add_emod]
  have e : ((toNat x.not.ints : ℕ) : ℤ) + 1
      = -(toNat x.ints : ℤ) + 2 ^ (32 * NUM_INTS Bits - Bits) * 2 ^ Bits := by
    rw [← pow_add, show 32 * NUM_INTS Bits - Bits + Bits = 32 * NUM_INTS Bits by
      have := bits_le Bits; omega]
    have := congrArg (fun m : ℕ => (m : ℤ)) hn
    push_cast at this
    linarith
  rw [e, Int.add_mul_emod_self]

theorem minus_spec (x y : integer Bits IS_SIGNED) (hB : 0 < Bits) (hx : x.wf) (hy : y.wf) :
    (x.minus y).canonical
      ∧ ((toNat (x.minus y).ints : ℕ) : ℤ) % 2 ^ Bits
          = ((toNat x.ints : ℤ) - (toNat y.ints : ℤ)) % 2 ^ Bits := by
  obtain ⟨hnc, hn⟩ := neg_spec y hB hy
  obtain ⟨hc, hp⟩ := plus_spec x y.neg hB hx hnc.1
  refine ⟨hc, ?_⟩
  unfold minus
  rw [hp, Int.add_emod, hn, ← Int.add_emod, sub_eq_add_neg]

theorem val_of_emod (x : integer Bits true) (hB : 0 < Bits) (z : Int)
    (h : ((toNat x.ints : ℕ) : ℤ) % 2 ^ Bits = z % 2 ^ Bits) : x.val = wrap Bits z := by
  rw [val_eq_wrap x hB]
  exact wrap_eq_of_emod Bits _ _ h

end Integer

/-! ## Objects in canonical form are determined by their value -/

namespace Integer
open integer

variable {Bits : Nat} {IS_SIGNED : Bool}

theorem toNat_inj : ∀ (a b : List Nat), a.length = b.length → (∀ w ∈ a, w < 2 ^ 32) →
    (∀ w ∈ b, w < 2 ^ 32) → toNat a = toNat b → a = b
  | [], [], _, _, _, _ => rfl
  | [], _ :: _, h, _, _, _ => by simp at h
  | _ :: _, [], h, _, _, _ => by simp at h
  | v :: a, w :: b, hl, ha, hb, h => by
    have hv := ha v (List.mem_cons_self _ _)
    have hw := hb w (List.mem_cons_self _ _)
    have e1 : toNat (v :: a) = v + 2 ^ 32 * toNat a := rfl
    have e2 : toNat (w :: b) = w + 2 ^ 32 * toNat b := rfl
    rw [e1, e2] at h
    have h1 : v = w := by omega
    have h2 : toNat a = toNat b := by omega
    rw [h1, toNat_inj a b (by simpa using hl) (fun u hu => ha u (List.mem_cons_of_mem _ hu))
      (fun u hu => hb u (List.mem_cons_of_mem _ hu)) h2]

theorem canonical_ext (x y : integer Bits IS_SIGNED) (hx : x.canonical) (hy : y.canonical)
    (h : x.val = y.val) : x = y := by
  have e : ((toNat x.ints : ℕ) : ℤ) = ((toNat y.ints : ℕ) : ℤ) := by rw [hx.2, hy.2, h]
  have e' : toNat x.ints = toNat y.ints := by exact_mod_cast e
  have := toNat_inj x.ints y.ints (by rw [hx.1.1, hy.1.1]) hx.1.2 hy.1.2 e'
  cases x; cases y
  simp only at this
  rw [this]

end Integer

/-! ## Sum and difference -/

namespace Integer
open integer

set_option maxRecDepth 8000

/-- C25: at every width `Bits > 0`, for all `x` and `y` in canonical form, `x + y`
and `x - y` are in canonical form and represent `val x + val y` and
`val x - val y` reduced modulo `2^Bits` into `[-2^(Bits-1), 2^(Bits-1))`; an
object in canonical form is determined by the number it represents. -/
theorem plus_minus_two_complement (Bits : Nat) (hB : 0 < Bits) (x y : integer Bits true)
    (hx : x.canonical) (hy : y.canonical) :
    (x.plus y).canonical ∧ (x.plus y).val = wrap Bits (x.val + y.val)
      ∧ (x.minus y).canonical ∧ (x.minus y).val = wrap Bits (x.val - y.val)
      ∧ (∀ z : Int, -2 ^ (Bits - 1) ≤ wrap Bits z ∧ wrap Bits z < 2 ^ (Bits - 1)
          ∧ wrap Bits z % 2 ^ Bits = z % 2 ^ Bits)
      ∧ (∀ a b : integer Bits true, a.canonical → b.canonical → a.val = b.val → a = b) := by
  obtain ⟨hpc, hp⟩ := plus_spec x y hB hx.1 hy.1
  obtain ⟨hmc, hm⟩ := minus_spec x y hB hx.1 hy.1
  refine ⟨hpc, ?_, hmc, ?_, fun z => ⟨(wrap_range Bits hB z).1, (wrap_range Bits hB z).2,
    wrap_emod Bits z⟩, fun a b ha hb h => canonical_ext a b ha hb h⟩
  · apply val_of_emod _ hB
    rw [hp, Int.add_emod, ← val_emod x, ← val_emod y, ← Int.add_emod]
  · apply val_of_emod _ hB
    rw [hm, Int.sub_emod, ← val_emod x, ← val_emod y, ← Int.sub_emod]

/-- A concrete instance, the sums and differences of `main` at `Bits = 100`:
`1 + (-9999)` across the carry into the upper words, `1 + (-1)` and `0 - 1`. -/
theorem plus_minus_two_complement_witness :
    ((ofInt32 1 : integer 100 true).plus (ofInt32 (-9999))).val
        = wrap 100 ((ofInt32 1 : integer 100 true).val + (ofInt32 (-9999) : integer 100 true).val)
      ∧ (ofInt32 1 : integer 100 true).plus (ofInt32 (-9999)) = ofInt32 (-9998)
      ∧ (ofInt32 1 : integer 100 true).plus (ofInt32 (-1)) = ofInt32 0
      ∧ (ofInt32 0 : integer 100 true).minus (ofInt32 1) = ofInt32 (-1)
      ∧ (ofInt32 (-9998) : integer 100 true).val = -9998 :=
  ⟨(plus_minus_two_complement 100 (by decide) (ofInt32 1) (ofInt32 (-9999)) (by decide)
      (by decide)).2.1, by decide, by decide, by decide, by decide⟩

end Integer

/-! ## The partial products of `operator *` -/

namespace Integer
open integer

variable {Bits : Nat} {IS_SIGNED : Bool}

theorem getD_set_ne_gen {α : Type} (l : List α) (i j : Nat) (v d : α) (h : i ≠ j) :
    (l.set i v).getD j d = l.getD j d := by
  simp [List.getD_eq_getElem?_getD, List.getElem?_set, h]

theorem getD_set_self_gen {α : Type} (l : List α) (i : Nat) (v d : α) (h : i < l.length) :
    (l.set i v).getD i d = v := by
  simp [List.getD_eq_getElem?_getD, List.getElem?_set, h]

theorem forUp_set {α : Type} (f : Nat → α) (d : α) (n : Nat) (l : List α) (hl : l.length = n) :
    (forUp (fun i (ps : List α) => ps.set i (f i)) n 0 l).length = n
      ∧ ∀ i, i < n → (forUp (fun i (ps : List α) => ps.set i (f i)) n 0 l).getD i d = f i := by
  have key := forUp_inv
    (fun i (ps : List α) => ps.length = n ∧ ∀ j, j < i → ps.getD j d = f j)
    (fun i (ps : List α) => ps.set i (f i)) n 0 l ⟨hl, fun j hj => by omega⟩
    (by
      rintro j ps _ hlt ⟨hlen, hp⟩
      refine ⟨by simpa using hlen, fun i hi => ?_⟩
      by_cases hij : i = j
      · subst hij
        exact getD_set_self_gen _ _ _ _ (by omega)
      · rw [getD_set_ne_gen _ _ _ _ _ (fun h => hij h.symm)]
        exact hp i (by omega))
  rw [Nat.zero_add] at key
  exact key

theorem toNat_take_all (l : List Nat) (n : Nat) (h : l.length = n) : toNat (l.take n) = toNat l := by
  rw [← h, List.take_length]

theorem toNat_take_drop (l : List Nat) (m : Nat) (h : m ≤ l.length) :
    toNat l = toNat (l.take m) + 2 ^ (32 * m) * toNat (l.drop m) := by
  conv_lhs => rw [← List.take_append_drop m l]
  rw [toNat_append, List.length_take, Nat.min_eq_left h]

/-- The array `carry` of `operator *` for the word `a` of `x`. -/
theorem carry_spec (a : Nat) (ha : a < 2 ^ 32) (y : integer Bits IS_SIGNED) (hy : y.wf) :
    (forUp (fun j (c : List Nat) => c.set j ((a * y.ints.getD j 0) % 2 ^ 64))
        (NUM_INTS Bits) 0 (List.replicate (NUM_INTS Bits + 1) 0)).length = NUM_INTS Bits + 1
      ∧ (∀ w ∈ forUp (fun j (c : List Nat) => c.set j ((a * y.ints.getD j 0) % 2 ^ 64))
          (NUM_INTS Bits) 0 (List.replicate (NUM_INTS Bits + 1) 0), w < 18446744065119617026)
      ∧ toNat (forUp (fun j (c : List Nat) => c.set j ((a * y.ints.getD j 0) % 2 ^ 64))
          (NUM_INTS Bits) 0 (List.replicate (NUM_INTS Bits + 1) 0)) = a * toNat y.ints := by
  have key := forUp_inv
    (fun j (c : List Nat) =>
      c.length = NUM_INTS Bits + 1 ∧ (∀ w ∈ c, w < 18446744065119617026)
        ∧ (∀ i, j ≤ i → c.getD i 0 = 0) ∧ toNat c = a * toNat (y.ints.take j))
    (fun j (c : List Nat) => c.set j ((a * y.ints.getD j 0) % 2 ^ 64))
    (NUM_INTS Bits) 0 (List.replicate (NUM_INTS Bits + 1) 0)
    ⟨by simp, by
      intro w hw
      rw [List.eq_of_mem_replicate hw]
      norm_num, by
      intro i _
      by_cases h : i < NUM_INTS Bits + 1
      · rw [List.getD_eq_getElem _ _ (by simpa using h)]; simp
      · rw [List.getD_eq_default _ _ (by simpa using h)], by
      simp [toNat_replicate_zero, toNat]⟩
    (by
      rintro j c _ hlt ⟨hlen, hw, hz, heq⟩
      beta_reduce
      have hyj : y.ints.getD j 0 < 2 ^ 32 := getD_lt _ _ _ hy.2 (by norm_num)
      have hprod : a * y.ints.getD j 0 ≤ 4294967295 * 4294967295 :=
        Nat.mul_le_mul (by omega) (by omega)
      rw [Nat.mod_eq_of_lt (by omega)]
      have hset := toNat_set c j (a * y.ints.getD j 0) (by omega)
      rw [hz j (Nat.le_refl j)] at hset
      have htake := toNat_take_succ y.ints j (by rw [hy.1]; omega)
      refine ⟨by simpa using hlen, mem_set_lt _ _ _ _ hw (by omega), ?_, ?_⟩
      · intro i hi
        rw [getD_set_ne _ _ _ _ (by omega)]
        exact hz i (by omega)
      · rw [htake, Nat.mul_add, ← heq]
        have : a * (2 ^ (32 * j) * y.ints.getD j 0) = 2 ^ (32 * j) * (a * y.ints.getD j 0) := by
          ring
        omega)
  rw [Nat.zero_add] at key
  obtain ⟨hlen, hw, _, heq⟩ := key
  exact ⟨hlen, hw, by rw [heq, toNat_take_all _ _ hy.1]⟩

theorem ofCarry_spec (carry : List Nat) (hB : 0 < Bits) (hlen : carry.length = NUM_INTS Bits + 1)
    (hw : ∀ w ∈ carry, w < 18446744065119617026) :
    (ofCarry carry : integer Bits IS_SIGNED).canonical
      ∧ ((toNat (ofCarry carry : integer Bits IS_SIGNED).ints : ℕ) : ℤ) % 2 ^ Bits
          = ((toNat carry : ℕ) : ℤ) % 2 ^ Bits := by
  have key := forUp_inv
    (fun i (st : List Nat × List Nat) =>
      st.1.length = NUM_INTS Bits ∧ (∀ w ∈ st.1, w < 2 ^ 32) ∧ (∀ j, i ≤ j → st.1.getD j 0 = 0)
        ∧ st.2.length = NUM_INTS Bits + 1 ∧ (∀ j, i < j → st.2.getD j 0 = carry.getD j 0)
        ∧ st.2.getD i 0 < 18446744069414584321
        ∧ toNat st.1 + 2 ^ (32 * i) * st.2.getD i 0 = toNat (carry.take (i + 1)))
    (fun i (st : List Nat × List Nat) =>
      (st.1.set i (st.2.getD i 0 % 2 ^ 32),
       st.2.set (i + 1) ((st.2.getD (i + 1) 0 + (st.2.getD i 0 >>> 32) % 2 ^ 32) % 2 ^ 64)))
    (NUM_INTS Bits) 0 ((zero : integer Bits IS_SIGNED).ints, carry)
    ⟨(@zero_wf Bits IS_SIGNED).1, (@zero_wf Bits IS_SIGNED).2,
      fun j _ => @zero_getD Bits IS_SIGNED j, hlen, fun j _ => rfl, by
      have := getD_lt carry 0 _ hw (by norm_num)
      simp only
      omega, by
      have := toNat_take_succ carry 0 (by omega)
      simp only [@zero_toNat Bits IS_SIGNED, Nat.zero_add, Nat.mul_zero, pow_zero, Nat.one_mul]
      rw [this]
      simp [toNat]⟩
    (by
      rintro i ⟨ints, cr⟩ _ hlt ⟨hil, hiw, hiz, hcl, hcz, hcb, heq⟩
      simp only at hil hiw hiz hcl hcz hcb heq ⊢
      rw [Nat.shiftRight_eq_div_pow]
      have hc1 : carry.getD (i + 1) 0 < 18446744065119617026 := getD_lt _ _ _ hw (by norm_num)
      have hdiv : cr.getD i 0 / 2 ^ 32 < 2 ^ 32 := by omega
      rw [Nat.mod_eq_of_lt hdiv, hcz (i + 1) (by omega),
        Nat.mod_eq_of_lt (show carry.getD (i + 1) 0 + cr.getD i 0 / 2 ^ 32 < 2 ^ 64 by omega)]
      have hset := toNat_set ints i (cr.getD i 0 % 2 ^ 32) (by omega)
      rw [hiz i (Nat.le_refl i)] at hset
      have htake := toNat_take_succ carry (i + 1) (by omega)
      have hdm := Nat.mod_add_div (cr.getD i 0) (2 ^ 32)
      refine ⟨by simpa using hil, mem_set_lt _ _ _ _ hiw (Nat.mod_lt _ (Nat.two_pow_pos 32)), ?_,
        by simpa using hcl, ?_, ?_, ?_⟩
      · intro j hj
        rw [getD_set_ne _ _ _ _ (by omega)]
        exact hiz j (by omega)
      · intro j hj
        rw [getD_set_ne _ _ _ _ (by omega)]
        exact hcz j (by omega)
      · rw [getD_set_self _ _ _ (by omega)]
        omega
      · rw [getD_set_self _ _ _ (by omega), htake, ← heq,
          show 32 * (i + 1) = 32 * i + 32 by ring, pow_add, Nat.mul_add]
        have e : 2 ^ (32 * i) * (cr.getD i 0 % 2 ^ 32)
            + 2 ^ (32 * i) * 2 ^ 32 * (cr.getD i 0 / 2 ^ 32) = 2 ^ (32 * i) * cr.getD i 0 := by
          conv_rhs => rw [← hdm]
          ring
        omega)
  rw [Nat.zero_add] at key
  obtain ⟨hil, hiw, _, hcl, _, _, heq⟩ := key
  rw [toNat_take_all _ _ hlen] at heq
  have hs := @extend_sign_spec Bits IS_SIGNED ⟨_⟩ hB ⟨hil, hiw⟩
  refine ⟨hs.1, ?_⟩
  have h1 := emod_of_add_mul Bits _ (bits_le Bits) _ _ _ heq
  rw [← h1]
  exact_mod_cast congrArg (fun m : ℕ => (m : ℤ)) hs.2

end Integer

/-! ## The sum of the partial products, and the sign of the product -/

namespace Integer
open integer

variable {Bits : Nat} {IS_SIGNED : Bool}

theorem products_spec (x y : integer Bits IS_SIGNED) (hB : 0 < Bits) (hx : x.wf) (hy : y.wf)
    (i : Nat) (hi : i < NUM_INTS Bits) :
    ((products x y).getD i zero).canonical
      ∧ ((toNat ((products x y).getD i zero).ints : ℕ) : ℤ) % 2 ^ Bits
          = ((x.ints.getD i 0 : ℕ) : ℤ) * ((toNat y.ints : ℕ) : ℤ) % 2 ^ Bits := by
  have h := (forUp_set
    (fun i => (ofCarry (forUp (fun j (c : List Nat) => c.set j ((x.ints.getD i 0 * y.ints.getD j 0) % 2 ^ 64))
        (NUM_INTS Bits) 0 (List.replicate (NUM_INTS Bits + 1) 0)) : integer Bits IS_SIGNED))
    zero (NUM_INTS Bits) (List.replicate (NUM_INTS Bits) zero) (by simp)).2 i hi
  have e : (products x y).getD i zero
      = (ofCarry (forUp (fun j (c : List Nat) => c.set j ((x.ints.getD i 0 * y.ints.getD j 0) % 2 ^ 64))
        (NUM_INTS Bits) 0 (List.replicate (NUM_INTS Bits + 1) 0)) : integer Bits IS_SIGNED) := h
  rw [e]
  obtain ⟨hl, hw, ht⟩ := carry_spec (x.ints.getD i 0) (getD_lt _ _ _ hx.2 (by norm_num)) y hy
  obtain ⟨hc, hv⟩ := @ofCarry_spec Bits IS_SIGNED _ hB hl hw
  refine ⟨hc, ?_⟩
  rw [hv, ht]
  push_cast
  rfl

theorem sum_spec (x y : integer Bits IS_SIGNED) (hB : 0 < Bits) (hx : x.wf) (hy : y.wf) :
    (forUp (fun i (sum : integer Bits IS_SIGNED) => sum.add ((products x y).getD i zero) i)
        (NUM_INTS Bits) 0 zero).wf
      ∧ ((toNat (forUp (fun i (sum : integer Bits IS_SIGNED) =>
            sum.add ((products x y).getD i zero) i) (NUM_INTS Bits) 0 zero).ints : ℕ) : ℤ)
          % 2 ^ Bits
          = ((toNat x.ints : ℕ) : ℤ) * ((toNat y.ints : ℕ) : ℤ) % 2 ^ Bits := by
  have key := forUp_inv
    (fun i (sum : integer Bits IS_SIGNED) =>
      sum.wf ∧ ((toNat sum.ints : ℕ) : ℤ) % 2 ^ Bits
        = ((toNat (x.ints.take i) : ℕ) : ℤ) * ((toNat y.ints : ℕ) : ℤ) % 2 ^ Bits)
    (fun i (sum : integer Bits IS_SIGNED) => sum.add ((products x y).getD i zero) i)
    (NUM_INTS Bits) 0 zero
    ⟨zero_wf, by simp [zero_toNat, toNat]⟩
    (by
      rintro i sum _ hlt ⟨hwf, heq⟩
      beta_reduce
      obtain ⟨hpc, hpv⟩ := products_spec x y hB hx hy i (by omega)
      obtain ⟨hwf', c, hc⟩ := add_spec sum ((products x y).getD i zero) i hwf hpc.1 (by omega)
      refine ⟨hwf', ?_⟩
      have htd := toNat_take_drop ((products x y).getD i zero).ints (NUM_INTS Bits - i)
        (by rw [hpc.1.1]; omega)
      have hpow : (2:ℕ) ^ (32 * i) * 2 ^ (32 * (NUM_INTS Bits - i)) = 2 ^ (32 * NUM_INTS Bits) := by
        rw [← pow_add, show 32 * i + 32 * (NUM_INTS Bits - i) = 32 * NUM_INTS Bits by omega]
      have h1 : toNat (sum.add ((products x y).getD i zero) i).ints
          + 2 ^ (32 * NUM_INTS Bits)
            * (c + toNat (((products x y).getD i zero).ints.drop (NUM_INTS Bits - i)))
          = toNat sum.ints + 2 ^ (32 * i) * toNat ((products x y).getD i zero).ints := by
        rw [htd, Nat.mul_add, Nat.mul_add, ← Nat.mul_assoc, hpow]
        omega
      have h2 := emod_of_add_mul Bits _ (bits_le Bits) _ _ _ h1
      have htake := toNat_take_succ x.ints i (by rw [hx.1]; omega)
      rw [h2, htake]
      push_cast
      have m1 : Int.ModEq (2 ^ Bits) ((toNat sum.ints : ℕ) : ℤ)
          (((toNat (x.ints.take i) : ℕ) : ℤ) * ((toNat y.ints : ℕ) : ℤ)) := heq
      have m2 : Int.ModEq (2 ^ Bits) ((toNat ((products x y).getD i zero).ints : ℕ) : ℤ)
          (((x.ints.getD i 0 : ℕ) : ℤ) * ((toNat y.ints : ℕ) : ℤ)) := hpv
      have m3 := m1.add (m2.mul_left ((2:ℤ) ^ (32 * i)))
      have e : ((toNat (x.ints.take i) : ℕ) : ℤ) * ((toNat y.ints : ℕ) : ℤ)
            + (2:ℤ) ^ (32 * i) * (((x.ints.getD i 0 : ℕ) : ℤ) * ((toNat y.ints : ℕ) : ℤ))
          = (((toNat (x.ints.take i) : ℕ) : ℤ) + (2:ℤ) ^ (32 * i) * ((x.ints.getD i 0 : ℕ) : ℤ))
            * ((toNat y.ints : ℕ) : ℤ) := by ring
      rw [e] at m3
      exact m3)
  rw [Nat.zero_add, toNat_take_all _ _ hx.1] at key
  exact key

theorem abs_spec (x : integer Bits IS_SIGNED) (hB : 0 < Bits) (hx : x.wf) :
    x.abs.wf ∧ ∃ s : ℤ, s * s = 1 ∧ (x.is_negative = true ↔ s = -1)
      ∧ ((toNat x.abs.ints : ℕ) : ℤ) % 2 ^ Bits = s * ((toNat x.ints : ℕ) : ℤ) % 2 ^ Bits := by
  unfold integer.abs
  by_cases h : x.is_negative = true
  · rw [if_pos h]
    obtain ⟨hc, hv⟩ := neg_spec x hB hx
    exact ⟨hc.1, -1, by norm_num, by simp [h], by rw [hv]; simp⟩
  · rw [if_neg h]
    exact ⟨hx, 1, by norm_num, by simp [h], by simp⟩

theorem mul_spec (x y : integer Bits IS_SIGNED) (hB : 0 < Bits) (hx : x.wf) (hy : y.wf) :
    (x.mul y).canonical
      ∧ ((toNat (x.mul y).ints : ℕ) : ℤ) % 2 ^ Bits
          = ((toNat x.ints : ℕ) : ℤ) * ((toNat y.ints : ℕ) : ℤ) % 2 ^ Bits := by
  obtain ⟨hax, sx, hsx, hnx, hvx⟩ := abs_spec x hB hx
  obtain ⟨hay, sy, hsy, hny, hvy⟩ := abs_spec y hB hy
  obtain ⟨hsw, hsv⟩ := sum_spec x.abs y.abs hB hax hay
  obtain ⟨hec, hev⟩ := extend_sign_spec _ hB hsw
  have hev' : ((toNat (forUp (fun i (sum : integer Bits IS_SIGNED) =>
      sum.add ((products x.abs y.abs).getD i zero) i) (NUM_INTS Bits) 0 zero).extend_sign.ints : ℕ) : ℤ)
      % 2 ^ Bits = (sx * ((toNat x.ints : ℕ) : ℤ)) * (sy * ((toNat y.ints : ℕ) : ℤ)) % 2 ^ Bits := by
    have h0 : ((toNat (forUp (fun i (sum : integer Bits IS_SIGNED) =>
      sum.add ((products x.abs y.abs).getD i zero) i) (NUM_INTS Bits) 0 zero).extend_sign.ints : ℕ) : ℤ)
      % 2 ^ Bits = ((toNat (forUp (fun i (sum : integer Bits IS_SIGNED) =>
      sum.add ((products x.abs y.abs).getD i zero) i) (NUM_INTS Bits) 0 zero).ints : ℕ) : ℤ)
      % 2 ^ Bits := by
      exact_mod_cast congrArg (fun m : ℕ => (m : ℤ)) hev
    rw [h0, hsv]
    exact Int.ModEq.mul hvx hvy
  have hsxc : sx = 1 ∨ sx = -1 := by
    have : (sx - 1) * (sx + 1) = 0 := by ring_nf; linarith
    rcases mul_eq_zero.mp this with h | h
    · left; linarith
    · right; linarith
  have hsyc : sy = 1 ∨ sy = -1 := by
    have : (sy - 1) * (sy + 1) = 0 := by ring_nf; linarith
    rcases mul_eq_zero.mp this with h | h
    · left; linarith
    · right; linarith
  unfold integer.mul
  simp only
  by_cases hneg : (x.is_negative != y.is_negative) = true
  · rw [if_pos hneg]
    obtain ⟨hnc, hnv⟩ := neg_spec _ hB hec.1
    refine ⟨hnc, ?_⟩
    rw [hnv]
    have hsig : sx * sy = -1 := by
      rcases hsxc with h1 | h1 <;> rcases hsyc with h2 | h2
      · have a1 : x.is_negative ≠ true := fun h => by have := hnx.mp h; omega
        have a2 : y.is_negative ≠ true := fun h => by have := hny.mp h; omega
        simp [a1, a2] at hneg
      · rw [h1, h2]; norm_num
      · rw [h1, h2]; norm_num
      · have a1 : x.is_negative = true := hnx.mpr h1
        have a2 : y.is_negative = true := hny.mpr h2
        simp [a1, a2] at hneg
    have m1 : Int.ModEq (2 ^ Bits) _ _ := hev'
    have m2 := m1.neg
    have e : -(sx * ((toNat x.ints : ℕ) : ℤ) * (sy * ((toNat y.ints : ℕ) : ℤ)))
        = ((toNat x.ints : ℕ) : ℤ) * ((toNat y.ints : ℕ) : ℤ) := by
      have : -(sx * ((toNat x.ints : ℕ) : ℤ) * (sy * ((toNat y.ints : ℕ) : ℤ)))
          = -(sx * sy) * (((toNat x.ints : ℕ) : ℤ) * ((toNat y.ints : ℕ) : ℤ)) := by ring
      rw [this, hsig]; ring
    rw [e] at m2
    exact m2
  · rw [if_neg hneg]
    refine ⟨hec, ?_⟩
    rw [hev']
    have hsig : sx * sy = 1 := by
      rcases hsxc with h1 | h1 <;> rcases hsyc with h2 | h2
      · rw [h1, h2]; norm_num
      · have a1 : x.is_negative ≠ true := fun h => by have := hnx.mp h; omega
        have a2 : y.is_negative = true := hny.mpr h2
        simp [a1, a2] at hneg
      · have a1 : x.is_negative = true := hnx.mpr h1
        have a2 : y.is_negative ≠ true := fun h => by have := hny.mp h; omega
        simp [a1, a2] at hneg
      · rw [h1, h2]; norm_num
    have : sx * ((toNat x.ints : ℕ) : ℤ) * (sy * ((toNat y.ints : ℕ) : ℤ))
        = (sx * sy) * (((toNat x.ints : ℕ) : ℤ) * ((toNat y.ints : ℕ) : ℤ)) := by ring
    rw [this, hsig, one_mul]

end Integer

/-! ## Product -/

namespace Integer
open integer

set_option maxRecDepth 8000

/-- C26: at every width `Bits > 0`, for all `x` and `y` in canonical form, of any
signs and any number of words, `x * y` is in canonical form and represents
`val x * val y` reduced modulo `2^Bits` into `[-2^(Bits-1), 2^(Bits-1))`. -/
theorem mul_exact_modulo (Bits : Nat) (hB : 0 < Bits) (x y : integer Bits true)
    (hx : x.canonical) (hy : y.canonical) :
    (x.mul y).canonical ∧ (x.mul y).val = wrap Bits (x.val * y.val)
      ∧ -2 ^ (Bits - 1) ≤ (x.mul y).val ∧ (x.mul y).val < 2 ^ (Bits - 1) := by
  obtain ⟨hc, hv⟩ := mul_spec x y hB hx.1 hy.1
  have h : (x.mul y).val = wrap Bits (x.val * y.val) := by
    apply val_of_emod _ hB
    rw [hv, Int.mul_emod, ← val_emod x, ← val_emod y, ← Int.mul_emod]
  refine ⟨hc, h, ?_, ?_⟩
  · rw [h]; exact (wrap_range Bits hB _).1
  · rw [h]; exact (wrap_range Bits hB _).2

/-- A concrete instance, the products of `main` at `Bits = 100`: the cube of
`INT_MAX`, whose factors and result span several words, `(-1) * (-1)` and
`1 * (-1)`. -/
theorem mul_exact_modulo_witness :
    (((ofInt32 2147483647 : integer 100 true).mul (ofInt32 2147483647)).mul
        (ofInt32 2147483647)).val
        = wrap 100 (((ofInt32 2147483647 : integer 100 true).mul (ofInt32 2147483647)).val
            * (ofInt32 2147483647 : integer 100 true).val)
      ∧ (((ofInt32 2147483647 : integer 100 true).mul (ofInt32 2147483647)).mul
          (ofInt32 2147483647)).val = 9903520300447984150353281023
      ∧ (ofInt32 (-1) : integer 100 true).mul (ofInt32 (-1)) = ofInt32 1
      ∧ (ofInt32 1 : integer 100 true).mul (ofInt32 (-1)) = ofInt32 (-1) :=
  ⟨(mul_exact_modulo 100 (by decide)
      ((ofInt32 2147483647 : integer 100 true).mul (ofInt32 2147483647)) (ofInt32 2147483647)
      (by decide) (by decide)).2.1, by decide, by decide, by decide⟩

end Integer

/-! ## Strings of decimal digits -/

namespace Integer
open integer

theorem decimal_append_singleton (l : string) (c : Nat) :
    decimal (l ++ [c]) = 10 * decimal l + (c - 48) := by
  simp [decimal, List.foldl_append]

theorem decimal_foldl (l : string) (a : Nat) :
    l.foldl (fun acc c => 10 * acc + (c - 48)) a = a * 10 ^ l.length + decimal l := by
  induction l generalizing a with
  | nil => simp [decimal]
  | cons c l ih =>
    simp only [List.foldl_cons, decimal, List.length_cons]
    rw [ih, ih (10 * 0 + (c - 48))]
    ring

theorem decimal_cons (c : Nat) (l : string) :
    decimal (c :: l) = (c - 48) * 10 ^ l.length + decimal l := by
  have := decimal_foldl l (10 * 0 + (c - 48))
  simp only [Nat.mul_zero, Nat.zero_add] at this
  simpa [decimal] using this

theorem decimal_nil : decimal [] = 0 := rfl

theorem decimal_append (a b : string) :
    decimal (a ++ b) = decimal a * 10 ^ b.length + decimal b := by
  unfold decimal
  rw [List.foldl_append, decimal_foldl]
  rfl

theorem decimal_take_succ (l : string) (i : Nat) (h : i < l.length) :
    decimal (l.take (i + 1)) = 10 * decimal (l.take i) + (l.getD i 0 - 48) := by
  rw [List.take_succ, decimal_append]
  simp [List.getElem?_eq_getElem h, List.getD_eq_getElem _ _ h, decimal_cons, decimal_nil]
  ring

theorem decimal_lt (l : string) (h : isDigits l) : decimal l < 10 ^ l.length := by
  induction l with
  | nil => simp [decimal]
  | cons c l ih =>
    have hc := h c (List.mem_cons_self _ _)
    have := ih (fun d hd => h d (List.mem_cons_of_mem _ hd))
    rw [decimal_cons, List.length_cons, pow_succ]
    have : (c - 48) * 10 ^ l.length ≤ 9 * 10 ^ l.length := Nat.mul_le_mul_right _ (by omega)
    omega

theorem decimal_set (l : string) (i v : Nat) (h : i < l.length) :
    decimal (l.set i v) + (l.getD i 0 - 48) * 10 ^ (l.length - 1 - i)
      = decimal l + (v - 48) * 10 ^ (l.length - 1 - i) := by
  induction l generalizing i with
  | nil => simp at h
  | cons c l ih =>
    cases i with
    | zero =>
      simp only [List.set_cons_zero, decimal_cons, List.getD_cons_zero, List.length_cons]
      rw [show l.length + 1 - 1 - 0 = l.length by omega]
      omega
    | succ i =>
      have := ih i (by simpa using h)
      simp only [List.set_cons_succ, decimal_cons, List.getD_cons_succ, List.length_cons,
        List.length_set]
      rw [show l.length + 1 - 1 - (i + 1) = l.length - 1 - i by omega]
      omega

theorem decimal_replicate_zero (n : Nat) : decimal (List.replicate n 48) = 0 := by
  induction n with
  | zero => rfl
  | succ n ih => rw [List.replicate_succ, decimal_cons, ih]; simp

theorem find_first_not_of_none (c : Nat) (s : string) (h : find_first_not_of c s = none) :
    ∀ a ∈ s, a = c := by
  induction s with
  | nil => simp
  | cons a s ih =>
    unfold find_first_not_of at h
    by_cases hac : a ≠ c
    · rw [if_pos hac] at h
      cases h
    · rw [if_neg hac, Option.map_eq_none'] at h
      intro b hb
      rcases List.mem_cons.mp hb with h1 | h1
      · rw [h1]; exact not_not.mp hac
      · exact ih h b h1

theorem find_first_not_of_some (c : Nat) (s : string) (p : Nat)
    (h : find_first_not_of c s = some p) :
    p < s.length ∧ s.getD p 0 ≠ c ∧ s.take p = List.replicate p c := by
  induction s generalizing p with
  | nil => simp [find_first_not_of] at h
  | cons a s ih =>
    unfold find_first_not_of at h
    by_cases hac : a ≠ c
    · rw [if_pos hac, Option.some.injEq] at h
      subst h
      exact ⟨by simp, by simpa using hac, by simp⟩
    · rw [if_neg hac, Option.map_eq_some'] at h
      obtain ⟨q, hq, rfl⟩ := h
      obtain ⟨h1, h2, h3⟩ := ih q hq
      refine ⟨by simpa using h1, by simpa using h2, ?_⟩
      rw [List.take_succ_cons, h3, List.replicate_succ, not_not.mp hac]

theorem find_first_not_of_head (c : Nat) (a : Nat) (s : string) (h : a ≠ c) :
    find_first_not_of c (a :: s) = some 0 := by
  simp [find_first_not_of, h]

theorem isDigits_drop (s : string) (n : Nat) (h : isDigits s) : isDigits (s.drop n) :=
  fun c hc => h c (List.mem_of_mem_drop hc)

theorem isDigits_take (s : string) (n : Nat) (h : isDigits s) : isDigits (s.take n) :=
  fun c hc => h c (List.mem_of_mem_take hc)

theorem ltrim_spec (s : string) (hne : s ≠ []) (hd : isDigits s) :
    isNumeral (ltrim s 48) ∧ decimal (ltrim s 48) = decimal s := by
  unfold ltrim
  cases hf : find_first_not_of 48 s with
  | none =>
    have hall := find_first_not_of_none 48 s hf
    have hs : s = List.replicate s.length 48 := List.eq_replicate_iff.mpr ⟨rfl, hall⟩
    have hlen : 0 < s.length := List.length_pos.mpr hne
    have hdrop : s.drop (s.length - 1) = [48] := by
      rw [hs, List.drop_replicate, List.length_replicate,
        show s.length - (s.length - 1) = 1 by omega]
      rfl
    simp only [hdrop]
    refine ⟨⟨by simp, by intro c hc; simp at hc; omega, fun _ => rfl⟩, ?_⟩
    rw [hs, decimal_replicate_zero]
    rfl
  | some p =>
    obtain ⟨h1, h2, h3⟩ := find_first_not_of_some 48 s p hf
    simp only
    have hsplit : s = List.replicate p 48 ++ s.drop p := by
      conv_lhs => rw [← List.take_append_drop p s, h3]
    have hdp : s.drop p = s.getD p 0 :: s.drop (p + 1) := by
      rw [List.getD_eq_getElem _ _ h1]
      exact List.drop_eq_getElem_cons h1
    refine ⟨⟨by rw [hdp]; simp, isDigits_drop s p hd, ?_⟩, ?_⟩
    · intro hh
      rw [hdp, List.head?_cons, Option.some.injEq] at hh
      exact absurd hh h2
    · conv_rhs => rw [hsplit, decimal_append, decimal_replicate_zero]
      simp

theorem numeral_bounds (s : string) (hs : isNumeral s) (h : s ≠ [48]) :
    10 ^ (s.length - 1) ≤ decimal s ∧ decimal s < 10 ^ s.length := by
  obtain ⟨hne, hd, hz⟩ := hs
  refine ⟨?_, decimal_lt s hd⟩
  cases s with
  | nil => exact absurd rfl hne
  | cons c l =>
    have hc := hd c (List.mem_cons_self _ _)
    have hc48 : c ≠ 48 := by
      intro h48
      exact h (hz (by simp [h48]))
    rw [decimal_cons]
    simp only [List.length_cons, Nat.add_sub_cancel]
    have : 1 * 10 ^ l.length ≤ (c - 48) * 10 ^ l.length := Nat.mul_le_mul_right _ (by omega)
    omega

theorem decimal_inj_of_length : ∀ (a b : string), a.length = b.length → isDigits a →
    isDigits b → decimal a = decimal b → a = b
  | [], [], _, _, _, _ => rfl
  | [], _ :: _, h, _, _, _ => by simp at h
  | _ :: _, [], h, _, _, _ => by simp at h
  | c :: a, d :: b, hl, ha, hb, h => by
    have hc := ha c (List.mem_cons_self _ _)
    have hd := hb d (List.mem_cons_self _ _)
    have ha' : isDigits a := fun u hu => ha u (List.mem_cons_of_mem _ hu)
    have hb' : isDigits b := fun u hu => hb u (List.mem_cons_of_mem _ hu)
    have hlen : a.length = b.length := by simpa using hl
    have h1 := decimal_lt a ha'
    have h2 := decimal_lt b hb'
    rw [decimal_cons, decimal_cons, hlen] at h
    rw [hlen] at h1
    have hcd : c - 48 = d - 48 := by
      by_contra hne
      rcases Nat.lt_or_gt_of_ne hne with hlt | hlt
      · have : (c - 48 + 1) * 10 ^ b.length ≤ (d - 48) * 10 ^ b.length :=
          Nat.mul_le_mul_right _ hlt
        rw [Nat.add_mul] at this
        omega
      · have : (d - 48 + 1) * 10 ^ b.length ≤ (c - 48) * 10 ^ b.length :=
          Nat.mul_le_mul_right _ hlt
        rw [Nat.add_mul] at this
        omega
    have hcd' : c = d := by omega
    rw [hcd] at h
    have hab : decimal a = decimal b := by omega
    rw [hcd', decimal_inj_of_length a b hlen ha' hb' hab]

theorem numeral_unique (a b : string) (ha : isNumeral a) (hb : isNumeral b)
    (h : decimal a = decimal b) : a = b := by
  by_cases ha0 : a = [48]
  · by_cases hb0 : b = [48]
    · rw [ha0, hb0]
    · have := (numeral_bounds b hb hb0).1
      rw [← h, ha0] at this
      have hp : 0 < 10 ^ (b.length - 1) := by positivity
      simp [decimal] at this
  · by_cases hb0 : b = [48]
    · have := (numeral_bounds a ha ha0).1
      rw [h, hb0] at this
      have hp : 0 < 10 ^ (a.length - 1) := by positivity
      simp [decimal] at this
    · obtain ⟨a1, a2⟩ := numeral_bounds a ha ha0
      obtain ⟨b1, b2⟩ := numeral_bounds b hb hb0
      have hla : 0 < a.length := List.length_pos.mpr ha.1
      have hlb : 0 < b.length := List.length_pos.mpr hb.1
      have h1 : a.length - 1 < b.length := by
        by_contra hc
        have : 10 ^ b.length ≤ 10 ^ (a.length - 1) :=
          Nat.pow_le_pow_right (by norm_num) (by omega)
        omega
      have h2 : b.length - 1 < a.length := by
        by_contra hc
        have : 10 ^ a.length ≤ 10 ^ (b.length - 1) :=
          Nat.pow_le_pow_right (by norm_num) (by omega)
        omega
      exact decimal_inj_of_length a b (by omega) ha.2.1 hb.2.1 h

end Integer

/-! ## The function `lex_div2` -/

namespace Integer
open integer

theorem take_set_succ {α : Type} (l : List α) (k : Nat) (v : α) (h : k < l.length) :
    (l.set k v).take (k + 1) = l.take k ++ [v] := by
  induction l generalizing k with
  | nil => simp at h
  | cons a l ih =>
    cases k with
    | zero => simp
    | succ k =>
      simp only [List.set_cons_succ, List.take_succ_cons, List.cons_append]
      rw [ih k (by simpa using h)]

theorem take_set_of_le {α : Type} (l : List α) (k m : Nat) (v : α) (h : m ≤ k) :
    (l.set k v).take m = l.take m := by
  induction l generalizing k m with
  | nil => simp
  | cons a l ih =>
    cases k with
    | zero =>
      have : m = 0 := by omega
      subst this
      simp
    | succ k =>
      cases m with
      | zero => simp
      | succ m =>
        simp only [List.set_cons_succ, List.take_succ_cons]
        rw [ih k m (by omega)]

theorem isDigits_append (a b : string) (ha : isDigits a) (hb : isDigits b) : isDigits (a ++ b) := by
  intro c hc
  rcases List.mem_append.mp hc with h | h
  · exact ha c h
  · exact hb c h

theorem head_ne_zero_of_ge (d : string) (hd : isDigits d)
    (h : d ≠ [] → 10 ^ (d.length - 1) ≤ decimal d) : d.head? ≠ some 48 := by
  cases d with
  | nil => simp
  | cons c l =>
    intro hc
    simp only [List.head?_cons, Option.some.injEq] at hc
    have h1 := h (by simp)
    have h2 := decimal_lt l (fun u hu => hd u (List.mem_cons_of_mem _ hu))
    rw [decimal_cons, hc] at h1
    simp at h1
    omega

theorem div2_loop_spec (s : string) (hd : isDigits s) (ws : Bool)
    (hws : ws = true → s.getD 0 0 = 49 ∧ s ≠ []) :
    ∃ r : string × Nat, forUp (fun i (st : string × Nat) =>
        (if 0 < i || !ws then st.1.set (i - ws.toNat) ((s.getD i 0 - 48 + st.2 * 10) / 2 + 48)
          else st.1, (s.getD i 0 - 48 + st.2 * 10) &&& 1))
        s.length 0 (List.replicate (s.length - ws.toNat) 0, 0) = r
      ∧ r.1.length = s.length - ws.toNat ∧ isDigits r.1 ∧ r.2 ≤ 1
      ∧ 2 * decimal r.1 + r.2 = decimal s := by
  have key := forUp_inv
    (fun i (st : string × Nat) =>
      st.1.length = s.length - ws.toNat ∧ isDigits (st.1.take (i - ws.toNat)) ∧ st.2 ≤ 1
        ∧ 2 * decimal (st.1.take (i - ws.toNat)) + st.2 = decimal (s.take i))
    (fun i (st : string × Nat) =>
        (if 0 < i || !ws then st.1.set (i - ws.toNat) ((s.getD i 0 - 48 + st.2 * 10) / 2 + 48)
          else st.1, (s.getD i 0 - 48 + st.2 * 10) &&& 1))
    s.length 0 (List.replicate (s.length - ws.toNat) 0, 0)
    ⟨by simp, by intro c hc; simp at hc, by simp, by simp [decimal]⟩
    (by
      rintro i ⟨d, carry⟩ _ hlt ⟨hlen, hdig, hc, heq⟩
      simp only at hlen hdig hc heq ⊢
      have hsi : 48 ≤ s.getD i 0 ∧ s.getD i 0 ≤ 57 := by
        rw [List.getD_eq_getElem _ _ (by omega)]
        exact hd _ (List.getElem_mem _)
      have htake := decimal_take_succ s i (by omega)
      rw [Nat.and_one_is_mod]
      by_cases hcase : (decide (0 < i) || !ws) = true
      · rw [if_pos hcase]
        have hk : i + 1 - ws.toNat = i - ws.toNat + 1 := by
          cases ws with
          | false => simp
          | true =>
            simp only [Bool.not_true, Bool.or_false, decide_eq_true_eq] at hcase
            simp only [Bool.toNat_true]
            omega
        have hkl : i - ws.toNat < d.length := by
          rw [hlen]
          cases ws with
          | false => simp; omega
          | true =>
            simp only [Bool.not_true, Bool.or_false, decide_eq_true_eq] at hcase
            simp only [Bool.toNat_true]
            omega
        rw [hk, take_set_succ _ _ _ hkl]
        refine ⟨by simpa using hlen, ?_, by omega, ?_⟩
        · apply isDigits_append _ _ hdig
          intro c hc'
          simp only [List.mem_singleton] at hc'
          omega
        · rw [decimal_append_singleton, htake]
          omega
      · rw [if_neg hcase]
        have hi0 : i = 0 ∧ ws = true := by
          cases ws with
          | false => simp at hcase
          | true => simpa using hcase
        obtain ⟨hi, hw⟩ := hi0
        subst hi
        obtain ⟨h49, _⟩ := hws hw
        rw [hw] at hdig heq ⊢
        simp only [Bool.toNat_true, Nat.zero_sub, List.take_zero, decimal_nil, Nat.mul_zero,
          Nat.zero_add, Nat.sub_self] at hdig heq ⊢
        refine ⟨by rw [hlen, hw]; rfl, by intro c hc'; simp at hc', by omega, ?_⟩
        rw [htake]
        simp only [List.take_zero, decimal_nil]
        omega)
  rw [Nat.zero_add] at key
  obtain ⟨hlen, hdig, hc, heq⟩ := key
  rw [List.take_of_length_le (Nat.le_of_eq hlen)] at hdig heq
  rw [List.take_length] at heq
  exact ⟨_, rfl, hlen, hdig, hc, heq⟩

theorem lex_div2_eq (s : string) (hnz : s.head? ≠ some 48) :
    lex_div2 s
      = ((forUp (fun i (st : string × Nat) =>
          (if 0 < i || !(!s.isEmpty && s.getD 0 0 == 49) then
            st.1.set (i - (!s.isEmpty && s.getD 0 0 == 49).toNat)
              ((s.getD i 0 - 48 + st.2 * 10) / 2 + 48)
            else st.1, (s.getD i 0 - 48 + st.2 * 10) &&& 1))
          s.length 0
          (List.replicate (s.length - (!s.isEmpty && s.getD 0 0 == 49).toNat) 0, 0)).1,
        (forUp (fun i (st : string × Nat) =>
          (if 0 < i || !(!s.isEmpty && s.getD 0 0 == 49) then
            st.1.set (i - (!s.isEmpty && s.getD 0 0 == 49).toNat)
              ((s.getD i 0 - 48 + st.2 * 10) / 2 + 48)
            else st.1, (s.getD i 0 - 48 + st.2 * 10) &&& 1))
          s.length 0
          (List.replicate (s.length - (!s.isEmpty && s.getD 0 0 == 49).toNat) 0, 0)).2 != 0) := by
  cases s with
  | nil => rfl
  | cons c l =>
    have hc : c ≠ 48 := by simpa using hnz
    unfold lex_div2
    rw [find_first_not_of_head 48 c l hc]
    rfl

theorem lex_div2_spec (s : string) (hd : isDigits s) (hnz : s.head? ≠ some 48) :
    isDigits (lex_div2 s).1 ∧ (lex_div2 s).1.head? ≠ some 48
      ∧ decimal (lex_div2 s).1 = decimal s / 2
      ∧ ((lex_div2 s).2 = true ↔ decimal s % 2 = 1) := by
  have hws : (!s.isEmpty && s.getD 0 0 == 49) = true → s.getD 0 0 = 49 ∧ s ≠ [] := by
    intro h
    simp only [Bool.and_eq_true, Bool.not_eq_true', beq_iff_eq] at h
    refine ⟨h.2, ?_⟩
    intro he
    rw [he] at h
    simp at h
  obtain ⟨r, hr, hlen, hdig, hc, heq⟩ :=
    div2_loop_spec s hd (!s.isEmpty && s.getD 0 0 == 49) hws
  rw [lex_div2_eq s hnz, hr]
  refine ⟨hdig, ?_, by simp only; omega, ?_⟩
  · apply head_ne_zero_of_ge _ hdig
    intro hne
    rw [hlen]
    have hsne : s ≠ [] := by
      intro he
      rw [he] at hlen
      simp at hlen
      exact hne hlen
    cases s with
    | nil => exact absurd rfl hsne
    | cons c l =>
      have hc48 : c ≠ 48 := by simpa using hnz
      have hcd := hd c (List.mem_cons_self _ _)
      have hdl := decimal_lt l (fun u hu => hd u (List.mem_cons_of_mem _ hu))
      rw [decimal_cons] at heq
      simp only [List.isEmpty_cons, Bool.not_false, Bool.true_and, List.getD_cons_zero,
        List.length_cons] at heq hlen ⊢
      by_cases h49 : c = 49
      · subst h49
        simp only [beq_self_eq_true, Bool.toNat_true, Nat.add_sub_cancel] at heq hlen ⊢
        have hlpos : 0 < l.length := by
          rw [← hlen]; exact List.length_pos.mpr hne
        have hp : 10 ^ l.length = 10 * 10 ^ (l.length - 1) := by
          conv_lhs => rw [show l.length = l.length - 1 + 1 by omega]
          rw [pow_succ]; ring
        omega
      · have hb : (c == 49) = false := by simpa using h49
        simp only [hb, Bool.toNat_false, Nat.sub_zero, Nat.add_sub_cancel] at heq hlen ⊢
        have : 2 * 10 ^ l.length ≤ (c - 48) * 10 ^ l.length :=
          Nat.mul_le_mul_right _ (by omega)
        omega
  · simp only [bne_iff_ne, ne_eq]
    omega

end Integer

/-! ## The constructor from a string -/

namespace Integer
open integer

variable {Bits : Nat} {IS_SIGNED : Bool}

theorem or_shift (w r b : Nat) (hw : w < 2 ^ r) : w ||| 2 ^ r * b = 2 ^ r * b + w := by
  apply Nat.eq_of_testBit_eq
  intro j
  rw [Nat.testBit_or, Nat.testBit_mul_pow_two_add _ hw]
  have h0 := Nat.testBit_mul_pow_two_add b (show 0 < 2 ^ r by positivity) j
  rw [Nat.add_zero] at h0
  rw [h0]
  by_cases hj : j < r
  · simp [hj]
  · have : w.testBit j = false :=
      Nat.testBit_lt_two_pow (lt_of_lt_of_le hw (Nat.pow_le_pow_right (by norm_num) (by omega)))
    simp [hj, this]

theorem word_lt_of_toNat_lt (l : List Nat) (j r : Nat) (hj : j < l.length)
    (h : toNat l < 2 ^ (32 * j + r)) : l.getD j 0 < 2 ^ r := by
  have h1 := toNat_take_drop l (j + 1) (by omega)
  have h2 := toNat_take_succ l j hj
  rw [pow_add] at h
  have h3 : 2 ^ (32 * j) * l.getD j 0 < 2 ^ (32 * j) * 2 ^ r := by omega
  exact Nat.lt_of_mul_lt_mul_left h3

theorem str_zero : str "0" = [48] := by decide

theorem ofStr_loop_spec (n : Nat) : ∀ (count bit : Nat) (num : string) (ints : List Nat),
    isDigits num → num.head? ≠ some 48 → ints.length = n → (∀ w ∈ ints, w < 2 ^ 32) →
    toNat ints < 2 ^ bit → bit + count ≤ 32 * n →
    (ofStr_loop count bit num ints).length = n
      ∧ (∀ w ∈ ofStr_loop count bit num ints, w < 2 ^ 32)
      ∧ toNat (ofStr_loop count bit num ints) = toNat ints + 2 ^ bit * (decimal num % 2 ^ count) := by
  intro count
  induction count with
  | zero =>
    intro bit num ints _ _ hl hw _ _
    simp [ofStr_loop, hl, Nat.mod_one]
    exact hw
  | succ count ih =>
    intro bit num ints hd hnz hl hw ht hb
    have hne : num ≠ str "0" := by
      intro h
      rw [h, str_zero] at hnz
      simp at hnz
    obtain ⟨hd', hnz', hv, hodd⟩ := lex_div2_spec num hd hnz
    have hbit : bit = 32 * (bit / 32) + bit % 32 := (Nat.div_add_mod bit 32).symm
    have hj : bit / 32 < ints.length := by rw [hl]; omega
    have hr : bit % 32 < 32 := Nat.mod_lt _ (by norm_num)
    have hwj : ints.getD (bit / 32) 0 < 2 ^ (bit % 32) :=
      word_lt_of_toNat_lt ints _ _ hj (by rw [← hbit]; exact ht)
    have hb1 : (lex_div2 num).2.toNat ≤ 1 := by
      cases (lex_div2 num).2 <;> simp
    have hp32 : (2:ℕ) ^ (bit % 32) * 2 ≤ 2 ^ 32 := by
      rw [← pow_succ]
      exact Nat.pow_le_pow_right (by norm_num) (by omega)
    have hshl : shl32 (lex_div2 num).2.toNat (bit % 32) = 2 ^ (bit % 32) * (lex_div2 num).2.toNat := by
      unfold shl32
      rw [Nat.shiftLeft_eq, Nat.mul_comm]
      apply Nat.mod_eq_of_lt
      have : 2 ^ (bit % 32) * (lex_div2 num).2.toNat ≤ 2 ^ (bit % 32) * 1 :=
        Nat.mul_le_mul_left _ hb1
      omega
    have hor := or_shift (ints.getD (bit / 32) 0) (bit % 32) (lex_div2 num).2.toNat hwj
    have hnew : ints.getD (bit / 32) 0 ||| shl32 (lex_div2 num).2.toNat (bit % 32)
        = 2 ^ (bit % 32) * (lex_div2 num).2.toNat + ints.getD (bit / 32) 0 := by
      rw [hshl, hor]
    have hnewlt : 2 ^ (bit % 32) * (lex_div2 num).2.toNat + ints.getD (bit / 32) 0 < 2 ^ 32 := by
      have : 2 ^ (bit % 32) * (lex_div2 num).2.toNat ≤ 2 ^ (bit % 32) * 1 :=
        Nat.mul_le_mul_left _ hb1
      omega
    have hset := toNat_set ints (bit / 32) (2 ^ (bit % 32) * (lex_div2 num).2.toNat
      + ints.getD (bit / 32) 0) hj
    have hpow : (2:ℕ) ^ (32 * (bit / 32)) * 2 ^ (bit % 32) = 2 ^ bit := by
      rw [← pow_add, ← hbit]
    have htn : toNat (ints.set (bit / 32) (2 ^ (bit % 32) * (lex_div2 num).2.toNat
        + ints.getD (bit / 32) 0)) = toNat ints + 2 ^ bit * (lex_div2 num).2.toNat := by
      rw [Nat.mul_add, ← Nat.mul_assoc, hpow] at hset
      omega
    have htlt : toNat (ints.set (bit / 32) (2 ^ (bit % 32) * (lex_div2 num).2.toNat
        + ints.getD (bit / 32) 0)) < 2 ^ (bit + 1) := by
      rw [htn, pow_succ]
      have : 2 ^ bit * (lex_div2 num).2.toNat ≤ 2 ^ bit * 1 := Nat.mul_le_mul_left _ hb1
      omega
    obtain ⟨r1, r2, r3⟩ := ih (bit + 1) (lex_div2 num).1
      (ints.set (bit / 32) (2 ^ (bit % 32) * (lex_div2 num).2.toNat + ints.getD (bit / 32) 0))
      hd' hnz' (by simpa using hl) (mem_set_lt _ _ _ _ hw hnewlt) htlt (by omega)
    have hunf : ofStr_loop (count + 1) bit num ints
        = ofStr_loop count (bit + 1) (lex_div2 num).1
            (ints.set (bit / 32) (2 ^ (bit % 32) * (lex_div2 num).2.toNat
              + ints.getD (bit / 32) 0)) := by
      conv_lhs => unfold ofStr_loop
      rw [if_pos hne]
      simp only [hnew]
    rw [hunf]
    refine ⟨r1, r2, ?_⟩
    rw [r3, htn, hv]
    have hmod : decimal num % 2 ^ (count + 1)
        = decimal num % 2 + 2 * (decimal num / 2 % 2 ^ count) := by
      rw [pow_succ, Nat.mul_comm (2 ^ count) 2]
      exact Nat.mod_mul
    have hoddv : (lex_div2 num).2.toNat = decimal num % 2 := by
      cases hb : (lex_div2 num).2 with
      | true =>
        have := hodd.mp hb
        simp [this]
      | false =>
        have : ¬ decimal num % 2 = 1 := fun h => by
          have := hodd.mpr h
          rw [hb] at this
          cases this
        simp
        omega
    rw [hmod, hoddv, pow_succ]
    ring

theorem ofStr_digits_spec (s : string) (hs : isNumeral s) (hv : decimal s < 2 ^ (Bits - 1)) :
    (⟨ofStr_loop (Bits - 1) 0 s (zero : integer Bits true).ints⟩ : integer Bits true).wf
      ∧ toNat (ofStr_loop (Bits - 1) 0 s (zero : integer Bits true).ints) = decimal s := by
  by_cases h0 : s = [48]
  · subst h0
    have e : ofStr_loop (Bits - 1) 0 [48] (zero : integer Bits true).ints
        = (zero : integer Bits true).ints := by
      cases hc : Bits - 1 with
      | zero => rfl
      | succ c =>
        rw [ofStr_loop, if_neg (by rw [str_zero]; simp)]
    rw [e]
    exact ⟨zero_wf, by rw [zero_toNat]; rfl⟩
  · have hnz : s.head? ≠ some 48 := fun h => h0 (hs.2.2 h)
    obtain ⟨r1, r2, r3⟩ := ofStr_loop_spec (NUM_INTS Bits) (Bits - 1) 0 s
      (zero : integer Bits true).ints hs.2.1 hnz zero_wf.1 zero_wf.2
      (by rw [zero_toNat]; norm_num) (by have := bits_le Bits; omega)
    refine ⟨⟨r1, r2⟩, ?_⟩
    rw [r3, zero_toNat, Nat.mod_eq_of_lt hv]
    simp

end Integer

/-! ## The function `lex_add` -/

namespace Integer
open integer

theorem dig_le (a : string) (ha : isDigits a) (i : Nat) : dig a i ≤ 9 := by
  unfold dig
  split
  · rename_i h
    have hidx : a.length - i - 1 < a.length := by omega
    rw [List.getD_eq_getElem _ _ hidx]
    have := ha _ (List.getElem_mem hidx)
    omega
  · omega

theorem lowVal_eq_drop (a : string) (i : Nat) (h : i ≤ a.length) :
    lowVal a i = decimal (a.drop (a.length - i)) := by
  induction i with
  | zero => simp [lowVal, decimal]
  | succ i ih =>
    have hlt : a.length - (i + 1) < a.length := by omega
    rw [lowVal, ih (by omega), List.drop_eq_getElem_cons hlt,
      show a.length - (i + 1) + 1 = a.length - i by omega, ← List.getD_eq_getElem _ 0 hlt,
      decimal_cons]
    unfold dig
    rw [if_pos (by omega), List.length_drop,
      show a.length - (a.length - i) = i by omega,
      show a.length - i - 1 = a.length - (i + 1) by omega]
    omega

theorem lowVal_length (a : string) : lowVal a a.length = decimal a := by
  rw [lowVal_eq_drop a a.length (Nat.le_refl _)]
  simp

theorem lowVal_of_dig_zero (a : string) (m : Nat) (h : ∀ j, m ≤ j → dig a j = 0) :
    ∀ k, lowVal a (m + k) = lowVal a m := by
  intro k
  induction k with
  | zero => rfl
  | succ k ih =>
    rw [show m + (k + 1) = m + k + 1 by omega, lowVal, ih, h (m + k) (by omega)]
    simp

theorem dig_zero_of_ge (a : string) (j : Nat) (h : a.length ≤ j) : dig a j = 0 := by
  unfold dig
  rw [if_neg (by omega)]

/-- The length `alen2` of `lex_add`: past it the digits of `a` are zero. -/
theorem dig_zero_of_sig (a : string) (j : Nat)
    (h : (match find_first_not_of 48 a with
      | some a0 => a.length - a0
      | none => a.length) ≤ j) : dig a j = 0 := by
  cases hf : find_first_not_of 48 a with
  | none =>
    rw [hf] at h
    exact dig_zero_of_ge a j h
  | some a0 =>
    rw [hf] at h
    change a.length - a0 ≤ j at h
    obtain ⟨h1, _, h3⟩ := find_first_not_of_some 48 a a0 hf
    unfold dig
    split
    · rename_i hj
      have hpos : a.length - j - 1 < a0 := by omega
      have : a.getD (a.length - j - 1) 0 = 48 := by
        have e : a.getD (a.length - j - 1) 0 = (a.take a0).getD (a.length - j - 1) 0 := by
          rw [List.getD_eq_getElem?_getD, List.getD_eq_getElem?_getD, List.getElem?_take_of_lt hpos]
        rw [e, h3, List.getD_eq_getElem _ _ (by simpa using hpos)]
        simp
      rw [this]
    · rfl

theorem lowVal_of_sig (a : string) (m : Nat)
    (h : (match find_first_not_of 48 a with
      | some a0 => a.length - a0
      | none => a.length) ≤ m) : lowVal a m = decimal a := by
  rw [← lowVal_length a]
  rcases Nat.le_total m a.length with hle | hle
  · obtain ⟨k, hk⟩ := Nat.exists_eq_add_of_le hle
    rw [hk]
    exact (lowVal_of_dig_zero a m (fun j hj => dig_zero_of_sig a j (by omega)) k).symm
  · obtain ⟨k, hk⟩ := Nat.exists_eq_add_of_le hle
    rw [hk]
    exact lowVal_of_dig_zero a a.length (fun j hj => dig_zero_of_ge a j hj) k

theorem lex_add_carry_le (k c : Nat) (sum : string) (h : c ≤ 9) :
    lex_add_carry k c c sum = (c, sum) := by
  cases c with
  | zero => rfl
  | succ c => rw [lex_add_carry, if_neg (by omega)]

theorem lex_add_carry_gt (k c : Nat) (sum : string) (h1 : 10 ≤ c) (h2 : c ≤ 19) :
    lex_add_carry k c c sum = (c - 10, sum.set k (sum.getD k 0 + 1)) := by
  obtain ⟨d, rfl⟩ : ∃ d, c = d + 1 := ⟨c - 1, by omega⟩
  rw [lex_add_carry, if_pos (by omega)]
  obtain ⟨e, rfl⟩ : ∃ e, d = e + 1 := ⟨d - 1, by omega⟩
  rw [lex_add_carry, if_neg (by omega)]

theorem isDigits_set (l : string) (i v : Nat) (h : isDigits l) (hv : 48 ≤ v ∧ v ≤ 57) :
    isDigits (l.set i v) := by
  intro c hc
  rcases List.mem_or_eq_of_mem_set hc with h1 | h1
  · exact h c h1
  · rw [h1]; exact hv

theorem isDigits_replicate (n : Nat) : isDigits (List.replicate n 48) := by
  intro c hc
  rw [List.eq_of_mem_replicate hc]
  omega

theorem lex_add_loop_spec (a b : string) (ha : isDigits a) (hb : isDigits b) (len : Nat)
    (hla : dig a len = 0) (hlb : dig b len = 0) :
    ∃ r : string, forUp (fun i (sum : string) =>
        (lex_add_carry (len - i - 1)
          (sum.getD (len - i) 0 - 48 + (if i < a.length then a.getD (a.length - i - 1) 0 - 48 else 0)
            + (if i < b.length then b.getD (b.length - i - 1) 0 - 48 else 0))
          (sum.getD (len - i) 0 - 48 + (if i < a.length then a.getD (a.length - i - 1) 0 - 48 else 0)
            + (if i < b.length then b.getD (b.length - i - 1) 0 - 48 else 0)) sum).2.set (len - i)
          ((lex_add_carry (len - i - 1)
          (sum.getD (len - i) 0 - 48 + (if i < a.length then a.getD (a.length - i - 1) 0 - 48 else 0)
            + (if i < b.length then b.getD (b.length - i - 1) 0 - 48 else 0))
          (sum.getD (len - i) 0 - 48 + (if i < a.length then a.getD (a.length - i - 1) 0 - 48 else 0)
            + (if i < b.length then b.getD (b.length - i - 1) 0 - 48 else 0)) sum).1 + 48))
        (len + 1) 0 (List.replicate (len + 1) 48) = r
      ∧ r.length = len + 1 ∧ isDigits r
      ∧ decimal r = lowVal a (len + 1) + lowVal b (len + 1) := by
  have key := forUp_inv
    (fun i (sum : string) =>
      sum.length = len + 1 ∧ isDigits sum
        ∧ (∀ k, k + i < len → sum.getD k 0 = 48)
        ∧ (i ≤ len → sum.getD (len - i) 0 = 48 ∨ sum.getD (len - i) 0 = 49)
        ∧ decimal sum = lowVal a i + lowVal b i)
    (fun i (sum : string) =>
        (lex_add_carry (len - i - 1)
          (sum.getD (len - i) 0 - 48 + (if i < a.length then a.getD (a.length - i - 1) 0 - 48 else 0)
            + (if i < b.length then b.getD (b.length - i - 1) 0 - 48 else 0))
          (sum.getD (len - i) 0 - 48 + (if i < a.length then a.getD (a.length - i - 1) 0 - 48 else 0)
            + (if i < b.length then b.getD (b.length - i - 1) 0 - 48 else 0)) sum).2.set (len - i)
          ((lex_add_carry (len - i - 1)
          (sum.getD (len - i) 0 - 48 + (if i < a.length then a.getD (a.length - i - 1) 0 - 48 else 0)
            + (if i < b.length then b.getD (b.length - i - 1) 0 - 48 else 0))
          (sum.getD (len - i) 0 - 48 + (if i < a.length then a.getD (a.length - i - 1) 0 - 48 else 0)
            + (if i < b.length then b.getD (b.length - i - 1) 0 - 48 else 0)) sum).1 + 48))
    (len + 1) 0 (List.replicate (len + 1) 48)
    ⟨by simp, isDigits_replicate _, by
      intro k hk
      rw [List.getD_eq_getElem _ _ (by simp; omega)]
      simp, by
      intro _
      left
      rw [List.getD_eq_getElem _ _ (by simp)]
      simp, by
      rw [decimal_replicate_zero]; rfl⟩
    (by
      rintro i sum _ hlt ⟨hlen, hdig, hz, hcar, heq⟩
      have hi : i ≤ len := by omega
      have hxa : (if i < a.length then a.getD (a.length - i - 1) 0 - 48 else 0) = dig a i := rfl
      have hyb : (if i < b.length then b.getD (b.length - i - 1) 0 - 48 else 0) = dig b i := rfl
      simp only [hxa, hyb]
      have hx := dig_le a ha i
      have hy := dig_le b hb i
      have hs0 := hcar hi
      have hxy : i = len → dig a i = 0 ∧ dig b i = 0 := by
        intro h; rw [h]; exact ⟨hla, hlb⟩
      have hk0 : len - i < sum.length := by omega
      have hw : sum.length - 1 - (len - i) = i := by omega
      generalize hc : sum.getD (len - i) 0 - 48 + dig a i + dig b i = c
      have hc19 : c ≤ 19 := by omega
      by_cases hc9 : c ≤ 9
      · rw [lex_add_carry_le _ _ _ hc9]
        simp only
        have hset := decimal_set sum (len - i) (c + 48) hk0
        rw [hw] at hset
        refine ⟨by simpa using hlen, isDigits_set _ _ _ hdig (by omega), ?_, ?_, ?_⟩
        · intro k hk
          rw [getD_set_ne _ _ _ _ (by omega)]
          exact hz k (by omega)
        · intro hi1
          rw [getD_set_ne _ _ _ _ (by omega)]
          left
          exact hz (len - (i + 1)) (by omega)
        · rw [lowVal, lowVal]
          have e : (c + 48 - 48) * 10 ^ i
              = (sum.getD (len - i) 0 - 48) * 10 ^ i + dig a i * 10 ^ i + dig b i * 10 ^ i := by
            rw [← hc]
            simp only [Nat.add_sub_cancel]
            ring
          omega
      · have hi1 : i < len := by
          rcases Nat.lt_or_ge i len with h | h
          · exact h
          · have := hxy (by omega)
            omega
        rw [lex_add_carry_gt _ _ _ (by omega) hc19]
        simp only
        have hk1 : len - i - 1 < sum.length := by omega
        have h48 : sum.getD (len - i - 1) 0 = 48 := hz (len - i - 1) (by omega)
        rw [h48]
        have hset1 := decimal_set sum (len - i - 1) (48 + 1) hk1
        rw [h48, show sum.length - 1 - (len - i - 1) = i + 1 by omega] at hset1
        have hset2 := decimal_set (sum.set (len - i - 1) (48 + 1)) (len - i) (c - 10 + 48)
          (by simpa using hk0)
        rw [getD_set_ne _ _ _ _ (by omega), List.length_set, hw] at hset2
        refine ⟨by simpa using hlen,
          isDigits_set _ _ _ (isDigits_set _ _ _ hdig (by omega)) (by omega), ?_, ?_, ?_⟩
        · intro k hk
          rw [getD_set_ne _ _ _ _ (by omega), getD_set_ne _ _ _ _ (by omega)]
          exact hz k (by omega)
        · intro _
          right
          rw [getD_set_ne _ _ _ _ (by omega),
            show len - (i + 1) = len - i - 1 by omega, getD_set_self _ _ _ hk1]
        · rw [lowVal, lowVal]
          have e : (c - 10 + 48 - 48) * 10 ^ i + 10 * 10 ^ i
              = (sum.getD (len - i) 0 - 48) * 10 ^ i + dig a i * 10 ^ i + dig b i * 10 ^ i := by
            rw [← hc]
            have : sum.getD (len - i) 0 - 48 + dig a i + dig b i - 10 + 48 - 48 + 10
                = sum.getD (len - i) 0 - 48 + dig a i + dig b i := by omega
            rw [← Nat.add_mul, this]
            ring
          have e2 : (48 + 1 - 48) * 10 ^ (i + 1) = 10 * 10 ^ i := by
            rw [pow_succ]; ring
          have e3 : (48 - 48) * 10 ^ (i + 1) = 0 := by simp
          omega)
  rw [Nat.zero_add] at key
  obtain ⟨hlen, hdig, _, _, heq⟩ := key
  exact ⟨_, rfl, hlen, hdig, heq⟩

theorem lex_add_spec (a b : string) (ha : isDigits a) (hb : isDigits b) :
    isDigits (lex_add a b) ∧ lex_add a b ≠ []
      ∧ decimal (lex_add a b) = decimal a + decimal b := by
  have hla := dig_zero_of_sig a (max (match find_first_not_of 48 a with
      | some a0 => a.length - a0
      | none => a.length) (match find_first_not_of 48 b with
      | some b0 => b.length - b0
      | none => b.length)) (Nat.le_max_left _ _)
  have hlb := dig_zero_of_sig b (max (match find_first_not_of 48 a with
      | some a0 => a.length - a0
      | none => a.length) (match find_first_not_of 48 b with
      | some b0 => b.length - b0
      | none => b.length)) (Nat.le_max_right _ _)
  obtain ⟨r, hr, hlen, hdig, hdec⟩ := lex_add_loop_spec a b ha hb _ hla hlb
  have e : lex_add a b = r := hr
  rw [e]
  refine ⟨hdig, ?_, ?_⟩
  · intro h
    rw [h] at hlen
    simp at hlen
  · rw [hdec, lowVal_of_sig a _ (Nat.le_succ_of_le (Nat.le_max_left _ _)),
      lowVal_of_sig b _ (Nat.le_succ_of_le (Nat.le_max_right _ _))]

end Integer

/-! ## The function `lex_mul2` and the table of powers -/

namespace Integer
open integer

theorem lex_mul2_carry_le (x : Nat) (h : x ≤ 9) : lex_mul2_carry x x 0 = (x, 0) := by
  cases x with
  | zero => rfl
  | succ x => rw [lex_mul2_carry, if_neg (by omega)]

theorem lex_mul2_carry_gt (x : Nat) (h1 : 10 ≤ x) (h2 : x ≤ 19) :
    lex_mul2_carry x x 0 = (x - 10, 1) := by
  obtain ⟨d, rfl⟩ : ∃ d, x = d + 1 := ⟨x - 1, by omega⟩
  rw [lex_mul2_carry, if_pos (by omega)]
  obtain ⟨e, rfl⟩ : ∃ e, d = e + 1 := ⟨d - 1, by omega⟩
  rw [lex_mul2_carry, if_neg (by omega)]

theorem lex_mul2_loop_spec (s : string) (hd : isDigits s) :
    ∃ r : string × Nat, forDown (fun i (st : string × Nat) =>
        (st.1.set (i + 1) ((lex_mul2_carry (2 * (s.getD i 0 - 48) + st.2)
            (2 * (s.getD i 0 - 48) + st.2) 0).1 + 48),
          (lex_mul2_carry (2 * (s.getD i 0 - 48) + st.2) (2 * (s.getD i 0 - 48) + st.2) 0).2))
        s.length 0 (List.replicate (s.length + 1) 48, 0) = r
      ∧ r.1.length = s.length + 1 ∧ isDigits r.1 ∧ r.2 ≤ 1 ∧ r.1.getD 0 0 = 48
      ∧ decimal r.1 + r.2 * 10 ^ s.length = 2 * decimal s := by
  have key := forDown_inv
    (fun k (st : string × Nat) =>
      st.1.length = s.length + 1 ∧ isDigits st.1 ∧ st.2 ≤ 1
        ∧ (∀ j, j ≤ k → st.1.getD j 0 = 48)
        ∧ decimal st.1 + st.2 * 10 ^ (s.length - k) = 2 * decimal (s.drop k))
    (fun i (st : string × Nat) =>
        (st.1.set (i + 1) ((lex_mul2_carry (2 * (s.getD i 0 - 48) + st.2)
            (2 * (s.getD i 0 - 48) + st.2) 0).1 + 48),
          (lex_mul2_carry (2 * (s.getD i 0 - 48) + st.2) (2 * (s.getD i 0 - 48) + st.2) 0).2))
    0 s.length (List.replicate (s.length + 1) 48, 0)
    ⟨by simp, isDigits_replicate _, by simp, by
      intro j hj
      rw [List.getD_eq_getElem _ _ (by simp; omega)]
      simp, by
      simp [decimal_replicate_zero, decimal_nil]⟩
    (by
      rintro k ⟨d, carry⟩ hk ⟨hlen, hdig, hc, hz, heq⟩
      simp only [Nat.zero_add] at hlen hdig hc hz heq ⊢
      have hsk : 48 ≤ s.getD k 0 ∧ s.getD k 0 ≤ 57 := by
        rw [List.getD_eq_getElem _ _ hk]
        exact hd _ (List.getElem_mem _)
      have hdrop : decimal (s.drop k)
          = (s.getD k 0 - 48) * 10 ^ (s.length - k - 1) + decimal (s.drop (k + 1)) := by
        rw [List.drop_eq_getElem_cons hk, ← List.getD_eq_getElem _ 0 hk, decimal_cons,
          List.length_drop, show s.length - (k + 1) = s.length - k - 1 by omega]
      have hk1 : k + 1 < d.length := by omega
      have h48 : d.getD (k + 1) 0 = 48 := hz (k + 1) (Nat.le_refl _)
      have hpw : (10:ℕ) ^ (s.length - k) = 10 * 10 ^ (s.length - k - 1) := by
        conv_lhs => rw [show s.length - k = s.length - k - 1 + 1 by omega]
        rw [pow_succ]; ring
      rw [show s.length - (k + 1) = s.length - k - 1 by omega] at heq
      generalize hx : 2 * (s.getD k 0 - 48) + carry = x
      have hx19 : x ≤ 19 := by omega
      by_cases hx9 : x ≤ 9
      · rw [lex_mul2_carry_le x hx9]
        simp only
        have hset := decimal_set d (k + 1) (x + 48) hk1
        rw [h48, show d.length - 1 - (k + 1) = s.length - k - 1 by omega] at hset
        refine ⟨by simpa using hlen, isDigits_set _ _ _ hdig (by omega), by omega, ?_, ?_⟩
        · intro j hj
          rw [getD_set_ne _ _ _ _ (by omega)]
          exact hz j (by omega)
        · rw [hdrop]
          have e : (x + 48 - 48) * 10 ^ (s.length - k - 1)
              = 2 * ((s.getD k 0 - 48) * 10 ^ (s.length - k - 1))
                + carry * 10 ^ (s.length - k - 1) := by
            rw [← hx]
            simp only [Nat.add_sub_cancel]
            ring
          omega
      · rw [lex_mul2_carry_gt x (by omega) hx19]
        simp only
        have hset := decimal_set d (k + 1) (x - 10 + 48) hk1
        rw [h48, show d.length - 1 - (k + 1) = s.length - k - 1 by omega] at hset
        refine ⟨by simpa using hlen, isDigits_set _ _ _ hdig (by omega), by omega, ?_, ?_⟩
        · intro j hj
          rw [getD_set_ne _ _ _ _ (by omega)]
          exact hz j (by omega)
        · rw [hdrop, hpw]
          have e : (x - 10 + 48 - 48) * 10 ^ (s.length - k - 1) + 10 * 10 ^ (s.length - k - 1)
              = 2 * ((s.getD k 0 - 48) * 10 ^ (s.length - k - 1))
                + carry * 10 ^ (s.length - k - 1) := by
            rw [← Nat.add_mul, show x - 10 + 48 - 48 + 10 = x by omega, ← hx]
            ring
          omega)
  obtain ⟨hlen, hdig, hc, hz, heq⟩ := key
  exact ⟨_, rfl, hlen, hdig, hc, hz 0 (Nat.le_refl 0), by simpa using heq⟩

theorem lex_mul2_spec (s : string) (hd : isDigits s) :
    isNumeral (lex_mul2 s) ∧ decimal (lex_mul2 s) = 2 * decimal s := by
  obtain ⟨r, hr, hlen, hdig, hc, h0, heq⟩ := lex_mul2_loop_spec s hd
  have e : lex_mul2 s = ltrim (r.1.set 0 (r.2 + 48)) 48 := by
    rw [← hr]
    rfl
  rw [e]
  have hset := decimal_set r.1 0 (r.2 + 48) (by omega)
  rw [h0, show r.1.length - 1 - 0 = s.length by omega] at hset
  obtain ⟨h1, h2⟩ := ltrim_spec (r.1.set 0 (r.2 + 48))
    (by
      intro h
      have := congrArg List.length h
      rw [List.length_set, hlen, List.length_nil] at this
      omega)
    (isDigits_set _ _ _ hdig (by omega))
  refine ⟨h1, ?_⟩
  rw [h2]
  have e1 : (r.2 + 48 - 48) * 10 ^ s.length = r.2 * 10 ^ s.length := by
    rw [Nat.add_sub_cancel]
  have e2 : (48 - 48) * 10 ^ s.length = 0 := by simp
  omega

theorem integer_powers_spec (n : Nat) :
    isNumeral (INTEGER_POWERS n) ∧ decimal (INTEGER_POWERS n) = 2 ^ n := by
  induction n with
  | zero => exact ⟨by decide, by decide⟩
  | succ n ih =>
    obtain ⟨h1, h2⟩ := lex_mul2_spec (INTEGER_POWERS n) ih.1.2.1
    refine ⟨h1, ?_⟩
    rw [INTEGER_POWERS, h2, ih.2, pow_succ]
    ring

end Integer

/-! ## The conversion to a string -/

namespace Integer
open integer

variable {Bits : Nat} {IS_SIGNED : Bool}

theorem toNat_le_pow (l : List Nat) (hw : ∀ w ∈ l, w < 2 ^ 32) (d : Nat) :
    toNat (l.take d) < 2 ^ (32 * d) := by
  have h := toNat_lt (l.take d) (fun w hw' => hw w (List.mem_of_mem_take hw'))
  have hle : (l.take d).length ≤ d := by simp
  exact lt_of_lt_of_le h (Nat.pow_le_pow_right (by norm_num) (by omega))

theorem toNat_bit (l : List Nat) (hw : ∀ w ∈ l, w < 2 ^ 32) (d b : Nat) (hd : d < l.length)
    (hb : b < 32) :
    toNat l / 2 ^ (32 * d + b) % 2 = l.getD d 0 / 2 ^ b % 2 := by
  have h1 := toNat_take_drop l d (by omega)
  have h2 := toNat_le_pow l hw d
  have h3 : toNat (l.drop d) = l.getD d 0 + 2 ^ 32 * toNat (l.drop (d + 1)) := by
    rw [List.drop_eq_getElem_cons hd, ← List.getD_eq_getElem _ 0 hd]
    rfl
  have hpos : 0 < 2 ^ (32 * d) := by positivity
  have h4 : toNat l / 2 ^ (32 * d) = toNat (l.drop d) := by
    rw [h1, Nat.add_mul_div_left _ _ hpos, Nat.div_eq_of_lt h2, Nat.zero_add]
  have hp32 : (2:ℕ) ^ 32 = 2 ^ b * (2 * 2 ^ (31 - b)) := by
    rw [← pow_succ', ← pow_add, show b + (31 - b + 1) = 32 by omega]
  rw [pow_add, ← Nat.div_div_eq_div_mul, h4, h3, hp32,
    show 2 ^ b * (2 * 2 ^ (31 - b)) * toNat (l.drop (d + 1))
      = 2 ^ b * (2 * (2 ^ (31 - b) * toNat (l.drop (d + 1)))) by ring,
    Nat.add_mul_div_left _ _ (show 0 < 2 ^ b by positivity), Nat.add_mul_mod_self_left]

end Integer

namespace Integer
open integer

variable {Bits : Nat} {IS_SIGNED : Bool}

theorem toStr_loop_spec (a : integer Bits IS_SIGNED) (ha : a.wf)
    (hlt : toNat a.ints < 2 ^ (Bits - IS_SIGNED.toNat)) :
    ∃ num : string, forUp (fun d (num : string) =>
        forUp (fun b (num : string) =>
            if (a.ints.getD d 0 >>> b) &&& 1 ≠ 0 then lex_add num (INTEGER_POWERS (d * 32 + b))
            else num)
          (min 32 (Bits - IS_SIGNED.toNat - d * 32)) 0 num)
        (NUM_INTS Bits) 0 (str "0") = num
      ∧ isDigits num ∧ num ≠ [] ∧ decimal num = toNat a.ints := by
  have key := forUp_inv
    (fun d (num : string) =>
      isDigits num ∧ num ≠ [] ∧ decimal num = toNat a.ints % 2 ^ (32 * d))
    (fun d (num : string) =>
        forUp (fun b (num : string) =>
            if (a.ints.getD d 0 >>> b) &&& 1 ≠ 0 then lex_add num (INTEGER_POWERS (d * 32 + b))
            else num)
          (min 32 (Bits - IS_SIGNED.toNat - d * 32)) 0 num)
    (NUM_INTS Bits) 0 (str "0")
    ⟨by decide, by decide, by simp [Nat.mod_one]; decide⟩
    (by
      rintro d num _ hd ⟨hnd, hne, hdec⟩
      beta_reduce
      have inner := forUp_inv
        (fun b (num : string) =>
          isDigits num ∧ num ≠ [] ∧ decimal num = toNat a.ints % 2 ^ (32 * d + b))
        (fun b (num : string) =>
            if (a.ints.getD d 0 >>> b) &&& 1 ≠ 0 then lex_add num (INTEGER_POWERS (d * 32 + b))
            else num)
        (min 32 (Bits - IS_SIGNED.toNat - d * 32)) 0 num
        ⟨hnd, hne, by simpa using hdec⟩
        (by
          rintro b num' _ hb ⟨hnd', hne', hdec'⟩
          beta_reduce
          have hb32 : b < 32 := by omega
          have hbit := toNat_bit a.ints ha.2 d b (by rw [ha.1]; omega) hb32
          have hmod : toNat a.ints % 2 ^ (32 * d + (b + 1))
              = toNat a.ints % 2 ^ (32 * d + b)
                + 2 ^ (32 * d + b) * (toNat a.ints / 2 ^ (32 * d + b) % 2) := by
            rw [show 32 * d + (b + 1) = 32 * d + b + 1 by omega]
            exact Nat.mod_pow_succ
          rw [Nat.shiftRight_eq_div_pow, Nat.and_one_is_mod, ← hbit]
          rcases Nat.mod_two_eq_zero_or_one (toNat a.ints / 2 ^ (32 * d + b)) with h0 | h1
          · rw [if_neg (by omega)]
            refine ⟨hnd', hne', ?_⟩
            rw [hmod, h0, hdec']
            simp
          · rw [if_pos (by omega)]
            obtain ⟨hp1, hp2⟩ := integer_powers_spec (d * 32 + b)
            obtain ⟨q1, q2, q3⟩ := lex_add_spec num' (INTEGER_POWERS (d * 32 + b)) hnd' hp1.2.1
            refine ⟨q1, q2, ?_⟩
            rw [q3, hp2, hmod, h1, hdec', Nat.mul_comm d 32]
            simp)
      rw [Nat.zero_add] at inner
      obtain ⟨i1, i2, i3⟩ := inner
      refine ⟨i1, i2, ?_⟩
      rw [i3]
      by_cases hc : 32 ≤ Bits - IS_SIGNED.toNat - d * 32
      · rw [Nat.min_eq_left hc, show 32 * d + 32 = 32 * (d + 1) by ring]
      · have hle : 2 ^ (Bits - IS_SIGNED.toNat)
            ≤ 2 ^ (32 * d + min 32 (Bits - IS_SIGNED.toNat - d * 32)) :=
          Nat.pow_le_pow_right (by norm_num) (by omega)
        have hle2 : 2 ^ (Bits - IS_SIGNED.toNat) ≤ 2 ^ (32 * (d + 1)) :=
          Nat.pow_le_pow_right (by norm_num) (by omega)
        rw [Nat.mod_eq_of_lt (by omega), Nat.mod_eq_of_lt (by omega)])
  rw [Nat.zero_add] at key
  obtain ⟨k1, k2, k3⟩ := key
  refine ⟨_, rfl, k1, k2, ?_⟩
  rw [k3]
  have := toNat_lt a.ints ha.2
  rw [ha.1] at this
  exact Nat.mod_eq_of_lt this

theorem toStr_spec (x : integer Bits IS_SIGNED) (hxa : x.abs.wf)
    (hlt : toNat x.abs.ints < 2 ^ (Bits - IS_SIGNED.toNat)) (s : string) (hs : isNumeral s)
    (hv : decimal s = toNat x.abs.ints) :
    x.toStr = if x.is_negative then 45 :: s else s := by
  obtain ⟨num, hnum, h1, h2, h3⟩ := toStr_loop_spec x.abs hxa hlt
  obtain ⟨t1, t2⟩ := ltrim_spec num h2 h1
  have e : ltrim num 48 = s := numeral_unique _ _ t1 hs (by rw [t2, h3, hv])
  have : x.toStr = if x.is_negative then 45 :: ltrim num 48 else ltrim num 48 := by
    rw [← hnum]
    rfl
  rw [this, e]

end Integer

/-! ## The round trip through a string -/

namespace Integer
open integer

set_option maxRecDepth 8000

variable {Bits : Nat}

theorem ofStr_digits (s : string) (hs : isNumeral s) :
    (ofStr s : integer Bits true) = ⟨ofStr_loop (Bits - 1) 0 s (zero : integer Bits true).ints⟩
      ∧ (ofStr (43 :: s) : integer Bits true)
          = ⟨ofStr_loop (Bits - 1) 0 s (zero : integer Bits true).ints⟩
      ∧ (ofStr (45 :: s) : integer Bits true)
          = (⟨ofStr_loop (Bits - 1) 0 s (zero : integer Bits true).ints⟩ : integer Bits true).neg := by
  obtain ⟨hne, hd, _⟩ := hs
  cases s with
  | nil => exact absurd rfl hne
  | cons c l =>
    have hc := hd c (List.mem_cons_self _ _)
    have h45 : (c == 45) = false := by
      rw [beq_eq_false_iff_ne]; omega
    have h43 : (c == 43) = false := by
      rw [beq_eq_false_iff_ne]; omega
    refine ⟨?_, ?_, ?_⟩
    · unfold ofStr
      simp [h45, h43]
    · unfold ofStr
      simp
    · unfold ofStr
      simp

theorem nonneg_spec (x : integer Bits true) (hB : 0 < Bits) (hx : x.wf) (n : Nat)
    (hn : toNat x.ints = n) (hlt : n < 2 ^ (Bits - 1)) :
    x.is_negative = false ∧ x.abs = x ∧ x.canonical ∧ x.val = n := by
  have hp : (2:ℕ) ^ Bits = 2 * 2 ^ (Bits - 1) := by
    conv_lhs => rw [show Bits = Bits - 1 + 1 by omega]
    rw [pow_succ]; ring
  have hmod : toNat x.ints % 2 ^ Bits = n := by
    rw [hn]; exact Nat.mod_eq_of_lt (by omega)
  have hcond : ¬(true = true ∧ 2 ^ (Bits - 1) ≤ toNat x.ints % 2 ^ Bits) := by
    rw [hmod]; omega
  have hneg : x.is_negative = false := by
    cases h : x.is_negative with
    | false => rfl
    | true => exact absurd ((is_negative_iff x hB hx).mp h) hcond
  refine ⟨hneg, by unfold integer.abs; rw [hneg]; rfl,
    canonical_of x hx (Or.inl ⟨hcond, by rw [hmod, hn]⟩), ?_⟩
  unfold val
  rw [if_neg hcond, hmod]

theorem neg_of_pos_spec (x : integer Bits true) (hB : 0 < Bits) (hx : x.wf) (n : Nat)
    (hn : toNat x.ints = n) (hpos : 0 < n) (hlt : n < 2 ^ (Bits - 1)) :
    x.neg.canonical ∧ x.neg.val = -(n : ℤ) ∧ x.neg.is_negative = true
      ∧ x.neg.abs.wf ∧ toNat x.neg.abs.ints = n := by
  obtain ⟨hc, hv⟩ := neg_spec x hB hx
  have hlt' : ((n : ℕ) : ℤ) < 2 ^ (Bits - 1) := by exact_mod_cast hlt
  have hpos' : (0 : ℤ) < ((n : ℕ) : ℤ) := by exact_mod_cast hpos
  have hval : x.neg.val = -(n : ℤ) := by
    rw [val_of_emod x.neg hB (-(n : ℤ)) (by rw [hv, hn])]
    exact wrap_of_range Bits hB _ (by linarith) (by linarith)
  have hneg : x.neg.is_negative = true := by
    rw [is_negative_iff x.neg hB hc.1]
    refine ⟨rfl, ?_⟩
    by_contra hcon
    have : x.neg.val = ((toNat x.neg.ints % 2 ^ Bits : ℕ) : ℤ) := by
      unfold val
      rw [if_neg (fun h => hcon h.2)]
    rw [hval] at this
    have h0 : (0 : ℤ) ≤ ((toNat x.neg.ints % 2 ^ Bits : ℕ) : ℤ) := Int.natCast_nonneg _
    linarith
  obtain ⟨hc2, hv2⟩ := neg_spec x.neg hB hc.1
  have hval2 : x.neg.neg.val = (n : ℤ) := by
    rw [val_of_emod x.neg.neg hB (n : ℤ) (by
      rw [hv2]
      have m1 : Int.ModEq (2 ^ Bits) ((toNat x.neg.ints : ℕ) : ℤ) (-((toNat x.ints : ℕ) : ℤ)) := hv
      have m2 := m1.neg
      rw [neg_neg, hn] at m2
      exact m2)]
    exact wrap_of_range Bits hB _ (by linarith) (by linarith)
  have habs : x.neg.abs = x.neg.neg := by
    unfold integer.abs
    rw [hneg]
    rfl
  rw [habs]
  refine ⟨hc, hval, hneg, hc2.1, ?_⟩
  have h1 := hc2.2
  rw [hval2] at h1
  have hM : ((n : ℕ) : ℤ) < 2 ^ (32 * NUM_INTS Bits) := by
    have h2 : (2:ℤ) ^ (Bits - 1) ≤ 2 ^ (32 * NUM_INTS Bits) :=
      pow_le_pow_right₀ (by norm_num) (by have := bits_le Bits; omega)
    linarith
  rw [Int.emod_eq_of_lt (le_of_lt hpos') hM] at h1
  exact_mod_cast h1

/-- C24: at every width `Bits > 0`, for every canonical numeral `s` of a natural
number less than `2^(Bits-1)`: the `integer<Bits>` constructed from `s` is in
canonical form, represents that number, and converts back to `s`; the one
constructed from `+s` converts back to `s`, without the sign; and, when `s` is
not `0`, the one constructed from `-s` is in canonical form, represents the
negative number, and converts back to `-s`. -/
theorem string_round_trip (Bits : Nat) (hB : 0 < Bits) (s : string) (hs : isNumeral s)
    (hv : decimal s < 2 ^ (Bits - 1)) :
    (ofStr s : integer Bits true).canonical
      ∧ (ofStr s : integer Bits true).val = decimal s
      ∧ (ofStr s : integer Bits true).toStr = s
      ∧ (ofStr (43 :: s) : integer Bits true).toStr = s
      ∧ (s ≠ [48] → (ofStr (45 :: s) : integer Bits true).canonical
          ∧ (ofStr (45 :: s) : integer Bits true).val = -(decimal s : ℤ)
          ∧ (ofStr (45 :: s) : integer Bits true).toStr = 45 :: s) := by
  obtain ⟨e1, e2, e3⟩ := @ofStr_digits Bits s hs
  obtain ⟨hwf, hn⟩ := @ofStr_digits_spec Bits s hs hv
  obtain ⟨p1, p2, p3, p4⟩ := nonneg_spec _ hB hwf (decimal s) hn hv
  have hts : (⟨ofStr_loop (Bits - 1) 0 s (zero : integer Bits true).ints⟩ :
      integer Bits true).toStr = s := by
    have := toStr_spec (⟨ofStr_loop (Bits - 1) 0 s (zero : integer Bits true).ints⟩ :
      integer Bits true) (by rw [p2]; exact hwf) (by rw [p2, hn]; simpa using hv) s hs
      (by rw [p2, hn])
    rw [this, p1]
    rfl
  rw [e1, e2, e3]
  refine ⟨p3, p4, hts, hts, fun h0 => ?_⟩
  have hpos : 0 < decimal s := by
    have := (numeral_bounds s hs h0).1
    have hp : 0 < 10 ^ (s.length - 1) := by positivity
    omega
  obtain ⟨n1, n2, n3, n4, n5⟩ := neg_of_pos_spec _ hB hwf (decimal s) hn hpos hv
  refine ⟨n1, n2, ?_⟩
  have := toStr_spec (⟨ofStr_loop (Bits - 1) 0 s (zero : integer Bits true).ints⟩ :
      integer Bits true).neg n4 (by rw [n5]; simpa using hv) s hs (by rw [n5])
  rw [this, n3]
  rfl

/-- A concrete instance, the three conversions of `main` at `Bits = 100`. -/
theorem string_round_trip_witness :
    (ofStr (str "123456789123456789123456789") : integer 100 true).toStr
        = str "123456789123456789123456789"
      ∧ (ofStr (str "+123456789") : integer 100 true).toStr = str "123456789"
      ∧ (ofStr (str "-123456789") : integer 100 true).toStr = str "-123456789"
      ∧ (ofStr (str "-123456789") : integer 100 true).val = -123456789 :=
  ⟨(string_round_trip 100 (by decide) (str "123456789123456789123456789") (by decide)
      (by decide)).2.2.1,
    (string_round_trip 100 (by decide) (str "123456789") (by decide) (by decide)).2.2.2.1,
    ((string_round_trip 100 (by decide) (str "123456789") (by decide) (by decide)).2.2.2.2
      (by decide)).2.2,
    ((string_round_trip 100 (by decide) (str "123456789") (by decide) (by decide)).2.2.2.2
      (by decide)).2.1⟩

end Integer

/-! ## The comparison as an order of unsigned numbers, and the converting constructor -/

namespace Integer
open integer

variable {Bits : Nat} {IS_SIGNED : Bool}

theorem cmp_loop_spec (a b : List Nat) (ha : ∀ w ∈ a, w < 2 ^ 32) (hb : ∀ w ∈ b, w < 2 ^ 32) :
    ∀ i, i ≤ a.length → i ≤ b.length →
      cmp_loop a b i
        = if toNat (a.take i) < toNat (b.take i) then Ordering.lt
          else if toNat (a.take i) = toNat (b.take i) then Ordering.eq else Ordering.gt := by
  intro i
  induction i with
  | zero => intro _ _; simp [cmp_loop, toNat]
  | succ i ih =>
    intro hia hib
    have h1 := toNat_take_succ a i (by omega)
    have h2 := toNat_take_succ b i (by omega)
    have h3 := toNat_le_pow a ha i
    have h4 := toNat_le_pow b hb i
    rw [cmp_loop, h1, h2]
    generalize toNat (a.take i) = ta at *
    generalize toNat (b.take i) = tb at *
    generalize hA : 2 ^ (32 * i) = A at *
    by_cases hgt : a.getD i 0 > b.getD i 0
    · rw [if_pos hgt]
      have h5 : A * (b.getD i 0 + 1) ≤ A * a.getD i 0 := Nat.mul_le_mul_left _ hgt
      rw [Nat.mul_add, Nat.mul_one] at h5
      have n1 : ¬ (ta + A * a.getD i 0 < tb + A * b.getD i 0) := by omega
      have n2 : ¬ (ta + A * a.getD i 0 = tb + A * b.getD i 0) := by omega
      rw [if_neg n1, if_neg n2]
    · rw [if_neg hgt]
      by_cases hlt : a.getD i 0 < b.getD i 0
      · rw [if_pos hlt]
        have h5 : A * (a.getD i 0 + 1) ≤ A * b.getD i 0 := Nat.mul_le_mul_left _ hlt
        rw [Nat.mul_add, Nat.mul_one] at h5
        have n1 : ta + A * a.getD i 0 < tb + A * b.getD i 0 := by omega
        rw [if_pos n1]
      · rw [if_neg hlt, ih (by omega) (by omega)]
        have heq : a.getD i 0 = b.getD i 0 := by omega
        rw [heq]
        by_cases c1 : ta < tb
        · have n1 : ta + A * b.getD i 0 < tb + A * b.getD i 0 := by omega
          rw [if_pos c1, if_pos n1]
        · have n1 : ¬ (ta + A * b.getD i 0 < tb + A * b.getD i 0) := by omega
          rw [if_neg c1, if_neg n1]
          by_cases c2 : ta = tb
          · have n2 : ta + A * b.getD i 0 = tb + A * b.getD i 0 := by omega
            rw [if_pos c2, if_pos n2]
          · have n2 : ¬ (ta + A * b.getD i 0 = tb + A * b.getD i 0) := by omega
            rw [if_neg c2, if_neg n2]

/-- The comparison `operator <=>` is the order of the unsigned numbers that the
words of its operands hold. -/
theorem cmp_unsigned (x y : integer Bits IS_SIGNED) (hx : x.wf) (hy : y.wf) :
    x.cmp y = if toNat x.ints < toNat y.ints then Ordering.lt
      else if toNat x.ints = toNat y.ints then Ordering.eq else Ordering.gt := by
  unfold integer.cmp
  rw [cmp_loop_spec x.ints y.ints hx.2 hy.2 (NUM_INTS Bits) (by rw [hx.1]) (by rw [hy.1]),
    toNat_take_all _ _ hx.1, toNat_take_all _ _ hy.1]

theorem toNat_of_canonical (x : integer Bits true) (hB : 0 < Bits) (hx : x.canonical) :
    -2 ^ (Bits - 1) ≤ x.val ∧ x.val < 2 ^ (Bits - 1)
      ∧ (0 ≤ x.val → ((toNat x.ints : ℕ) : ℤ) = x.val)
      ∧ (x.val < 0 → ((toNat x.ints : ℕ) : ℤ) = x.val + 2 ^ (32 * NUM_INTS Bits)) := by
  have hr := wrap_range Bits hB (toNat x.ints)
  rw [← val_eq_wrap x hB] at hr
  have hM : (2:ℤ) ^ (Bits - 1) < 2 ^ (32 * NUM_INTS Bits) :=
    pow_lt_pow_right₀ (by norm_num) (by have := bits_le Bits; omega)
  refine ⟨hr.1, hr.2, fun h => ?_, fun h => ?_⟩
  · rw [hx.2, Int.emod_eq_of_lt h (by linarith)]
  · rw [hx.2]
    have : x.val = (x.val + 2 ^ (32 * NUM_INTS Bits)) + (-1) * 2 ^ (32 * NUM_INTS Bits) := by ring
    conv_lhs => rw [this]
    rw [Int.add_mul_emod_self, Int.emod_eq_of_lt (by linarith) (by linarith)]

/-- On operands in canonical form, `operator <=>` agrees with the order of the
represented numbers when both are negative or both are not, and returns
`greater` whenever the left one is negative and the right one is not. -/
theorem cmp_signs (x y : integer Bits true) (hB : 0 < Bits) (hx : x.canonical)
    (hy : y.canonical) :
    ((x.val < 0 ↔ y.val < 0) →
        (x.cmp y = Ordering.lt ↔ x.val < y.val) ∧ (x.cmp y = Ordering.eq ↔ x.val = y.val)
          ∧ (x.cmp y = Ordering.gt ↔ y.val < x.val))
      ∧ (x.val < 0 → 0 ≤ y.val → x.cmp y = Ordering.gt)
      ∧ (0 ≤ x.val → y.val < 0 → x.cmp y = Ordering.lt) := by
  obtain ⟨x1, x2, x3, x4⟩ := toNat_of_canonical x hB hx
  obtain ⟨y1, y2, y3, y4⟩ := toNat_of_canonical y hB hy
  have hM : (2:ℤ) ^ Bits ≤ 2 ^ (32 * NUM_INTS Bits) :=
    pow_le_pow_right₀ (by norm_num) (bits_le Bits)
  have hP := two_pow_bits Bits hB
  have hc := cmp_unsigned x y hx.1 hy.1
  have k1 : x.cmp y = Ordering.lt ↔ ((toNat x.ints : ℕ) : ℤ) < ((toNat y.ints : ℕ) : ℤ) := by
    rw [hc, Nat.cast_lt]
    split_ifs with c1 c2 <;> simp <;> omega
  have k2 : x.cmp y = Ordering.eq ↔ ((toNat x.ints : ℕ) : ℤ) = ((toNat y.ints : ℕ) : ℤ) := by
    rw [hc, Nat.cast_inj]
    split_ifs with c1 c2 <;> simp <;> omega
  have k3 : x.cmp y = Ordering.gt ↔ ((toNat y.ints : ℕ) : ℤ) < ((toNat x.ints : ℕ) : ℤ) := by
    rw [hc, Nat.cast_lt]
    split_ifs with c1 c2 <;> simp <;> omega
  refine ⟨fun hs => ?_, fun h1 h2 => ?_, fun h1 h2 => ?_⟩
  · rw [k1, k2, k3]
    by_cases hxn : x.val < 0
    · have hyn := hs.mp hxn
      rw [x4 hxn, y4 hyn]
      refine ⟨?_, ?_, ?_⟩ <;> constructor <;> intro h <;> linarith
    · have hyn : ¬ y.val < 0 := fun h => hxn (hs.mpr h)
      rw [x3 (by linarith), y3 (by linarith)]
      exact ⟨Iff.rfl, Iff.rfl, Iff.rfl⟩
  · rw [k3, x4 h1, y3 h2]
    linarith
  · rw [k1, x3 h1, y4 h2]
    linarith

/-- The converting constructor never extends the sign: its test `x < 0` is false
for every `x`, so the added words are zero.  A non-negative `x` keeps its
value. -/
theorem widen_zero_fill (Bits0 Bits : Nat) (hB0 : 0 < Bits0) (hlt : Bits0 < Bits)
    (x : integer Bits0 true) (hx : x.canonical) :
    widen Bits true x = ⟨x.ints ++ List.replicate (NUM_INTS Bits - NUM_INTS Bits0) 0⟩
      ∧ (0 ≤ x.val → (widen Bits true x).canonical ∧ (widen Bits true x).val = x.val) := by
  have h0 := @ofInt32_spec Bits0 true 0 hB0 (by norm_num) (by norm_num)
  have hc := cmp_unsigned x (ofInt32 0) hx.1 h0.1
  have hne : x.cmp (ofInt32 0) ≠ Ordering.lt := by
    rw [hc]
    by_cases c1 : toNat x.ints < toNat (ofInt32 0 : integer Bits0 true).ints
    · exfalso
      have hz : toNat (ofInt32 0 : integer Bits0 true).ints = 0 := by
        have hw := h0.1
        have h1 := h0.2
        have hcan : (ofInt32 0 : integer Bits0 true).val = 0 := by
          rw [val_of_emod _ hB0 0 h1]
          exact wrap_of_range Bits0 hB0 0 (by
            have : (0:ℤ) < 2 ^ (Bits0 - 1) := by positivity
            linarith) (by positivity)
        by_cases hsm : Bits0 < 32
        · have hcc : (ofInt32 0 : integer Bits0 true).canonical := by
            unfold ofInt32
            simp only
            rw [if_pos hsm]
            exact (extend_sign_spec _ hB0 ⟨by
              obtain ⟨k, _, _, _, hN, _⟩ := num_ints_cases Bits0 hB0
              simp; omega, by
              intro w hw'
              rcases List.mem_cons.mp hw' with h | h
              · rw [h]; norm_num
              · rw [List.eq_of_mem_replicate h]; norm_num⟩).1
          have := (toNat_of_canonical _ hB0 hcc).2.2.1 (by rw [hcan])
          rw [hcan] at this
          exact_mod_cast this
        · have e : (ofInt32 0 : integer Bits0 true)
              = ⟨0 :: List.replicate (NUM_INTS Bits0 - 1) 0⟩ := by
            unfold ofInt32
            simp [hsm]
          rw [e]
          show 0 + 2 ^ 32 * toNat (List.replicate (NUM_INTS Bits0 - 1) 0) = 0
          rw [toNat_replicate_zero]
          rfl
      omega
    · rw [if_neg c1]
      split <;> simp
  have hw : widen Bits true x
      = ⟨x.ints ++ List.replicate (NUM_INTS Bits - NUM_INTS Bits0) 0⟩ := by
    unfold widen
    simp only [if_neg hne]
  refine ⟨hw, fun hnn => ?_⟩
  rw [hw]
  obtain ⟨x1, x2, x3, _⟩ := toNat_of_canonical x hB0 hx
  have hle : NUM_INTS Bits0 ≤ NUM_INTS Bits := by unfold NUM_INTS; omega
  have hwf : wf (⟨x.ints ++ List.replicate (NUM_INTS Bits - NUM_INTS Bits0) 0⟩ :
      integer Bits true) := by
    refine ⟨by simp [hx.1.1]; omega, ?_⟩
    intro w hw'
    rcases List.mem_append.mp hw' with h | h
    · exact hx.1.2 w h
    · rw [List.eq_of_mem_replicate h]; norm_num
  have htn : toNat (x.ints ++ List.replicate (NUM_INTS Bits - NUM_INTS Bits0) 0)
      = toNat x.ints := by
    rw [toNat_append, toNat_replicate_zero]
    simp
  have hval : ((toNat x.ints : ℕ) : ℤ) = x.val := x3 hnn
  have hlt2 : toNat x.ints < 2 ^ (Bits - 1) := by
    have h1 : ((toNat x.ints : ℕ) : ℤ) < 2 ^ (Bits0 - 1) := by rw [hval]; exact x2
    have h2 : toNat x.ints < 2 ^ (Bits0 - 1) := by exact_mod_cast h1
    exact lt_of_lt_of_le h2 (Nat.pow_le_pow_right (by norm_num) (by omega))
  obtain ⟨_, _, p3, p4⟩ := nonneg_spec (⟨x.ints ++ List.replicate (NUM_INTS Bits - NUM_INTS Bits0) 0⟩ :
    integer Bits true) (by omega) hwf (toNat x.ints) htn hlt2
  exact ⟨p3, by rw [p4, hval]⟩

end Integer

/-! ## Comparison, widening, division and shifts at given inputs -/

namespace Integer
open integer

set_option maxRecDepth 8000

/-- C27, the code at the failing input: at `Bits = 100` the objects `-1` and `0`
are in canonical form and represent -1 and 0; `operator <=>` compares their top
words `0xFFFFFFFF` and `0` as unsigned numbers and returns `greater` for
`-1 <=> 0` and `less` for `0 <=> -1`, so `-1 < 0` is false. -/
theorem cmp_minus_one_zero :
    (ofInt32 (-1) : integer 100 true).canonical ∧ (ofInt32 0 : integer 100 true).canonical
      ∧ (ofInt32 (-1) : integer 100 true).val = -1 ∧ (ofInt32 0 : integer 100 true).val = 0
      ∧ (ofInt32 (-1) : integer 100 true).cmp (ofInt32 0) = Ordering.gt
      ∧ (ofInt32 0 : integer 100 true).cmp (ofInt32 (-1)) = Ordering.lt := by
  decide

/-- C28, the code at the failing input: the `integer<50>` of value -1 is in
canonical form; the `integer<100>` constructed from it has the two words of the
source and two words of zeros, since the test `x < 0` of the constructor is
false; it represents `2^64 - 1`. -/
theorem widen_minus_one :
    (ofInt32 (-1) : integer 50 true).canonical ∧ (ofInt32 (-1) : integer 50 true).val = -1
      ∧ (ofInt32 (-1) : integer 50 true).cmp (ofInt32 0) = Ordering.gt
      ∧ widen 100 true (ofInt32 (-1) : integer 50 true) = ⟨[4294967295, 4294967295, 0, 0]⟩
      ∧ (widen 100 true (ofInt32 (-1) : integer 50 true)).val = 18446744073709551615 := by
  decide

/-- C29, the code at the failing input: at `Bits = 100`, `divmod` of -7 and 2
returns the quotient -3 and the remainder 1, after three subtractions, and
`q * y + r` is -5. -/
theorem divmod_minus_seven_two :
    (ofInt32 (-7) : integer 100 true).canonical ∧ (ofInt32 2 : integer 100 true).canonical
      ∧ (ofInt32 (-7) : integer 100 true).val = -7 ∧ (ofInt32 2 : integer 100 true).val = 2
      ∧ divmod 4 (ofInt32 (-7) : integer 100 true) (ofInt32 2)
          = some (ofInt32 (-3), ofInt32 1)
      ∧ (ofInt32 (-3) : integer 100 true).val = -3 ∧ (ofInt32 1 : integer 100 true).val = 1
      ∧ (((ofInt32 (-3) : integer 100 true).mul (ofInt32 2)).plus (ofInt32 1)).val = -5 := by
  decide

/-- C30, the code at the failing input: at `Bits = 100` the object with the words
`0, 0, 0, 1` is in canonical form and represents `2^96`; shifted right by 32 it
is 0, where `floor(2^96 / 2^32)` is `2^64`: the second loop of `operator >>=`
overwrites the word that the first loop has moved down. -/
theorem shr_word_move :
    (⟨[0, 0, 0, 1]⟩ : integer 100 true).canonical
      ∧ (⟨[0, 0, 0, 1]⟩ : integer 100 true).val = 2 ^ 96
      ∧ (⟨[0, 0, 0, 1]⟩ : integer 100 true).shr 32 = ⟨[0, 0, 0, 0]⟩
      ∧ ((⟨[0, 0, 0, 1]⟩ : integer 100 true).shr 32).val = 0
      ∧ (⟨[0, 0, 0, 1]⟩ : integer 100 true).shr 31 = ⟨[0, 0, 2, 0]⟩
      ∧ (⟨[0, 0, 1, 0]⟩ : integer 100 true).shr 64 = ⟨[1, 0, 1, 0]⟩ := by
  decide

end Integer

/-! ## The representation invariant of the integer -/

namespace Integer
open integer

set_option maxRecDepth 8000

/-- C31: the representation invariant is not kept by every constructor and
public operator.  For the unsigned 49-bit zero, which satisfies it, `~x` has both
words `0xFFFFFFFF`: the bits 17 to 31 of the top word are set, not zero, and `<=>`
finds `~x` greater than the value built from the string `562949953421311`, which
has the same 49 low bits and the same decimal string.  `x <<= 99` on the signed
100-bit 1 leaves the top word 8: bit 99 is set and the 28 bits above it are clear,
where `x << 99` has them set.  The converting constructor of the unsigned 60-bit
type from the signed 50-bit -1 copies two words `0xFFFFFFFF`, so that the bits 28
to 31 of the top word are set.  On the signed 50-bit -1 and 0, which both satisfy
the invariant, `<=>` answers greater. -/
theorem rep_invariant_not_kept :
    rep_invariant (zero : integer 49 false)
      ∧ (not (zero : integer 49 false)).ints = [4294967295, 4294967295]
      ∧ ¬ rep_invariant (not (zero : integer 49 false))
      ∧ rep_invariant (ofStr (str "562949953421311") : integer 49 false)
      ∧ toStr (not (zero : integer 49 false)) = str "562949953421311"
      ∧ toStr (ofStr (str "562949953421311") : integer 49 false) = str "562949953421311"
      ∧ cmp (not (zero : integer 49 false)) (ofStr (str "562949953421311")) = Ordering.gt
      ∧ rep_invariant (ofInt32 1 : integer 100 true)
      ∧ (shl_assign (ofInt32 1 : integer 100 true) 99).ints = [0, 0, 0, 8]
      ∧ ¬ rep_invariant (shl_assign (ofInt32 1 : integer 100 true) 99)
      ∧ (shl (ofInt32 1 : integer 100 true) 99).ints = [0, 0, 0, 4294967288]
      ∧ rep_invariant (shl (ofInt32 1 : integer 100 true) 99)
      ∧ rep_invariant (ofInt32 (-1) : integer 50 true)
      ∧ (widen 60 false (ofInt32 (-1) : integer 50 true)).ints = [4294967295, 4294967295]
      ∧ ¬ rep_invariant (widen 60 false (ofInt32 (-1) : integer 50 true))
      ∧ rep_invariant (ofInt32 0 : integer 50 true)
      ∧ cmp (ofInt32 (-1) : integer 50 true) (ofInt32 0) = Ordering.gt := by
  decide

end Integer

/-! ## The order-2 curve as a map onto the grid, the order-3 curve, and the codes -/

namespace Hilbert

set_option maxRecDepth 20000

theorem index_eq_get (c : curve) (i : Nat) (h : i < c.length) :
    index c i = c.get ⟨i, h⟩ := by
  unfold index
  rw [List.getD_eq_getElem _ _ h]
  rfl

/-- C32: the order-2 curve `hilbert_curve<2>()` visits every cell of the 4 x 4 x 4
grid exactly once: it has 64 points, `i -> hc[i]` is injective on `0 <= i < 64`,
every point has its three coordinates below 4, and every cell of `{0,1,2,3}^3` is
some `hc[i]`; and the point `8k + j` of sub-curve `k` lies in the 2 x 2 x 2 octant
whose corner is `2 * proto_curve[k]`. -/
theorem order2_bijection :
    (hilbert_curve 2 2).length = 64
      ∧ (∀ i j : Nat, i < 64 → j < 64 →
          index (hilbert_curve 2 2) i = index (hilbert_curve 2 2) j → i = j)
      ∧ (∀ i : Nat, i < 64 → (index (hilbert_curve 2 2) i).x < 4
          ∧ (index (hilbert_curve 2 2) i).y < 4 ∧ (index (hilbert_curve 2 2) i).z < 4)
      ∧ (∀ x y z : Nat, x < 4 → y < 4 → z < 4 →
          ∃ i : Nat, i < 64 ∧ index (hilbert_curve 2 2) i = ⟨x, y, z⟩)
      ∧ (∀ k j : Nat, k < 8 → j < 8 →
          2 * (proto_curve.getD k ⟨false, false, false⟩).toUvec3.x
              ≤ (index (hilbert_curve 2 2) (8 * k + j)).x
          ∧ (index (hilbert_curve 2 2) (8 * k + j)).x
              ≤ 2 * (proto_curve.getD k ⟨false, false, false⟩).toUvec3.x + 1
          ∧ 2 * (proto_curve.getD k ⟨false, false, false⟩).toUvec3.y
              ≤ (index (hilbert_curve 2 2) (8 * k + j)).y
          ∧ (index (hilbert_curve 2 2) (8 * k + j)).y
              ≤ 2 * (proto_curve.getD k ⟨false, false, false⟩).toUvec3.y + 1
          ∧ 2 * (proto_curve.getD k ⟨false, false, false⟩).toUvec3.z
              ≤ (index (hilbert_curve 2 2) (8 * k + j)).z
          ∧ (index (hilbert_curve 2 2) (8 * k + j)).z
              ≤ 2 * (proto_curve.getD k ⟨false, false, false⟩).toUvec3.z + 1) := by
  have hlen : (hilbert_curve 2 2).length = 64 := by decide
  have hnd : (hilbert_curve 2 2).Nodup := by decide
  refine ⟨hlen, ?_, ?_, ?_, ?_⟩
  · intro i j hi hj h
    rw [index_eq_get _ i (by omega), index_eq_get _ j (by omega)] at h
    exact Fin.mk.inj ((List.Nodup.get_inj_iff hnd).mp h)
  · intro i hi
    have h : ∀ k : Fin 64, (index (hilbert_curve 2 2) k.val).x < 4
        ∧ (index (hilbert_curve 2 2) k.val).y < 4
        ∧ (index (hilbert_curve 2 2) k.val).z < 4 := by
      decide
    exact h ⟨i, hi⟩
  · intro x y z hx hy hz
    have h : ∀ a b c : Fin 4, (⟨a.val, b.val, c.val⟩ : uvec3) ∈ hilbert_curve 2 2 := by
      decide
    obtain ⟨i, hi, e⟩ := List.mem_iff_getElem.mp (h ⟨x, hx⟩ ⟨y, hy⟩ ⟨z, hz⟩)
    exact ⟨i, by omega, by rw [index_eq_get _ i hi]; exact e⟩
  · intro k j hk hj
    have h : ∀ a b : Fin 8,
        2 * (proto_curve.getD a.val ⟨false, false, false⟩).toUvec3.x
              ≤ (index (hilbert_curve 2 2) (8 * a.val + b.val)).x
          ∧ (index (hilbert_curve 2 2) (8 * a.val + b.val)).x
              ≤ 2 * (proto_curve.getD a.val ⟨false, false, false⟩).toUvec3.x + 1
          ∧ 2 * (proto_curve.getD a.val ⟨false, false, false⟩).toUvec3.y
              ≤ (index (hilbert_curve 2 2) (8 * a.val + b.val)).y
          ∧ (index (hilbert_curve 2 2) (8 * a.val + b.val)).y
              ≤ 2 * (proto_curve.getD a.val ⟨false, false, false⟩).toUvec3.y + 1
          ∧ 2 * (proto_curve.getD a.val ⟨false, false, false⟩).toUvec3.z
              ≤ (index (hilbert_curve 2 2) (8 * a.val + b.val)).z
          ∧ (index (hilbert_curve 2 2) (8 * a.val + b.val)).z
              ≤ 2 * (proto_curve.getD a.val ⟨false, false, false⟩).toUvec3.z + 1 := by
      decide
    exact h ⟨k, hk⟩ ⟨j, hj⟩

/-- A concrete instance: point 8, the first of sub-curve 1, is `(0, 2, 0)`, inside
the grid and inside the octant with corner `2 * proto_curve[1] = (0, 2, 0)`. -/
theorem order2_bijection_witness :
    index (hilbert_curve 2 2) 8 = ⟨0, 2, 0⟩
      ∧ (proto_curve.getD 1 ⟨false, false, false⟩).toUvec3 = ⟨0, 1, 0⟩
      ∧ (index (hilbert_curve 2 2) 8).y < 4
      ∧ 2 * (proto_curve.getD 1 ⟨false, false, false⟩).toUvec3.y
          ≤ (index (hilbert_curve 2 2) (8 * 1 + 0)).y
      ∧ (index (hilbert_curve 2 2) (8 * 1 + 0)).y
          ≤ 2 * (proto_curve.getD 1 ⟨false, false, false⟩).toUvec3.y + 1 :=
  ⟨by decide, by decide, (order2_bijection.2.2.1 8 (by decide)).2.1,
    (order2_bijection.2.2.2.2 1 0 (by decide) (by decide)).2.2.1,
    (order2_bijection.2.2.2.2 1 0 (by decide) (by decide)).2.2.2.1⟩

/-- C33: the order-3 curve `hilbert_curve<3>()` has 512 points, and its points
`hc[7] = (0, 0, 1)` and `hc[8] = (0, 3, 1)` are at Manhattan distance 3, not 1.
The loop of `test_hilbert`, run on this curve over its first 128 indices, prints
`ERROR` at thirteen of them, the first being 8. -/
theorem order3_not_adjacent :
    (hilbert_curve 3 3).length = 512
      ∧ index (hilbert_curve 3 3) 7 = ⟨0, 0, 1⟩ ∧ index (hilbert_curve 3 3) 8 = ⟨0, 3, 1⟩
      ∧ magnitude ((index (hilbert_curve 3 3) 8).toIvec3.sub
          (index (hilbert_curve 3 3) (8 - 1)).toIvec3) = 3
      ∧ test_hilbert 3 = [8, 16, 24, 32, 48, 56, 64, 72, 80, 88, 104, 112, 120] := by
  decide

/-- C34: `decode<N>` does not undo `encode<N>` once `N` is 2 or more.  `encode`
shifts the bits of level `i = 0, 1, ...` in from below, so the lowest bit of `x`
ends as bit `3N - 1` of the code, while `decode` takes level `i` from the bits
`3i + 2`, `3i + 1`, `3i`.  For `N = 2`, `encode<2>` of `(1, 0, 0)` is 32 and
`decode<2>(32)` is `(2, 0, 0)`; `decode<2>(1)` is `(0, 0, 1)` and `encode<2>` of it
is 8.  For every `N` from 2 to 21, `decode<N>(encode<N>((1, 0, 0)))` is
`(2^(N-1), 0, 0)`.  For `N = 1` both round trips hold. -/
theorem decode_encode_mismatch :
    encode 2 ⟨1, 0, 0⟩ = 32 ∧ decode 2 32 = ⟨2, 0, 0⟩
      ∧ decode 2 (encode 2 ⟨1, 0, 0⟩) ≠ ⟨1, 0, 0⟩
      ∧ decode 2 1 = ⟨0, 0, 1⟩ ∧ encode 2 ⟨0, 0, 1⟩ = 8
      ∧ encode 2 (decode 2 1) ≠ 1
      ∧ (∀ N : Fin 20, decode (N.val + 2) (encode (N.val + 2) ⟨1, 0, 0⟩)
          = ⟨2 ^ (N.val + 1), 0, 0⟩)
      ∧ (∀ x y z : Fin 2, decode 1 (encode 1 ⟨x.val, y.val, z.val⟩)
          = ⟨x.val, y.val, z.val⟩)
      ∧ (∀ s : Fin 8, encode 1 (decode 1 s.val) = s.val) := by
  decide

end Hilbert
